import Mathlib

/-!
# Verification of the codepod sandbox core

A shallow embedding, in Lean 4, of the parts of the codepod/wasmsand
orchestrator that the specification's testable properties talk about:

* the asynchronous pipe with back-pressure, EOF and EPIPE
  (`packages/orchestrator/src/vfs/pipe.ts`, `createAsyncPipe`),
* the in-memory VFS (`packages/orchestrator/src/vfs/vfs.ts`),
* the state serializer (`exportState` / `importState`),
* the `Sandbox.run` timeout race (`sandbox.ts`).

Machine numbers that can go negative in JS (`capacity - totalBytes`) are
computed in `Int`; sizes that are provably non-negative stay in `Nat`.
Byte arrays (`Uint8Array`) are `List Nat`, JS `Map`s preserving insertion
order are association lists.
-/

namespace Codepod

/-! ## Async pipe (`createAsyncPipe` in vfs/pipe.ts)

The JS implementation keeps a shared mutable record `AsyncPipeBuffer`; the
continuations of a suspended reader (`pendingReader`/`pendingReaderBuf`)
and of a suspended writer (`pendingWriter`/`pendingWriterData`) are slots
in that record.  We embed it as a state machine: each operation maps a
`PipeState` to a new state plus the visible events — the value returned
synchronously, the bytes handed to a resolved pending reader (the reader's
promise resolves with their count), and the value a resolved pending
writer's promise receives.  A pending reader is represented by the length
of its caller-supplied buffer; a pending writer by its residual data. -/

namespace AsyncPipe

structure PipeState where
  chunks : List (List Nat)
  totalBytes : Nat
  writeClosed : Bool
  readClosed : Bool
  capacity : Nat
  /-- Length of the buffer of the suspended reader, if one is parked. -/
  pendingReader : Option Nat
  /-- Residual data of the suspended writer, if one is parked. -/
  pendingWriter : Option (List Nat)
deriving Repr, DecidableEq

/-- Fresh pipe as built by `createAsyncPipe(capacity)`. -/
def initPipe (capacity : Nat) : PipeState :=
  { chunks := [], totalBytes := 0, writeClosed := false, readClosed := false,
    capacity := capacity, pendingReader := none, pendingWriter := none }

/-- `drainChunks(buf)`: copy buffered chunks into a buffer of length `n`,
front first, splitting the first chunk when it does not fit.  Returns the
copied bytes (the JS code returns their count and writes them into `buf`)
and the remaining chunk queue. -/
def drainChunks : Nat → List (List Nat) → List Nat × List (List Nat)
  | _, [] => ([], [])
  | 0, cs => ([], cs)
  | n+1, c :: cs =>
    if c.length ≤ n+1 then
      let r := drainChunks (n+1 - c.length) cs
      (c ++ r.1, r.2)
    else
      (c.take (n+1), c.drop (n+1) :: cs)

/-- Result of `tryFlushPendingWriter`: new state, the value the pending
writer resolved with (if it resolved), and the bytes appended to the
buffer on its behalf. -/
structure FlushOut where
  state : PipeState
  resolved : Option Int
  accepted : List Nat
deriving Repr, DecidableEq

/-- `tryFlushPendingWriter()`: if a writer is parked, resolve it with
`-1` when the read end is closed; otherwise, if space is available,
append what fits of its residual data and resolve it with that count
(the rest of the residual is dropped). -/
def tryFlushPendingWriter (s : PipeState) : FlushOut :=
  match s.pendingWriter with
  | none => ⟨s, none, []⟩
  | some data =>
    if s.readClosed then
      ⟨{ s with pendingWriter := none }, some (-1), []⟩
    else
      let space : Int := (s.capacity : Int) - (s.totalBytes : Int)
      if space ≤ 0 then ⟨s, none, []⟩
      else
        let toWrite : Nat := min data.length space.toNat
        ⟨{ s with chunks := s.chunks ++ [data.take toWrite],
                  totalBytes := s.totalBytes + toWrite,
                  pendingWriter := none },
         some (toWrite : Int), data.take toWrite⟩

/-- Result of the synchronous `write` method. -/
structure WriteOut where
  result : Int
  state : PipeState
  accepted : List Nat
  readerResolved : Option (List Nat)
deriving Repr, DecidableEq

/-- `writeEnd.write(data)`: `-1` when either end is closed; otherwise
append `min(data.length, capacity - totalBytes)` bytes, then, if a reader
is parked, drain into its buffer and resolve it with the drained bytes. -/
def write (s : PipeState) (data : List Nat) : WriteOut :=
  if s.readClosed then ⟨-1, s, [], none⟩
  else if s.writeClosed then ⟨-1, s, [], none⟩
  else
    let space : Int := (s.capacity : Int) - (s.totalBytes : Int)
    let toWrite : Int := min (data.length : Int) space
    let newChunks := if 0 < toWrite then s.chunks ++ [data.take toWrite.toNat]
      else s.chunks
    let newTotal := if 0 < toWrite then s.totalBytes + toWrite.toNat
      else s.totalBytes
    let acc := if 0 < toWrite then data.take toWrite.toNat else []
    match s.pendingReader with
    | some bufLen =>
      let d := drainChunks bufLen newChunks
      ⟨toWrite,
       { s with chunks := d.2, totalBytes := newTotal - d.1.length,
                pendingReader := none },
       acc, some d.1⟩
    | none =>
      ⟨toWrite, { s with chunks := newChunks, totalBytes := newTotal }, acc, none⟩

/-- Result of `read`: `some bs` is an immediate return (value
`bs.length`), `none` means the reader suspended. -/
structure ReadOut where
  result : Option (List Nat)
  state : PipeState
  writerResolved : Option Int
  accepted : List Nat
deriving Repr, DecidableEq

/-- `readEnd.read(buf)`: drain immediately when data is buffered (then
try to flush a parked writer); return 0 (here `some []`) at EOF; park the
reader otherwise. -/
def read (s : PipeState) (bufLen : Nat) : ReadOut :=
  if 0 < s.totalBytes then
    let d := drainChunks bufLen s.chunks
    let s1 := { s with chunks := d.2, totalBytes := s.totalBytes - d.1.length }
    let f := tryFlushPendingWriter s1
    ⟨some d.1, f.state, f.resolved, f.accepted⟩
  else if s.writeClosed then ⟨some [], s, none, []⟩
  else ⟨none, { s with pendingReader := some bufLen }, none, []⟩

/-- Result of `writeAsync`: `some n` is an immediate resolution, `none`
means the writer suspended with a residual. -/
structure WriteAsyncOut where
  result : Option Int
  state : PipeState
  accepted : List Nat
  readerResolved : Option (List Nat)
deriving Repr, DecidableEq

/-- `writeEnd.writeAsync(data)`: `-1` when either end is closed; when
everything fits, delegate to `write`; otherwise synchronously write the
part that fits and park the writer with the remainder. -/
def writeAsync (s : PipeState) (data : List Nat) : WriteAsyncOut :=
  if s.readClosed then ⟨some (-1), s, [], none⟩
  else if s.writeClosed then ⟨some (-1), s, [], none⟩
  else
    let space : Int := (s.capacity : Int) - (s.totalBytes : Int)
    if (data.length : Int) ≤ space then
      let w := write s data
      ⟨some w.result, w.state, w.accepted, w.readerResolved⟩
    else if 0 < space then
      let w := write s (data.take space.toNat)
      ⟨none, { w.state with pendingWriter := some (data.drop space.toNat) },
       w.accepted, w.readerResolved⟩
    else
      ⟨none, { s with pendingWriter := some data }, [], none⟩

/-- `readEnd.close()`: mark the read end closed and resolve a parked
writer with `-1` (EPIPE). -/
def closeRead (s : PipeState) : PipeState × Option Int :=
  let s1 := { s with readClosed := true }
  match s1.pendingWriter with
  | some _ => ({ s1 with pendingWriter := none }, some (-1))
  | none => (s1, none)

/-- `writeEnd.close()`: mark the write end closed and resolve a parked
reader with 0 (EOF; no bytes are handed over, hence `some []`). -/
def closeWrite (s : PipeState) : PipeState × Option (List Nat) :=
  let s1 := { s with writeClosed := true }
  match s1.pendingReader with
  | some _ => ({ s1 with pendingReader := none }, some [])
  | none => (s1, none)

/-! ### Traces

Any interleaving of the pipe's public operations, driven from the initial
state.  `read bufLen` is a call to `readEnd.read` with a buffer of length
`bufLen`; `write`/`writeAsync` carry the data argument.  A step records
the synchronous outcome plus both resolution events, so that a trace
accounts every byte accepted into the buffer and every byte handed to a
reader. -/

inductive PipeOp
  | read (bufLen : Nat)
  | write (data : List Nat)
  | writeAsync (data : List Nat)
  | closeRead
  | closeWrite
deriving Repr, DecidableEq

inductive Outcome
  /-- `read` returned immediately with these bytes (value = their count). -/
  | readBytes (bs : List Nat)
  /-- `read` suspended. -/
  | readSuspended
  /-- `write` returned `n`. -/
  | wrote (n : Int)
  /-- `writeAsync` resolved immediately with `n`. -/
  | wroteAsyncNow (n : Int)
  /-- `writeAsync` suspended. -/
  | writeSuspended
  /-- a `close` call (returns nothing). -/
  | closedEnd
deriving Repr, DecidableEq

structure StepOut where
  state : PipeState
  outcome : Outcome
  /-- Bytes appended to the pipe buffer during this step, in order. -/
  accepted : List Nat
  /-- Bytes handed to a resolved pending reader (its value is their count). -/
  readerResolved : Option (List Nat)
  /-- Value a resolved pending writer's promise received. -/
  writerResolved : Option Int
deriving Repr, DecidableEq

def step (s : PipeState) : PipeOp → StepOut
  | .read bufLen =>
    let r := read s bufLen
    match r.result with
    | some bs => ⟨r.state, .readBytes bs, r.accepted, none, r.writerResolved⟩
    | none => ⟨r.state, .readSuspended, r.accepted, none, r.writerResolved⟩
  | .write data =>
    let w := write s data
    ⟨w.state, .wrote w.result, w.accepted, w.readerResolved, none⟩
  | .writeAsync data =>
    let w := writeAsync s data
    match w.result with
    | some n => ⟨w.state, .wroteAsyncNow n, w.accepted, w.readerResolved, none⟩
    | none => ⟨w.state, .writeSuspended, w.accepted, w.readerResolved, none⟩
  | .closeRead =>
    let c := closeRead s
    ⟨c.1, .closedEnd, [], none, c.2⟩
  | .closeWrite =>
    let c := closeWrite s
    ⟨c.1, .closedEnd, [], c.2, none⟩

/-- Bytes this step delivered to the read side: an immediate `read`
return, or the bytes draining into a resolved pending reader. -/
def stepDelivered (o : StepOut) : List Nat :=
  (match o.outcome with | .readBytes bs => bs | _ => []) ++ o.readerResolved.getD []

structure Trace where
  state : PipeState
  /-- All bytes accepted into the buffer so far, in acceptance order. -/
  accepted : List Nat
  /-- All bytes returned to readers so far, in delivery order. -/
  delivered : List Nat
  steps : List StepOut
deriving Repr, DecidableEq

def applyOp (t : Trace) (op : PipeOp) : Trace :=
  let o := step t.state op
  ⟨o.state, t.accepted ++ o.accepted, t.delivered ++ stepDelivered o, t.steps ++ [o]⟩

def runOps (capacity : Nat) (ops : List PipeOp) : Trace :=
  ops.foldl applyOp ⟨initPipe capacity, [], [], []⟩

/-- Sum of the non-negative synchronous/resolved values of the write-side
operations of a trace: `write` returns, immediate `writeAsync`
resolutions, and resolutions of parked writers.  This is the byte count
"accepted at the write end as counted by the non-negative return values
of write and writeAsync". -/
def countedWriteReturns (t : Trace) : Int :=
  t.steps.foldl
    (fun acc o =>
      let ret : Int :=
        match o.outcome with
        | .wrote n => max n 0
        | .wroteAsyncNow n => max n 0
        | _ => 0
      let res : Int :=
        match o.writerResolved with
        | some n => max n 0
        | none => 0
      acc + ret + res) 0

/-! ### Invariants of reachable pipe states -/

/-- Concatenation of the buffered chunks, front first. -/
def flat : List (List Nat) → List Nat
  | [] => []
  | c :: cs => c ++ flat cs

@[simp] theorem flat_nil : flat [] = [] := rfl

@[simp] theorem flat_cons (c : List Nat) (cs : List (List Nat)) :
    flat (c :: cs) = c ++ flat cs := rfl

theorem flat_append (a b : List (List Nat)) : flat (a ++ b) = flat a ++ flat b := by
  induction a with
  | nil => simp
  | cons c cs ih => simp [ih]

/-- The state invariant that actually holds of every reachable pipe
state.  (The specification's stronger clause for the pending writer —
residual exceeding the free space — fails; see the C6 counterexample.) -/
structure PipeInv (s : PipeState) : Prop where
  sum_eq : (flat s.chunks).length = s.totalBytes
  cap_le : s.totalBytes ≤ s.capacity
  reader_inv : ∀ n, s.pendingReader = some n →
    s.totalBytes = 0 ∧ s.writeClosed = false
  writer_inv : ∀ d, s.pendingWriter = some d → d ≠ [] ∧ s.readClosed = false

theorem drainChunks_spec (n : Nat) (cs : List (List Nat)) :
    (drainChunks n cs).1 ++ flat (drainChunks n cs).2 = flat cs ∧
    (drainChunks n cs).1.length = min n (flat cs).length := by
  induction cs generalizing n with
  | nil => simp [drainChunks]
  | cons c cs ih =>
    match n with
    | 0 => simp [drainChunks]
    | n+1 =>
      simp only [drainChunks]
      split
      · have h2 := ih (n + 1 - c.length)
        refine ⟨?_, ?_⟩
        · simpa [List.append_assoc] using h2.1
        · simp only [List.length_append, h2.2, flat_cons]
          omega
      · refine ⟨?_, ?_⟩
        · simp [← List.append_assoc, List.take_append_drop]
        · simp only [List.length_take, flat_cons, List.length_append]
          omega

theorem drainChunks_join (n : Nat) (cs : List (List Nat)) :
    (drainChunks n cs).1 ++ flat (drainChunks n cs).2 = flat cs :=
  (drainChunks_spec n cs).1

theorem drainChunks_length (n : Nat) (cs : List (List Nat)) :
    (drainChunks n cs).1.length = min n (flat cs).length :=
  (drainChunks_spec n cs).2

/-- `tryFlushPendingWriter`, called with no parked reader, preserves the
invariant and appends exactly its `accepted` bytes to the buffer. -/
theorem tryFlushPendingWriter_spec (s : PipeState) (h : PipeInv s)
    (hr : s.pendingReader = none) :
    PipeInv (tryFlushPendingWriter s).state ∧
    flat (tryFlushPendingWriter s).state.chunks
      = flat s.chunks ++ (tryFlushPendingWriter s).accepted := by
  rcases hw : s.pendingWriter with _ | data
  · simp only [tryFlushPendingWriter, hw]
    exact ⟨h, by simp⟩
  · have hd := h.writer_inv data hw
    have hcap := h.cap_le
    have hsum := h.sum_eq
    simp only [tryFlushPendingWriter, hw, hd.2, Bool.false_eq_true, if_false]
    split
    · exact ⟨h, by simp⟩
    · rename_i hsp
      refine ⟨⟨?_, ?_, ?_, ?_⟩, ?_⟩
      · simp only [flat_append, flat_cons, flat_nil, List.append_nil,
          List.length_append, List.length_take, hsum]
        omega
      · simp only [List.length_take]
        omega
      · intro n hn
        simp only [hr] at hn
        cases hn
      · intro d hd'
        cases hd'
      · simp [flat_append]

/-- `write` preserves the invariant; the bytes handed to a resolved
reader followed by the remaining buffer equal the old buffer followed by
the accepted bytes. -/
theorem write_spec (s : PipeState) (data : List Nat) (h : PipeInv s) :
    PipeInv (write s data).state ∧
    (write s data).readerResolved.getD [] ++ flat (write s data).state.chunks
      = flat s.chunks ++ (write s data).accepted := by
  have hcap := h.cap_le
  have hsum := h.sum_eq
  by_cases hrc : s.readClosed = true
  · simp only [write, if_pos hrc]
    exact ⟨h, by simp⟩
  · by_cases hwc : s.writeClosed = true
    · simp only [write, if_neg hrc, if_pos hwc]
      exact ⟨h, by simp⟩
    · simp only [write, if_neg hrc, if_neg hwc]
      by_cases htw :
          (0:Int) < min (data.length : Int) ((s.capacity : Int) - (s.totalBytes : Int))
      · simp only [if_pos htw]
        cases hpr : s.pendingReader with
        | none =>
          refine ⟨⟨?_, ?_, ?_, ?_⟩, ?_⟩
          · simp only [flat_append, flat_cons, flat_nil, List.append_nil,
              List.length_append, List.length_take, hsum]
            omega
          · simp only [List.length_take]
            omega
          · intro n hn
            simp only [hpr] at hn
            cases hn
          · intro d hd
            simp only at hd
            have := h.writer_inv d hd
            simpa [hrc] using this
          · simp [flat_append]
        | some bufLen =>
          have hre := h.reader_inv bufLen hpr
          refine ⟨⟨?_, ?_, ?_, ?_⟩, ?_⟩
          · have hj := drainChunks_join bufLen
              (s.chunks ++ [data.take
                (min (data.length : Int) ((s.capacity : Int) - (s.totalBytes : Int))).toNat])
            have hl := drainChunks_length bufLen
              (s.chunks ++ [data.take
                (min (data.length : Int) ((s.capacity : Int) - (s.totalBytes : Int))).toNat])
            have hll := congrArg List.length hj
            simp only [flat_append, flat_cons, flat_nil, List.append_nil,
              List.length_append, List.length_take, hsum] at hll hl ⊢
            omega
          · have hl := drainChunks_length bufLen
              (s.chunks ++ [data.take
                (min (data.length : Int) ((s.capacity : Int) - (s.totalBytes : Int))).toNat])
            simp only [List.length_take]
            omega
          · intro n hn
            simp only at hn
            cases hn
          · intro d hd
            simp only at hd
            have := h.writer_inv d hd
            simpa [hrc] using this
          · have hj := drainChunks_join bufLen
              (s.chunks ++ [data.take
                (min (data.length : Int) ((s.capacity : Int) - (s.totalBytes : Int))).toNat])
            simp only [Option.getD_some]
            rw [hj]
            simp [flat_append]
      · simp only [if_neg htw]
        cases hpr : s.pendingReader with
        | none =>
          refine ⟨⟨h.sum_eq, h.cap_le, ?_, ?_⟩, by simp⟩
          · intro n hn
            cases hn
          · intro d hd
            exact h.writer_inv d hd
        | some bufLen =>
          have hre := h.reader_inv bufLen hpr
          have hj := drainChunks_join bufLen s.chunks
          have hl := drainChunks_length bufLen s.chunks
          have hll := congrArg List.length hj
          simp only [List.length_append] at hll
          refine ⟨⟨?_, ?_, ?_, ?_⟩, ?_⟩
          all_goals dsimp only
          · omega
          · omega
          · intro n hn
            cases hn
          · intro d hd
            have := h.writer_inv d hd
            simpa [hrc] using this
          · simpa using hj

/-- `write` never touches the closed flags, the capacity or the parked
writer. -/
theorem write_flags (s : PipeState) (data : List Nat) :
    (write s data).state.writeClosed = s.writeClosed ∧
    (write s data).state.readClosed = s.readClosed ∧
    (write s data).state.capacity = s.capacity ∧
    (write s data).state.pendingWriter = s.pendingWriter := by
  simp only [write]
  split
  · exact ⟨rfl, rfl, rfl, rfl⟩
  · split
    · exact ⟨rfl, rfl, rfl, rfl⟩
    · cases hpr : s.pendingReader <;> exact ⟨rfl, rfl, rfl, rfl⟩

/-- `write` always clears the parked-reader slot (resolving the reader if
one was parked). -/
theorem write_pendingReader (s : PipeState) (data : List Nat)
    (h : s.readClosed = false) (h2 : s.writeClosed = false) :
    (write s data).state.pendingReader = none := by
  simp only [write, h, h2, Bool.false_eq_true, if_false]
  cases hpr : s.pendingReader <;> simp [hpr]

/-- `read` preserves the invariant and the byte accounting. -/
theorem read_spec (s : PipeState) (bufLen : Nat) (h : PipeInv s) :
    PipeInv (read s bufLen).state ∧
    (read s bufLen).result.getD [] ++ flat (read s bufLen).state.chunks
      = flat s.chunks ++ (read s bufLen).accepted := by
  by_cases htb : 0 < s.totalBytes
  · have hprn : s.pendingReader = none := by
      cases hpr : s.pendingReader with
      | none => rfl
      | some n => exact absurd (h.reader_inv n hpr).1 (by omega)
    have hj := drainChunks_join bufLen s.chunks
    have hl := drainChunks_length bufLen s.chunks
    have hll := congrArg List.length hj
    simp only [List.length_append] at hll
    have hsum := h.sum_eq
    have hcap := h.cap_le
    simp only [read, if_pos htb]
    have h1 : PipeInv { s with
                        chunks := (drainChunks bufLen s.chunks).2,
                        totalBytes := s.totalBytes
                          - (drainChunks bufLen s.chunks).1.length } := by
      refine ⟨?_, ?_, ?_, ?_⟩
      · dsimp only
        omega
      · dsimp only
        omega
      · intro n hn
        exact absurd (hprn ▸ hn) (by simp)
      · intro d hd
        exact h.writer_inv d hd
    have hf := tryFlushPendingWriter_spec _ h1 hprn
    refine ⟨hf.1, ?_⟩
    dsimp only
    rw [hf.2]
    dsimp only
    simp only [Option.getD_some]
    rw [← List.append_assoc, hj]
  · by_cases hwc : s.writeClosed = true
    · simp only [read, if_neg htb, if_pos hwc]
      exact ⟨h, by simp⟩
    · simp only [read, if_neg htb, if_neg hwc]
      refine ⟨⟨h.sum_eq, h.cap_le, ?_, ?_⟩, by simp⟩
      · intro n _
        refine ⟨?_, ?_⟩
        · dsimp only
          omega
        · dsimp only
          simpa using hwc
      · intro d hd
        exact h.writer_inv d hd

/-- `writeAsync` preserves the invariant and the byte accounting. -/
theorem writeAsync_spec (s : PipeState) (data : List Nat) (h : PipeInv s) :
    PipeInv (writeAsync s data).state ∧
    (writeAsync s data).readerResolved.getD []
        ++ flat (writeAsync s data).state.chunks
      = flat s.chunks ++ (writeAsync s data).accepted := by
  by_cases hrc : s.readClosed = true
  · simp only [writeAsync, if_pos hrc]
    exact ⟨h, by simp⟩
  · by_cases hwc : s.writeClosed = true
    · simp only [writeAsync, if_neg hrc, if_pos hwc]
      exact ⟨h, by simp⟩
    · by_cases hfit : (data.length : Int) ≤ (s.capacity : Int) - (s.totalBytes : Int)
      · simp only [writeAsync, if_neg hrc, if_neg hwc, if_pos hfit]
        exact write_spec s data h
      · by_cases hsp : (0:Int) < (s.capacity : Int) - (s.totalBytes : Int)
        · simp only [writeAsync, if_neg hrc, if_neg hwc, if_neg hfit, if_pos hsp]
          have hw := write_spec s
            (data.take ((s.capacity : Int) - (s.totalBytes : Int)).toNat) h
          have hfl := write_flags s
            (data.take ((s.capacity : Int) - (s.totalBytes : Int)).toNat)
          refine ⟨⟨hw.1.sum_eq, hw.1.cap_le, ?_, ?_⟩, hw.2⟩
          · intro n hn
            exact hw.1.reader_inv n hn
          · intro d hd
            dsimp only at hd
            cases hd
            refine ⟨?_, ?_⟩
            · have : data.length - ((s.capacity : Int) - (s.totalBytes : Int)).toNat ≠ 0 := by
                omega
              simpa [List.drop_eq_nil_iff] using by omega
            · rw [hfl.2.1]
              simpa using hrc
        · simp only [writeAsync, if_neg hrc, if_neg hwc, if_neg hfit, if_neg hsp]
          refine ⟨⟨h.sum_eq, h.cap_le, ?_, ?_⟩, by simp⟩
          · intro n hn
            exact h.reader_inv n hn
          · intro d hd
            dsimp only at hd
            cases hd
            have hcap := h.cap_le
            refine ⟨?_, by simpa using hrc⟩
            have : 0 < data.length := by omega
            intro hnil
            rw [hnil] at this
            simp at this

/-- `closeRead` preserves invariant and accounting. -/
theorem closeRead_spec (s : PipeState) (h : PipeInv s) :
    PipeInv (closeRead s).1 ∧ (closeRead s).1.chunks = s.chunks := by
  simp only [closeRead]
  cases hw : s.pendingWriter with
  | none =>
    refine ⟨⟨h.sum_eq, h.cap_le, ?_, ?_⟩, rfl⟩
    · intro n hn
      exact h.reader_inv n hn
    · intro d hd
      cases hd
  | some data =>
    refine ⟨⟨h.sum_eq, h.cap_le, ?_, ?_⟩, rfl⟩
    · intro n hn
      exact h.reader_inv n hn
    · intro d hd
      cases hd

/-- `closeWrite` preserves invariant and accounting. -/
theorem closeWrite_spec (s : PipeState) (h : PipeInv s) :
    PipeInv (closeWrite s).1 ∧ (closeWrite s).1.chunks = s.chunks := by
  simp only [closeWrite]
  cases hr : s.pendingReader with
  | none =>
    refine ⟨⟨h.sum_eq, h.cap_le, ?_, ?_⟩, rfl⟩
    · intro n hn
      cases hn
    · intro d hd
      exact h.writer_inv d hd
  | some bufLen =>
    refine ⟨⟨h.sum_eq, h.cap_le, ?_, ?_⟩, rfl⟩
    · intro n hn
      cases hn
    · intro d hd
      exact h.writer_inv d hd

/-- One step preserves the invariant, and the bytes it delivers followed
by the new buffer contents equal the old buffer contents followed by the
bytes it accepts. -/
theorem step_preserves (s : PipeState) (op : PipeOp) (h : PipeInv s) :
    PipeInv (step s op).state ∧
    stepDelivered (step s op) ++ flat (step s op).state.chunks
      = flat s.chunks ++ (step s op).accepted := by
  cases op with
  | read bufLen =>
    have hr := read_spec s bufLen h
    simp only [step]
    cases hres : (read s bufLen).result with
    | some bs =>
      refine ⟨hr.1, ?_⟩
      have := hr.2
      rw [hres] at this
      simpa [stepDelivered] using this
    | none =>
      refine ⟨hr.1, ?_⟩
      have := hr.2
      rw [hres] at this
      simpa [stepDelivered] using this
  | write data =>
    have hw := write_spec s data h
    simp only [step]
    exact ⟨hw.1, by simpa [stepDelivered] using hw.2⟩
  | writeAsync data =>
    have hw := writeAsync_spec s data h
    simp only [step]
    cases hres : (writeAsync s data).result with
    | some n =>
      exact ⟨hw.1, by simpa [stepDelivered] using hw.2⟩
    | none =>
      exact ⟨hw.1, by simpa [stepDelivered] using hw.2⟩
  | closeRead =>
    have hc := closeRead_spec s h
    simp only [step]
    refine ⟨hc.1, ?_⟩
    simp [stepDelivered, hc.2]
  | closeWrite =>
    have hc := closeWrite_spec s h
    simp only [step]
    refine ⟨hc.1, ?_⟩
    cases hres : (closeWrite s).2 with
    | some bs =>
      -- a parked reader resolved with EOF: it is handed no bytes
      simp only [closeWrite] at hres hc ⊢
      cases hr : s.pendingReader with
      | none => simp [hr] at hres
      | some bufLen =>
        simp only [hr] at hres hc ⊢
        cases hres
        simp [stepDelivered, hc.2]
    | none =>
      simp [stepDelivered, hc.2, hres]

/-- Trace-level invariant: state invariant plus global byte accounting. -/
structure TraceInv (t : Trace) : Prop where
  inv : PipeInv t.state
  acct : t.accepted = t.delivered ++ flat t.state.chunks

theorem applyOp_preserves (t : Trace) (op : PipeOp) (h : TraceInv t) :
    TraceInv (applyOp t op) := by
  have hs := step_preserves t.state op h.inv
  refine ⟨hs.1, ?_⟩
  simp only [applyOp]
  rw [h.acct, List.append_assoc, List.append_assoc, ← hs.2]

theorem foldl_applyOp_inv (ops : List PipeOp) (t : Trace) (h : TraceInv t) :
    TraceInv (ops.foldl applyOp t) := by
  induction ops generalizing t with
  | nil => exact h
  | cons op ops ih => exact ih _ (applyOp_preserves t op h)

theorem runOps_inv (capacity : Nat) (ops : List PipeOp) :
    TraceInv (runOps capacity ops) := by
  refine foldl_applyOp_inv ops _ ?_
  refine ⟨⟨rfl, by simp [initPipe], ?_, ?_⟩, rfl⟩
  · intro n hn
    cases hn
  · intro d hd
    cases hd

/-! ### Claim theorems for the async pipe -/

/-- C1 counterexample.  The claim counts the accepted bytes by the
non-negative return values of `write`/`writeAsync`.  On a pipe of
capacity 1, `writeAsync [10, 20]` synchronously fills byte 10, parks with
residual `[20]`, and its promise later resolves with value 1 — so the
counted total over the whole trace is 1, yet the reads deliver the two
bytes `[10, 20]`.  No byte sequence of length 1 can have the delivered
concatenation as a prefix, refuting the claim at this input. -/
theorem c1_counterexample :
    ¬ ∃ acceptedSeq : List Nat,
        (acceptedSeq.length : Int)
            = countedWriteReturns (runOps 1 [.writeAsync [10, 20], .read 2, .read 1])
          ∧ ∃ rest, acceptedSeq
            = (runOps 1 [.writeAsync [10, 20], .read 2, .read 1]).delivered ++ rest := by
  rintro ⟨as, h1, rest, h2⟩
  have hd : (runOps 1 [.writeAsync [10, 20], .read 2, .read 1]).delivered
      = [10, 20] := by decide
  have hc : countedWriteReturns (runOps 1 [.writeAsync [10, 20], .read 2, .read 1])
      = 1 := by decide
  rw [hd] at h2
  rw [hc] at h1
  subst h2
  simp only [List.length_append, List.length_cons, List.length_nil] at h1
  omega

/-- C1 (amended): counting accepted bytes as the bytes actually appended
to the pipe buffer (writeAsync's resolution value may undercount these by
the synchronously filled portion of a partial write), every accepted byte
is delivered exactly once and in acceptance order: after any operation
sequence, the concatenation of all accepted bytes equals the
concatenation of all bytes returned by reads followed by the bytes still
buffered — in particular the delivered concatenation is a prefix of the
accepted concatenation. -/
theorem c1_delivery_order (capacity : Nat) (ops : List PipeOp) :
    (runOps capacity ops).accepted
      = (runOps capacity ops).delivered ++ flat (runOps capacity ops).state.chunks :=
  (runOps_inv capacity ops).acct

/-- C6 counterexample.  On a pipe of capacity 4 with a reader parked on
the empty pipe, `writeAsync` of 6 bytes fills 4, which are immediately
drained into the parked reader, and then parks the writer with residual
`[5, 6]`; the reachable state has a pending writer whose residual length
2 does NOT exceed capacity − totalBytes = 4, refuting the claimed
invariant. -/
theorem c6_counterexample :
    (runOps 4 [.read 4, .writeAsync [1, 2, 3, 4, 5, 6]]).state.pendingWriter
        = some [5, 6] ∧
    (runOps 4 [.read 4, .writeAsync [1, 2, 3, 4, 5, 6]]).state.readClosed = false ∧
    ¬ ((runOps 4 [.read 4, .writeAsync [1, 2, 3, 4, 5, 6]]).state.capacity
          - (runOps 4 [.read 4, .writeAsync [1, 2, 3, 4, 5, 6]]).state.totalBytes
        < (2 : Nat)) := by
  decide

/-- C6 (amended): in every reachable pipe state, bytes-in-buffer never
exceeds the capacity; a pending reader exists only when the buffer is
empty and the write end is open; a pending writer exists only when its
residual is non-empty and the read end is open (the claimed stronger
bound — residual exceeding the free space — fails, see the
counterexample). -/
theorem c6_reachable_invariants (capacity : Nat) (ops : List PipeOp) :
    (runOps capacity ops).state.totalBytes ≤ (runOps capacity ops).state.capacity ∧
    (∀ n, (runOps capacity ops).state.pendingReader = some n →
      (runOps capacity ops).state.totalBytes = 0 ∧
      (runOps capacity ops).state.writeClosed = false) ∧
    (∀ d, (runOps capacity ops).state.pendingWriter = some d →
      d ≠ [] ∧ (runOps capacity ops).state.readClosed = false) := by
  have h := (runOps_inv capacity ops).inv
  exact ⟨h.cap_le, h.reader_inv, h.writer_inv⟩

/-- Witness for C6: concrete runs reaching a parked reader and a parked
writer, with the invariant's implications discharged there. -/
theorem c6_reachable_invariants_witness :
    ((runOps 1 [.read 3]).state.totalBytes = 0 ∧
      (runOps 1 [.read 3]).state.writeClosed = false) ∧
    ([2, 3] ≠ ([] : List Nat) ∧
      (runOps 1 [.writeAsync [1, 2, 3]]).state.readClosed = false) :=
  ⟨(c6_reachable_invariants 1 [.read 3]).2.1 3 (by decide),
   (c6_reachable_invariants 1 [.writeAsync [1, 2, 3]]).2.2 [2, 3] (by decide)⟩

/-- C5: closing the write end resolves a parked reader with 0 (EOF —
`some []`: zero bytes handed over); closing the read end resolves a
parked writer with −1 (EPIPE); once the read end is closed both `write`
and `writeAsync` return −1; once the write end is closed and the buffer
is drained, `read` returns 0. -/
theorem c5_close_signals :
    (∀ s : PipeState, ∀ n, s.pendingReader = some n →
        (step s .closeWrite).readerResolved = some [] ∧
        (step s .closeWrite).state.writeClosed = true) ∧
    (∀ s : PipeState, ∀ d, s.pendingWriter = some d →
        (step s .closeRead).writerResolved = some (-1) ∧
        (step s .closeRead).state.readClosed = true) ∧
    (∀ s : PipeState, ∀ data : List Nat, s.readClosed = true →
        (step s (.write data)).outcome = .wrote (-1) ∧
        (step s (.writeAsync data)).outcome = .wroteAsyncNow (-1)) ∧
    (∀ s : PipeState, ∀ bufLen : Nat, s.writeClosed = true → s.totalBytes = 0 →
        (step s (.read bufLen)).outcome = .readBytes []) := by
  refine ⟨?_, ?_, ?_, ?_⟩
  · intro s n hn
    simp [step, closeWrite, hn]
  · intro s d hd
    simp [step, closeRead, hd]
  · intro s data h
    constructor
    · simp [step, write, h]
    · simp [step, writeAsync, h]
  · intro s bufLen hwc htb
    simp [step, read, htb, hwc]

/-- Witness for C5 at concrete states: a parked reader, a parked writer,
a closed read end, and a drained closed-write pipe. -/
theorem c5_close_signals_witness :
    ((step ⟨[], 0, false, false, 4, some 7, none⟩ .closeWrite).readerResolved = some [] ∧
      (step ⟨[], 0, false, false, 4, some 7, none⟩ .closeWrite).state.writeClosed = true) ∧
    ((step ⟨[], 0, false, false, 4, none, some [9]⟩ .closeRead).writerResolved = some (-1) ∧
      (step ⟨[], 0, false, false, 4, none, some [9]⟩ .closeRead).state.readClosed = true) ∧
    ((step ⟨[], 0, false, true, 4, none, none⟩ (.write [3])).outcome = .wrote (-1) ∧
      (step ⟨[], 0, false, true, 4, none, none⟩ (.writeAsync [3])).outcome
        = .wroteAsyncNow (-1)) ∧
    (step ⟨[], 0, true, false, 4, none, none⟩ (.read 8)).outcome = .readBytes [] :=
  ⟨c5_close_signals.1 ⟨[], 0, false, false, 4, some 7, none⟩ 7 rfl,
   c5_close_signals.2.1 ⟨[], 0, false, false, 4, none, some [9]⟩ [9] rfl,
   c5_close_signals.2.2.1 ⟨[], 0, false, true, 4, none, none⟩ [3] rfl,
   c5_close_signals.2.2.2 ⟨[], 0, true, false, 4, none, none⟩ 8 rfl rfl⟩

/-- C10: with a reader parked on an empty open pipe, a zero-length
`write` resolves the parked reader with value 0 (`some []`, zero bytes) —
the value otherwise reserved for EOF — while the write end stays open and
the write itself returns 0. -/
theorem c10_zero_write_wakes_reader (s : PipeState) (n : Nat)
    (hr : s.pendingReader = some n) (hrc : s.readClosed = false)
    (hwc : s.writeClosed = false) (hch : s.chunks = [])
    (htb : s.totalBytes = 0) :
    (step s (.write [])).readerResolved = some [] ∧
    (step s (.write [])).outcome = .wrote 0 ∧
    (step s (.write [])).state.writeClosed = false := by
  simp [step, write, hr, hrc, hwc, hch, htb, drainChunks]

/-- Witness for C10 at the reachable state left by a read on a fresh
pipe. -/
theorem c10_zero_write_wakes_reader_witness :
    (step (runOps 4 [.read 5]).state (.write [])).readerResolved = some [] ∧
    (step (runOps 4 [.read 5]).state (.write [])).outcome = .wrote 0 ∧
    (step (runOps 4 [.read 5]).state (.write [])).state.writeClosed = false :=
  c10_zero_write_wakes_reader (runOps 4 [.read 5]).state 5
    (by decide) (by decide) (by decide) (by decide) (by decide)

end AsyncPipe

/-! ## `Sandbox.run` (sandbox.ts)

`run` races the shell runner's promise against a `setTimeout` timer:

```
const timer = new Promise((resolve) => {
  setTimeout(() => resolve({ exitCode: 124, stdout: '',
    stderr: 'command timed out\n', executionTimeMs: this.timeoutMs }),
    this.timeoutMs);
});
return Promise.race([this.runner.run(command), timer]);
```

The runner (`ShellRunner.run`) drives an opaque WASM guest and is out of
scope; we model it as an oracle giving the instant `runnerTime` at which
it would settle and its result.  The JS timer fires at `timeoutMs`, and
`Promise.race` settles with whichever promise settles first (the model
resolves an exact tie in favour of the runner; the claim only constrains
the case where the deadline fires strictly first, which is
unambiguous). -/

namespace Sandbox

structure RunResult where
  exitCode : Int
  stdout : String
  stderr : String
  executionTimeMs : Nat
  truncated : Option Bool := none
deriving Repr, DecidableEq

structure SandboxState where
  timeoutMs : Nat
  destroyed : Bool
deriving Repr, DecidableEq

/-- The result the timer promise resolves with. -/
def timeoutResult (timeoutMs : Nat) : RunResult :=
  { exitCode := 124, stdout := "", stderr := "command timed out\n",
    executionTimeMs := timeoutMs, truncated := none }

/-- `Sandbox.run`: `assertAlive`, then the race.  Returns the settle
instant together with the settled result. -/
def run (sb : SandboxState) (runnerTime : Nat) (runnerResult : RunResult) :
    Except String (Nat × RunResult) :=
  if sb.destroyed then .error "Sandbox has been destroyed"
  else if runnerTime ≤ sb.timeoutMs then .ok (runnerTime, runnerResult)
  else .ok (sb.timeoutMs, timeoutResult sb.timeoutMs)

/-- C9: on a live sandbox, `run` settles no later than `timeoutMs` (the
scheduler-granularity slack of the claim is zero in this model), and
whenever the deadline fires before the shell completes the settled result
is exit code 124, empty stdout, stderr `"command timed out\n"` and
`executionTimeMs = timeoutMs`. -/
theorem c9_run_deadline (sb : SandboxState) (runnerTime : Nat)
    (runnerResult : RunResult) (halive : sb.destroyed = false) :
    (∀ t res, run sb runnerTime runnerResult = .ok (t, res) → t ≤ sb.timeoutMs) ∧
    (sb.timeoutMs < runnerTime →
      run sb runnerTime runnerResult
        = .ok (sb.timeoutMs,
            { exitCode := 124, stdout := "", stderr := "command timed out\n",
              executionTimeMs := sb.timeoutMs, truncated := none })) := by
  constructor
  · intro t res hok
    simp only [run, halive, Bool.false_eq_true, if_false] at hok
    split at hok
    · cases hok
      omega
    · cases hok
      omega
  · intro hlate
    simp only [run, halive, Bool.false_eq_true, if_false, timeoutResult]
    rw [if_neg (by omega)]

/-- Witness for C9: a 100 ms deadline with a shell that would finish at
250 ms yields the timeout result at 100 ms. -/
theorem c9_run_deadline_witness :
    run ⟨100, false⟩ 250 ⟨0, "ok", "", 250, none⟩
      = .ok (100,
          { exitCode := 124, stdout := "", stderr := "command timed out\n",
            executionTimeMs := 100, truncated := none }) :=
  (c9_run_deadline ⟨100, false⟩ 250 ⟨0, "ok", "", 250, none⟩ rfl).2 (by decide)

end Sandbox

/-! ## The in-memory VFS (vfs/vfs.ts)

`inode.ts` itself is not among the provided sources (only its importers
are), so the inode constructors and the error record are modelled from
the spec: an inode is file / directory / symlink; metadata carries octal
permissions and timestamps; `VfsError` carries an `errno` kind and a
message.  Timestamps are elided — no claim mentions them and they come
from the wall clock.  Directory children are a JS `Map` (insertion
order, unique names); we embed them as the mutual inductive `InodeMap`
so that all recursion is structural and everything evaluates. -/

namespace Vfs

inductive Errno
  | ENOENT | ENOTDIR | EISDIR | EEXIST | ENOTEMPTY | EROFS | ENOSPC
deriving Repr, DecidableEq

structure VfsError where
  errno : Errno
  message : String
deriving Repr, DecidableEq

mutual
inductive Inode where
  | file (content : List Nat) (perms : Nat)
  | dir (children : InodeMap) (perms : Nat)
  | symlink (target : String) (perms : Nat)

inductive InodeMap where
  | nil
  | cons (name : String) (node : Inode) (rest : InodeMap)
end

/-- Modelled from the spec: `createFileInode` (default permissions
0o644 = 420). -/
def createFileInode (content : List Nat) : Inode := .file content 420

/-- Modelled from the spec: `createDirInode` (default permissions
0o755 = 493). -/
def createDirInode : Inode := .dir .nil 493

/-- Modelled from the spec: `createSymlinkInode` (default permissions
0o777 = 511). -/
def createSymlinkInode (target : String) : Inode := .symlink target 511

namespace InodeMap

/-- `Map.get`. -/
def find : InodeMap → String → Option Inode
  | .nil, _ => none
  | .cons n v rest, name => if n = name then some v else find rest name

/-- `Map.set`: replace in place, else append (JS `Map` keeps insertion
order and replaces the value of an existing key in place). -/
def set : InodeMap → String → Inode → InodeMap
  | .nil, name, v => .cons name v .nil
  | .cons n w rest, name, v =>
    if n = name then .cons n v rest else .cons n w (set rest name v)

/-- `Map.delete`. -/
def del : InodeMap → String → InodeMap
  | .nil, _ => .nil
  | .cons n w rest, name => if n = name then rest else .cons n w (del rest name)

/-- `Map.has`. -/
def has (m : InodeMap) (name : String) : Bool := (m.find name).isSome

/-- `Map.size`. -/
def size : InodeMap → Nat
  | .nil => 0
  | .cons _ _ rest => size rest + 1

/-- The keys in insertion order. -/
def keys : InodeMap → List String
  | .nil => []
  | .cons n _ rest => n :: keys rest

end InodeMap

/-! ### Path parsing

JS `path.split('/')` splits on every slash, keeping empty pieces. -/

/-- `String.split('/')` on the character list. -/
def splitSlash : List Char → List Char → List String
  | acc, [] => [String.mk acc.reverse]
  | acc, c :: rest =>
    if c = '/' then String.mk acc.reverse :: splitSlash [] rest
    else splitSlash (c :: acc) rest

/-- The segment loop of `parsePath`: drop `''` and `.`, apply `..` as a
pop. -/
def collapseSegs (parts : List String) : List String :=
  parts.foldl
    (fun acc part =>
      if part = "" ∨ part = "." then acc
      else if part = ".." then acc.dropLast
      else acc ++ [part]) []

/-- `parsePath`: reject non-absolute paths with ENOENT, then split and
collapse. -/
def parsePath (path : String) : Except VfsError (List String) :=
  match path.data with
  | '/' :: _ => .ok (collapseSegs (splitSlash [] path.data))
  | _ => .error ⟨.ENOENT, "not an absolute path: " ++ path⟩

/-- JS `Array.join('/')`. -/
def joinSlash : List String → String
  | [] => ""
  | [s] => s
  | s :: rest => s ++ "/" ++ joinSlash rest

/-- `'/' + segments.join('/')` — the normalized form used by
`assertWritable`. -/
def renderPath (segs : List String) : String :=
  "/" ++ joinSlash segs

/-- JS `String.startsWith`. -/
def strStartsWith (a pre : String) : Bool :=
  pre.data.isPrefixOf a.data

/-! ### Path resolution (`VFS.resolve`, `VFS.resolveParent`)

The JS methods mutate a local `depth` counter and recurse into
`this.resolve(current.target, true, depth + 1)` on symlinks; recursion is
refused once the counter reaches `MAX_SYMLINK_DEPTH`.  We embed the
recursion with a structural `fuel` argument (the nested call always sees
a strictly larger `depth`, so fuel `MAX_SYMLINK_DEPTH + 1 - depth` never
runs out — proved below) and additionally thread two pieces of
instrumentation through every call: the total number of symlink
expansions performed (`cnt`) and the physical location of the resolved
node (`loc`, the symlink-free path from the root), which the functional
embedding of the mutating operations uses to rebuild the tree where JS
mutates the aliased parent object in place. -/

def MAX_SYMLINK_DEPTH : Nat := 40

/-- A resolved inode together with its physical location. -/
structure RNode where
  node : Inode
  loc : List String

def tooManyErr (path : String) : VfsError :=
  ⟨.ENOENT, "too many symlinks: " ++ path⟩

def noEntErr (path : String) : VfsError :=
  ⟨.ENOENT, "no such file or directory: " ++ path⟩

def notDirErr (path : String) : VfsError :=
  ⟨.ENOTDIR, "not a directory: " ++ path⟩

/-- The shared segment loop of `resolve` and `resolveParent`: walk the
segments from `cur`, expanding a symlink (via `recur`, the full resolve)
before each segment under the depth bound.  Returns the final node and
depth, or `none` if `recur` ran out of fuel. -/
def walkSegsF (recur : String → Nat → Nat → Option (Except VfsError RNode × Nat))
    (path : String) :
    List String → RNode → Nat → Nat → Option (Except VfsError (RNode × Nat) × Nat)
  | [], cur, depth, cnt => some (.ok (cur, depth), cnt)
  | seg :: rest, cur, depth, cnt =>
    match cur.node with
    | .symlink target _ =>
      if MAX_SYMLINK_DEPTH ≤ depth then some (.error (tooManyErr path), cnt)
      else
        match recur target (depth + 1) (cnt + 1) with
        | none => none
        | some (.error e, cnt') => some (.error e, cnt')
        | some (.ok cur', cnt') =>
          match cur'.node with
          | .dir children _ =>
            match children.find seg with
            | none => some (.error (noEntErr path), cnt')
            | some child =>
              walkSegsF recur path rest ⟨child, cur'.loc ++ [seg]⟩ (depth + 1) cnt'
          | _ => some (.error (notDirErr path), cnt')
    | .dir children _ =>
      match children.find seg with
      | none => some (.error (noEntErr path), cnt)
      | some child => walkSegsF recur path rest ⟨child, cur.loc ++ [seg]⟩ depth cnt
    | _ => some (.error (notDirErr path), cnt)

/-- `VFS.resolve(path, followSymlinks, depth)`. -/
def resolveGo (root : Inode) : Nat → String → Bool → Nat → Nat →
    Option (Except VfsError RNode × Nat)
  | 0, _, _, _, _ => none
  | fuel+1, path, follow, depth, cnt =>
    match parsePath path with
    | .error e => some (.error e, cnt)
    | .ok [] => some (.ok ⟨root, []⟩, cnt)
    | .ok (seg :: rest) =>
      match walkSegsF (fun t d c => resolveGo root fuel t true d c) path
          (seg :: rest) ⟨root, []⟩ depth cnt with
      | none => none
      | some (.error e, cnt') => some (.error e, cnt')
      | some (.ok (cur, depth'), cnt') =>
        match follow, cur.node with
        | true, .symlink target _ =>
          if MAX_SYMLINK_DEPTH ≤ depth' then some (.error (tooManyErr path), cnt')
          else resolveGo root fuel target true (depth' + 1) (cnt' + 1)
        | _, _ => some (.ok cur, cnt')

/-- Fuel sufficient for every resolution starting at depth 0. -/
def FUEL : Nat := MAX_SYMLINK_DEPTH + 1

structure VFSState where
  root : Inode
  totalBytes : Int
  fsLimitBytes : Option Int
  fileCountLimit : Option Int
  currentFileCount : Int
  writablePaths : Option (List String)
  initializing : Bool

/-- `VFS.resolve` at the public entry point (depth 0).  The `none` fuel
branch is provably unreachable (`resolveGo_some`). -/
def resolveE (s : VFSState) (path : String) (follow : Bool) :
    Except VfsError RNode :=
  match resolveGo s.root FUEL path follow 0 0 with
  | some (r, _) => r
  | none => .error ⟨.ENOENT, "resolution fuel exhausted"⟩

/-- `VFS.resolve` instrumented with the total number of symlink
expansions the resolution performed. -/
def resolveCount (s : VFSState) (path : String) :
    Option (Except VfsError RNode × Nat) :=
  resolveGo s.root FUEL path true 0 0

/-- `VFS.assertWritable`. -/
def assertWritable (s : VFSState) (path : String) : Except VfsError Unit :=
  if s.initializing then .ok ()
  else
    match s.writablePaths with
    | none => .ok ()
    | some ps =>
      match parsePath path with
      | .error e => .error e
      | .ok segs =>
        let normalized := renderPath segs
        if ps.any (fun pre => normalized = pre
            || strStartsWith normalized (pre ++ "/")) then .ok ()
        else .error ⟨.EROFS, "read-only file system: " ++ path⟩

/-- `VFS.resolveParent`: parent directory (with its physical location)
and the leaf name.  The `none` branches are unreachable since the nested
resolves run with full fuel. -/
def resolveParent (s : VFSState) (path : String) :
    Except VfsError (RNode × String) :=
  match parsePath path with
  | .error e => .error e
  | .ok [] => .error ⟨.EEXIST, "cannot operate on root: " ++ path⟩
  | .ok (seg :: rest) =>
    let name := (seg :: rest).getLastD ""
    let parentSegs := (seg :: rest).dropLast
    match walkSegsF (fun t d c => resolveGo s.root FUEL t true d c) path
        parentSegs ⟨s.root, []⟩ 0 0 with
    | none => .error ⟨.ENOENT, "resolution fuel exhausted"⟩
    | some (.error e, _) => .error e
    | some (.ok (cur, depth'), _) =>
      match cur.node with
      | .symlink target _ =>
        if MAX_SYMLINK_DEPTH ≤ depth' then .error (tooManyErr path)
        else
          match resolveGo s.root FUEL target true (depth' + 1) 0 with
          | none => .error ⟨.ENOENT, "resolution fuel exhausted"⟩
          | some (.error e, _) => .error e
          | some (.ok cur', _) =>
            match cur'.node with
            | .dir _ _ => .ok (cur', name)
            | _ => .error (notDirErr path)
      | .dir _ _ => .ok (cur, name)
      | _ => .error (notDirErr path)

/-! ### Totality of resolution

The depth counter strictly increases into every nested resolve and
recursion is refused at `MAX_SYMLINK_DEPTH`, so fuel
`MAX_SYMLINK_DEPTH + 1 - depth` can never run out. -/

theorem walkSegsF_total
    (recur : String → Nat → Nat → Option (Except VfsError RNode × Nat))
    (path : String) (B : Nat)
    (hrec : ∀ t d c, B ≤ d → d ≤ MAX_SYMLINK_DEPTH → (recur t d c).isSome = true) :
    ∀ (segs : List String) (cur : RNode) (depth cnt : Nat), B ≤ depth + 1 →
      (walkSegsF recur path segs cur depth cnt).isSome = true ∧
      (∀ r d' c', walkSegsF recur path segs cur depth cnt = some (.ok (r, d'), c') →
        depth ≤ d') := by
  intro segs
  induction segs with
  | nil =>
    intro cur depth cnt hB
    refine ⟨rfl, ?_⟩
    intro r d' c' h
    simp only [walkSegsF, Option.some.injEq, Prod.mk.injEq] at h
    obtain ⟨h1, -⟩ := h
    cases h1
    exact le_refl _
  | cons seg rest ih =>
    intro cur depth cnt hB
    cases hnode : cur.node with
    | dir children perms =>
      simp only [walkSegsF, hnode]
      cases hf : children.find seg with
      | none =>
        refine ⟨rfl, ?_⟩
        intro r d' c' h
        simp at h
      | some child =>
        exact ih ⟨child, cur.loc ++ [seg]⟩ depth cnt hB
    | file content perms =>
      simp only [walkSegsF, hnode]
      refine ⟨rfl, ?_⟩
      intro r d' c' h
      simp at h
    | symlink target perms =>
      simp only [walkSegsF, hnode]
      by_cases hd : MAX_SYMLINK_DEPTH ≤ depth
      · simp only [if_pos hd]
        refine ⟨rfl, ?_⟩
        intro r d' c' h
        simp at h
      · simp only [if_neg hd]
        have hsome := hrec target (depth + 1) (cnt + 1) (by omega) (by omega)
        cases hres : recur target (depth + 1) (cnt + 1) with
        | none =>
          rw [hres] at hsome
          simp at hsome
        | some val =>
          obtain ⟨exr, cnt'⟩ := val
          cases exr with
          | error e =>
            refine ⟨rfl, ?_⟩
            intro r d' c' h
            simp at h
          | ok cur' =>
            cases hnode' : cur'.node with
            | dir children' perms' =>
              simp only [hnode']
              cases hf : children'.find seg with
              | none =>
                refine ⟨rfl, ?_⟩
                intro r d' c' h
                simp at h
              | some child =>
                have hih := ih ⟨child, cur'.loc ++ [seg]⟩ (depth + 1) cnt' (by omega)
                refine ⟨hih.1, ?_⟩
                intro r d' c' h
                have := hih.2 r d' c' h
                omega
            | file content' perms' =>
              simp only [hnode']
              refine ⟨rfl, ?_⟩
              intro r d' c' h
              simp at h
            | symlink target' perms' =>
              simp only [hnode']
              refine ⟨rfl, ?_⟩
              intro r d' c' h
              simp at h

theorem resolveGo_some (root : Inode) :
    ∀ (fuel depth : Nat), MAX_SYMLINK_DEPTH + 1 ≤ fuel + depth →
      depth ≤ MAX_SYMLINK_DEPTH →
      ∀ path follow cnt, (resolveGo root fuel path follow depth cnt).isSome = true := by
  intro fuel
  induction fuel with
  | zero =>
    intro depth h1 h2
    simp only [MAX_SYMLINK_DEPTH] at h1 h2
    omega
  | succ fuel ih =>
    intro depth h1 h2 path follow cnt
    simp only [resolveGo]
    cases hp : parsePath path with
    | error e => simp
    | ok segs =>
      cases segs with
      | nil => simp
      | cons seg rest =>
        dsimp only
        have hwalk := walkSegsF_total (fun t d c => resolveGo root fuel t true d c)
          path (MAX_SYMLINK_DEPTH + 1 - fuel)
          (fun t d c hBd hd40 => ih d (by omega) hd40 t true c)
          (seg :: rest) ⟨root, []⟩ depth cnt (by omega)
        cases hw : walkSegsF (fun t d c => resolveGo root fuel t true d c)
            path (seg :: rest) ⟨root, []⟩ depth cnt with
        | none =>
          rw [hw] at hwalk
          exact absurd hwalk.1 (by simp)
        | some val =>
          obtain ⟨exr, cnt'⟩ := val
          cases exr with
          | error e =>
            simp
          | ok rd =>
            obtain ⟨cur, depth'⟩ := rd
            have hmono := hwalk.2 cur depth' cnt' hw
            cases hfol : follow with
            | false =>
              cases hnode : cur.node <;> simp [hnode]
            | true =>
              cases hnode : cur.node with
              | dir c p => simp [hnode]
              | file c p => simp [hnode]
              | symlink target p =>
                simp only [hnode]
                by_cases hd : MAX_SYMLINK_DEPTH ≤ depth'
                · simp [if_pos hd]
                · simp only [if_neg hd]
                  exact ih (depth' + 1) (by omega) (by omega) target true (cnt' + 1)

/-- The public entry point always resolves (termination of resolution
for every input path, including cyclic symlinks). -/
theorem resolveCount_isSome (s : VFSState) (path : String) :
    (resolveCount s path).isSome = true :=
  resolveGo_some s.root FUEL 0 (by simp [FUEL]) (by simp [MAX_SYMLINK_DEPTH])
    path true 0

/-! ### Operations

JS mutates the parent `DirInode` returned by `resolveParent` in place;
directories exclusively own their children, so a node has exactly one
physical location and the functional counterpart rebuilds the tree along
the parent's physical location (`RNode.loc`). -/

/-- Rebuild the tree, applying `fn` to the children of the directory at
physical location `segs`. -/
def updateDirAt : Inode → List String → (InodeMap → InodeMap) → Inode
  | .dir ch p, [], fn => .dir (fn ch) p
  | .dir ch p, seg :: rest, fn =>
    match ch.find seg with
    | some child => .dir (ch.set seg (updateDirAt child rest fn)) p
    | none => .dir ch p
  | node, _, _ => node

/-- Rebuild the tree, setting the permissions of the node at physical
location `segs` (`chmod` mutates the resolved inode's metadata). -/
def setPermsAt : Inode → List String → Nat → Inode
  | .file c _, [], m => .file c m
  | .dir ch _, [], m => .dir ch m
  | .symlink t _, [], m => .symlink t m
  | .dir ch p, seg :: rest, m =>
    match ch.find seg with
    | some child => .dir (ch.set seg (setPermsAt child rest m)) p
    | none => .dir ch p
  | node, _, _ => node

inductive NodeType
  | file | dir | symlink
deriving Repr, DecidableEq

def Inode.typeOf : Inode → NodeType
  | .file _ _ => .file
  | .dir _ _ => .dir
  | .symlink _ _ => .symlink

/-- `VFS.withWriteAccess`: run with the writable-path check bypassed,
restoring the previous flag afterwards. -/
def withWriteAccess (s : VFSState)
    (fn : VFSState → Except VfsError VFSState) : Except VfsError VFSState :=
  match fn { s with initializing := true } with
  | .ok s2 => .ok { s2 with initializing := s.initializing }
  | .error e => .error e

/-- `VFS.writeFile`. -/
def writeFile (s : VFSState) (path : String) (data : List Nat) :
    Except VfsError VFSState :=
  match assertWritable s path with
  | .error e => .error e
  | .ok _ =>
    match resolveParent s path with
    | .error e => .error e
    | .ok (parent, name) =>
      match parent.node with
      | .dir children _ =>
        match children.find name with
        | some (.dir _ _) => .error ⟨.EISDIR, "is a directory: " ++ path⟩
        | existing =>
          let oldSize : Int := match existing with
            | some (.file c _) => (c.length : Int)
            | _ => 0
          let delta : Int := (data.length : Int) - oldSize
          let overLimit : Bool := match s.fsLimitBytes with
            | some limit => decide (limit < s.totalBytes + delta)
            | none => false
          if overLimit then
            .error ⟨.ENOSPC, "no space left on device"⟩
          else
            match existing with
            | some (.file _ perms) =>
              -- replace content in place: the metadata (permissions) stays
              .ok { s with
                    root := updateDirAt s.root parent.loc
                      (fun ch => ch.set name (.file data perms)),
                    totalBytes := s.totalBytes + delta }
            | _ =>
              let countOver : Bool := match s.fileCountLimit with
                | some fc => decide (fc ≤ s.currentFileCount)
                | none => false
              if countOver then
                .error ⟨.ENOSPC, "file count limit exceeded"⟩
              else
                .ok { s with
                      root := updateDirAt s.root parent.loc
                        (fun ch => ch.set name (createFileInode data)),
                      totalBytes := s.totalBytes + delta,
                      currentFileCount := s.currentFileCount + 1 }
      | _ => .error (notDirErr path)

/-- `VFS.mkdir`. -/
def mkdir (s : VFSState) (path : String) : Except VfsError VFSState :=
  match assertWritable s path with
  | .error e => .error e
  | .ok _ =>
    match resolveParent s path with
    | .error e => .error e
    | .ok (parent, name) =>
      match parent.node with
      | .dir children _ =>
        if children.has name then .error ⟨.EEXIST, "file exists: " ++ path⟩
        else
          let countOver : Bool := match s.fileCountLimit with
            | some fc => decide (fc ≤ s.currentFileCount)
            | none => false
          if countOver then .error ⟨.ENOSPC, "file count limit exceeded"⟩
          else
            .ok { s with
                  root := updateDirAt s.root parent.loc
                    (fun ch => ch.set name createDirInode),
                  currentFileCount := s.currentFileCount + 1 }
      | _ => .error (notDirErr path)

/-- The segment loop of `mkdirp` (note the source does not touch
`currentFileCount` here, unlike `mkdir` and `mkdirInternal`). -/
def mkdirpAt : Inode → List String → List String → Except VfsError Inode
  | .dir ch p, [], _ => .ok (.dir ch p)
  | .dir ch p, seg :: rest, done =>
    match ch.find seg with
    | some (.dir ch2 p2) =>
      match mkdirpAt (.dir ch2 p2) rest (done ++ [seg]) with
      | .ok sub => .ok (.dir (ch.set seg sub) p)
      | .error e => .error e
    | some _ =>
      .error ⟨.ENOTDIR, "not a directory: " ++ renderPath (done ++ [seg])⟩
    | none =>
      match mkdirpAt createDirInode rest (done ++ [seg]) with
      | .ok sub => .ok (.dir (ch.set seg sub) p)
      | .error e => .error e
  | node, _, _ => .ok node

/-- `VFS.mkdirp`. -/
def mkdirp (s : VFSState) (path : String) : Except VfsError VFSState :=
  match assertWritable s path with
  | .error e => .error e
  | .ok _ =>
    match parsePath path with
    | .error e => .error e
    | .ok segs =>
      match mkdirpAt s.root segs [] with
      | .ok root' => .ok { s with root := root' }
      | .error e => .error e

def InodeMap.entriesOf : InodeMap → List (String × NodeType)
  | .nil => []
  | .cons n v rest => (n, v.typeOf) :: entriesOf rest

/-- `VFS.readdir`. -/
def readdir (s : VFSState) (path : String) :
    Except VfsError (List (String × NodeType)) :=
  match resolveE s path true with
  | .error e => .error e
  | .ok r =>
    match r.node with
    | .dir children _ => .ok children.entriesOf
    | _ => .error (notDirErr path)

/-- `VFS.unlink`. -/
def unlink (s : VFSState) (path : String) : Except VfsError VFSState :=
  match assertWritable s path with
  | .error e => .error e
  | .ok _ =>
    match resolveParent s path with
    | .error e => .error e
    | .ok (parent, name) =>
      match parent.node with
      | .dir children _ =>
        match children.find name with
        | none => .error (noEntErr path)
        | some (.dir _ _) => .error ⟨.EISDIR, "is a directory: " ++ path⟩
        | some child =>
          let bytes : Int := match child with
            | .file c _ => (c.length : Int)
            | _ => 0
          .ok { s with
                root := updateDirAt s.root parent.loc (fun ch => ch.del name),
                totalBytes := s.totalBytes - bytes,
                currentFileCount := s.currentFileCount - 1 }
      | _ => .error (notDirErr path)

/-- `VFS.rmdir` (the source does not decrement `currentFileCount`
here). -/
def rmdir (s : VFSState) (path : String) : Except VfsError VFSState :=
  match assertWritable s path with
  | .error e => .error e
  | .ok _ =>
    match resolveParent s path with
    | .error e => .error e
    | .ok (parent, name) =>
      match parent.node with
      | .dir children _ =>
        match children.find name with
        | none => .error (noEntErr path)
        | some (.dir ch2 _) =>
          if 0 < ch2.size then
            .error ⟨.ENOTEMPTY, "directory not empty: " ++ path⟩
          else
            .ok { s with
                  root := updateDirAt s.root parent.loc (fun ch => ch.del name) }
        | some _ => .error (notDirErr path)
      | _ => .error (notDirErr path)

/-- `VFS.rename` (both resolutions happen on the pre-state, as in the
source; the delete-then-set rebuild matches the in-place mutation for
non-overlapping locations). -/
def rename (s : VFSState) (oldPath newPath : String) :
    Except VfsError VFSState :=
  match assertWritable s oldPath with
  | .error e => .error e
  | .ok _ =>
    match assertWritable s newPath with
    | .error e => .error e
    | .ok _ =>
      match resolveParent s oldPath with
      | .error e => .error e
      | .ok (oldParent, oldName) =>
        match oldParent.node with
        | .dir children _ =>
          match children.find oldName with
          | none => .error (noEntErr oldPath)
          | some child =>
            match resolveParent s newPath with
            | .error e => .error e
            | .ok (newParent, newName) =>
              let root1 := updateDirAt s.root oldParent.loc
                (fun ch => ch.del oldName)
              let root2 := updateDirAt root1 newParent.loc
                (fun ch => ch.set newName child)
              .ok { s with root := root2 }
        | _ => .error (notDirErr oldPath)

/-- `VFS.symlink` (no `currentFileCount` bump in the source). -/
def symlink (s : VFSState) (target path : String) : Except VfsError VFSState :=
  match assertWritable s path with
  | .error e => .error e
  | .ok _ =>
    match resolveParent s path with
    | .error e => .error e
    | .ok (parent, name) =>
      match parent.node with
      | .dir children _ =>
        if children.has name then .error ⟨.EEXIST, "file exists: " ++ path⟩
        else
          .ok { s with
                root := updateDirAt s.root parent.loc
                  (fun ch => ch.set name (createSymlinkInode target)) }
      | _ => .error (notDirErr path)

/-- `VFS.chmod` — note: no `assertWritable` in the source. -/
def chmod (s : VFSState) (path : String) (mode : Nat) :
    Except VfsError VFSState :=
  match resolveE s path true with
  | .error e => .error e
  | .ok r => .ok { s with root := setPermsAt s.root r.loc mode }

structure StatResult where
  typ : NodeType
  size : Nat
  permissions : Nat
deriving Repr, DecidableEq

/-- `VFS.stat` (timestamps elided). -/
def stat (s : VFSState) (path : String) : Except VfsError StatResult :=
  match resolveE s path true with
  | .error e => .error e
  | .ok r =>
    match r.node with
    | .file c p => .ok ⟨.file, c.length, p⟩
    | .dir ch p => .ok ⟨.dir, ch.size, p⟩
    | .symlink t p => .ok ⟨.symlink, t.length, p⟩

/-- `VFS.readFile`.  The symlink branch is the source's defensive guard
(resolution with follow already chased leaf symlinks, so it is dead); it
recurses on the target, which we bound by fuel. -/
def readFileGo (s : VFSState) : Nat → String → Except VfsError (List Nat)
  | 0, path => .error ⟨.ENOENT, "symlink chain: " ++ path⟩
  | fuel+1, path =>
    match resolveE s path true with
    | .error e => .error e
    | .ok r =>
      match r.node with
      | .dir _ _ => .error ⟨.EISDIR, "is a directory: " ++ path⟩
      | .file c _ => .ok c
      | .symlink target _ => readFileGo s fuel target

def readFile (s : VFSState) (path : String) : Except VfsError (List Nat) :=
  readFileGo s FUEL path

/-- `VFS.readlink`. -/
def readlink (s : VFSState) (path : String) : Except VfsError String :=
  match resolveE s path false with
  | .error e => .error e
  | .ok r =>
    match r.node with
    | .symlink t _ => .ok t
    | _ => .error ⟨.ENOENT, "not a symlink: " ++ path⟩

/-! ### Construction (`new VFS(options)`) -/

/-- The segment loop of `mkdirInternal`, counting created directories
(which the constructor adds to `currentFileCount`). -/
def mkdirInternalAt (path : String) :
    Inode → List String → Except VfsError (Inode × Int)
  | .dir ch p, [] => .ok (.dir ch p, 0)
  | .dir ch p, seg :: rest =>
    match ch.find seg with
    | some (.dir ch2 p2) =>
      match mkdirInternalAt path (.dir ch2 p2) rest with
      | .ok (sub, k) => .ok (.dir (ch.set seg sub) p, k)
      | .error e => .error e
    | some _ => .error (notDirErr path)
    | none =>
      match mkdirInternalAt path createDirInode rest with
      | .ok (sub, k) => .ok (.dir (ch.set seg sub) p, k + 1)
      | .error e => .error e
  | node, _ => .ok (node, 0)

/-- `VFS.mkdirInternal`. -/
def mkdirInternal (s : VFSState) (path : String) : Except VfsError VFSState :=
  match parsePath path with
  | .error e => .error e
  | .ok segs =>
    match mkdirInternalAt path s.root segs with
    | .error e => .error e
    | .ok (root', k) =>
      .ok { s with root := root', currentFileCount := s.currentFileCount + k }

structure VfsOptions where
  fsLimitBytes : Option Int := none
  writablePaths : Option (List String) := none
  fileCount : Option Int := none

def DEFAULT_LAYOUT : List String :=
  ["/home", "/home/user", "/tmp", "/bin", "/usr", "/usr/bin", "/mnt"]

def initDefaultLayout (s : VFSState) : Except VfsError VFSState :=
  DEFAULT_LAYOUT.foldlM mkdirInternal s

/-- The `VFS` constructor: default layout created under the initializing
bypass; `writablePaths` defaults to `["/home/user", "/tmp"]`.  The error
fallback is unreachable (`initDefaultLayout` on a fresh root
succeeds). -/
def newVFS (options : VfsOptions) : VFSState :=
  let s0 : VFSState :=
    { root := createDirInode, totalBytes := 0,
      fsLimitBytes := options.fsLimitBytes,
      fileCountLimit := options.fileCount,
      currentFileCount := 0,
      writablePaths := match options.writablePaths with
        | none => some ["/home/user", "/tmp"]
        | some ps => some ps,
      initializing := true }
  match initDefaultLayout s0 with
  | .ok s1 => { s1 with initializing := false }
  | .error _ => { s0 with initializing := false }

/-! ### Error taxonomy of resolution

Resolution only ever constructs ENOENT / ENOTDIR (and `resolveParent`
additionally EEXIST for the root); in particular never EROFS. -/

def errnoOf {α : Type} (x : Except VfsError α) : Option Errno :=
  match x with
  | .error e => some e.errno
  | .ok _ => none

/-- `true` iff the result is an EROFS failure. -/
def hasEROFS {α : Type} (x : Except VfsError α) : Bool :=
  match x with
  | .error e => e.errno = Errno.EROFS
  | .ok _ => false

theorem walkSegsF_no_erofs
    (recur : String → Nat → Nat → Option (Except VfsError RNode × Nat))
    (path : String)
    (hrec : ∀ t d c e c', recur t d c = some (.error e, c') → e.errno ≠ .EROFS) :
    ∀ segs cur depth cnt e cnt',
      walkSegsF recur path segs cur depth cnt = some (.error e, cnt') →
      e.errno ≠ .EROFS := by
  intro segs
  induction segs with
  | nil =>
    intro cur depth cnt e cnt' h
    simp [walkSegsF] at h
  | cons seg rest ih =>
    intro cur depth cnt e cnt' h
    cases hnode : cur.node with
    | dir ch p =>
      simp only [walkSegsF, hnode] at h
      cases hf : ch.find seg with
      | none =>
        rw [hf] at h
        simp only [Option.some.injEq, Prod.mk.injEq, Except.error.injEq] at h
        cases h.1
        simp [noEntErr]
      | some child =>
        rw [hf] at h
        exact ih _ _ _ _ _ h
    | file c p =>
      simp only [walkSegsF, hnode] at h
      simp only [Option.some.injEq, Prod.mk.injEq, Except.error.injEq] at h
      cases h.1
      simp [notDirErr]
    | symlink t p =>
      simp only [walkSegsF, hnode] at h
      split at h
      · simp only [Option.some.injEq, Prod.mk.injEq, Except.error.injEq] at h
        cases h.1
        simp [tooManyErr]
      · cases hres : recur t (depth + 1) (cnt + 1) with
        | none =>
          rw [hres] at h
          simp at h
        | some val =>
          obtain ⟨exr, c2⟩ := val
          rw [hres] at h
          cases exr with
          | error e' =>
            simp only [Option.some.injEq, Prod.mk.injEq, Except.error.injEq] at h
            cases h.1
            exact hrec t (depth + 1) (cnt + 1) _ _ hres
          | ok cur' =>
            cases hnode' : cur'.node with
            | dir ch' p' =>
              simp only [hnode'] at h
              cases hf : ch'.find seg with
              | none =>
                rw [hf] at h
                simp only [Option.some.injEq, Prod.mk.injEq, Except.error.injEq] at h
                cases h.1
                simp [noEntErr]
              | some child =>
                rw [hf] at h
                exact ih _ _ _ _ _ h
            | file c' p' =>
              simp only [hnode'] at h
              simp only [Option.some.injEq, Prod.mk.injEq, Except.error.injEq] at h
              cases h.1
              simp [notDirErr]
            | symlink t' p' =>
              simp only [hnode'] at h
              simp only [Option.some.injEq, Prod.mk.injEq, Except.error.injEq] at h
              cases h.1
              simp [notDirErr]

theorem resolveGo_no_erofs (root : Inode) :
    ∀ fuel path follow depth cnt e cnt',
      resolveGo root fuel path follow depth cnt = some (.error e, cnt') →
      e.errno ≠ .EROFS := by
  intro fuel
  induction fuel with
  | zero =>
    intro path follow depth cnt e cnt' h
    simp [resolveGo] at h
  | succ fuel ih =>
    intro path follow depth cnt e cnt' h
    simp only [resolveGo] at h
    cases hp : parsePath path with
    | error e' =>
      rw [hp] at h
      simp only [Option.some.injEq, Prod.mk.injEq, Except.error.injEq] at h
      cases h.1
      revert hp
      unfold parsePath
      split
      · intro hx
        cases hx
      · intro hx
        simp only [Except.error.injEq] at hx
        cases hx
        simp
    | ok segs =>
      rw [hp] at h
      cases segs with
      | nil => simp at h
      | cons seg rest =>
        dsimp only at h
        have hno : ∀ t d c e c',
            resolveGo root fuel t true d c = some (.error e, c') →
            e.errno ≠ .EROFS := fun t d c e c' hx => ih t true d c e c' hx
        cases hw : walkSegsF (fun t d c => resolveGo root fuel t true d c)
            path (seg :: rest) ⟨root, []⟩ depth cnt with
        | none =>
          rw [hw] at h
          simp at h
        | some val =>
          obtain ⟨exr, cnt2⟩ := val
          rw [hw] at h
          cases exr with
          | error e2 =>
            simp only [Option.some.injEq, Prod.mk.injEq, Except.error.injEq] at h
            cases h.1
            exact walkSegsF_no_erofs _ path hno _ _ _ _ _ _ hw
          | ok rd =>
            obtain ⟨cur, depth'⟩ := rd
            dsimp only at h
            split at h
            · split at h
              · simp only [Option.some.injEq, Prod.mk.injEq,
                  Except.error.injEq] at h
                cases h.1
                simp [tooManyErr]
              · exact ih _ _ _ _ _ _ h
            · simp at h

theorem parsePath_no_erofs (path : String) (e : VfsError)
    (h : parsePath path = .error e) : e.errno ≠ .EROFS := by
  revert h
  unfold parsePath
  split
  · intro hx
    cases hx
  · intro hx
    simp only [Except.error.injEq] at hx
    cases hx
    simp

theorem resolveParent_no_erofs (s : VFSState) (path : String) (e : VfsError)
    (h : resolveParent s path = .error e) : e.errno ≠ .EROFS := by
  have hno : ∀ t d c e c',
      resolveGo s.root FUEL t true d c = some (.error e, c') →
      e.errno ≠ .EROFS := fun t d c e c' hx =>
    resolveGo_no_erofs s.root FUEL t true d c e c' hx
  unfold resolveParent at h
  cases hp : parsePath path with
  | error e2 =>
    rw [hp] at h
    dsimp only at h
    cases h
    exact parsePath_no_erofs path _ hp
  | ok segs =>
    rw [hp] at h
    cases segs with
    | nil =>
      dsimp only at h
      cases h
      simp
    | cons seg rest =>
      dsimp only at h
      cases hw : walkSegsF (fun t d c => resolveGo s.root FUEL t true d c) path
          ((seg :: rest).dropLast) ⟨s.root, []⟩ 0 0 with
      | none =>
        rw [hw] at h
        dsimp only at h
        cases h
        simp
      | some val =>
        obtain ⟨exr, cnt2⟩ := val
        rw [hw] at h
        cases exr with
        | error e2 =>
          dsimp only at h
          cases h
          exact walkSegsF_no_erofs _ path hno _ _ _ _ _ _ hw
        | ok rd =>
          obtain ⟨cur, depth'⟩ := rd
          dsimp only at h
          split at h
          · -- the final node is a symlink: chase it
            split at h
            · cases h
              simp [tooManyErr]
            · split at h
              · cases h
                simp
              · rename_i heq
                cases h
                exact hno _ _ _ _ _ heq
              · split at h
                · simp at h
                · cases h
                  simp [notDirErr]
          · simp at h
          · cases h
            simp [notDirErr]


theorem resolveE_no_erofs (s : VFSState) (path : String) (follow : Bool)
    (e : VfsError) (h : resolveE s path follow = .error e) : e.errno ≠ .EROFS := by
  unfold resolveE at h
  cases hr : resolveGo s.root FUEL path follow 0 0 with
  | none =>
    rw [hr] at h
    cases h
    simp
  | some val =>
    obtain ⟨exr, c⟩ := val
    rw [hr] at h
    cases exr with
    | error e2 =>
      cases h
      exact resolveGo_no_erofs s.root FUEL path follow 0 0 _ _ hr
    | ok r =>
      cases h

theorem readFileGo_no_erofs (s : VFSState) :
    ∀ fuel path e, readFileGo s fuel path = .error e → e.errno ≠ .EROFS := by
  intro fuel
  induction fuel with
  | zero =>
    intro path e h
    cases h
    simp
  | succ fuel ih =>
    intro path e h
    simp only [readFileGo] at h
    cases hr : resolveE s path true with
    | error e2 =>
      rw [hr] at h
      cases h
      exact resolveE_no_erofs s path true _ hr
    | ok r =>
      rw [hr] at h
      dsimp only at h
      split at h
      · cases h
        simp
      · cases h
      · exact ih _ _ h

/-! ### Claim C3: the write policy -/

/-- `assertWritable` rejects with EROFS exactly the absolute paths whose
normalized form is under no writable prefix (bypass off). -/
theorem assertWritable_outside (s : VFSState) (path : String)
    (segs : List String) (ps : List String)
    (hinit : s.initializing = false) (hwp : s.writablePaths = some ps)
    (hparse : parsePath path = .ok segs)
    (hout : (ps.any fun pre => renderPath segs = pre
      || strStartsWith (renderPath segs) (pre ++ "/")) = false) :
    assertWritable s path = .error ⟨.EROFS, "read-only file system: " ++ path⟩ := by
  simp only [assertWritable, hinit, Bool.false_eq_true, if_false, hwp, hparse]
  rw [if_neg]
  simp [hout]

theorem writeFile_assert_error (s : VFSState) (path : String) (data : List Nat)
    (er : VfsError) (h : assertWritable s path = .error er) :
    writeFile s path data = .error er := by
  simp [writeFile, h]

theorem mkdir_assert_error (s : VFSState) (path : String)
    (er : VfsError) (h : assertWritable s path = .error er) :
    mkdir s path = .error er := by
  simp [mkdir, h]

theorem mkdirp_assert_error (s : VFSState) (path : String)
    (er : VfsError) (h : assertWritable s path = .error er) :
    mkdirp s path = .error er := by
  simp [mkdirp, h]

theorem unlink_assert_error (s : VFSState) (path : String)
    (er : VfsError) (h : assertWritable s path = .error er) :
    unlink s path = .error er := by
  simp [unlink, h]

theorem rmdir_assert_error (s : VFSState) (path : String)
    (er : VfsError) (h : assertWritable s path = .error er) :
    rmdir s path = .error er := by
  simp [rmdir, h]

theorem symlink_assert_error (s : VFSState) (target path : String)
    (er : VfsError) (h : assertWritable s path = .error er) :
    symlink s target path = .error er := by
  simp [symlink, h]

theorem rename_assert_error (s : VFSState) (oldPath newPath : String)
    (er : VfsError) (h : assertWritable s oldPath = .error er) :
    rename s oldPath newPath = .error er := by
  simp [rename, h]

theorem writeFile_no_erofs (s : VFSState) (path : String) (data : List Nat)
    (ha : assertWritable s path = .ok ()) :
    hasEROFS (writeFile s path data) = false := by
  unfold writeFile
  rw [ha]
  dsimp only
  cases hrp : resolveParent s path with
  | error e =>
    have := resolveParent_no_erofs s path e hrp
    simp only [hasEROFS]
    exact decide_eq_false this
  | ok pr =>
    obtain ⟨parent, name⟩ := pr
    dsimp only
    repeat' split
    all_goals simp [hasEROFS, notDirErr, noEntErr]

theorem mkdir_no_erofs (s : VFSState) (path : String)
    (ha : assertWritable s path = .ok ()) :
    hasEROFS (mkdir s path) = false := by
  unfold mkdir
  rw [ha]
  dsimp only
  cases hrp : resolveParent s path with
  | error e =>
    have := resolveParent_no_erofs s path e hrp
    simp only [hasEROFS]
    exact decide_eq_false this
  | ok pr =>
    obtain ⟨parent, name⟩ := pr
    dsimp only
    repeat' split
    all_goals simp [hasEROFS, notDirErr, noEntErr]

theorem mkdirpAt_no_erofs :
    ∀ (segs : List String) (node : Inode) (done : List String) (e : VfsError),
      mkdirpAt node segs done = .error e → e.errno ≠ .EROFS := by
  intro segs
  induction segs with
  | nil =>
    intro node done e h
    cases node <;> simp [mkdirpAt] at h
  | cons seg rest ih =>
    intro node done e h
    cases node with
    | file c p => simp [mkdirpAt] at h
    | symlink t p => simp [mkdirpAt] at h
    | dir ch p =>
      simp only [mkdirpAt] at h
      cases hf : ch.find seg with
      | none =>
        rw [hf] at h
        dsimp only at h
        cases hrec : mkdirpAt createDirInode rest (done ++ [seg]) with
        | ok sub => rw [hrec] at h; cases h
        | error e2 =>
          rw [hrec] at h
          cases h
          exact ih _ _ _ hrec
      | some child =>
        rw [hf] at h
        cases child with
        | dir ch2 p2 =>
          dsimp only at h
          cases hrec : mkdirpAt (.dir ch2 p2) rest (done ++ [seg]) with
          | ok sub => rw [hrec] at h; cases h
          | error e2 =>
            rw [hrec] at h
            cases h
            exact ih _ _ _ hrec
        | file c2 p2 =>
          dsimp only at h
          cases h
          simp
        | symlink t2 p2 =>
          dsimp only at h
          cases h
          simp

theorem mkdirp_no_erofs (s : VFSState) (path : String)
    (ha : assertWritable s path = .ok ()) :
    hasEROFS (mkdirp s path) = false := by
  unfold mkdirp
  rw [ha]
  dsimp only
  cases hp : parsePath path with
  | error e =>
    have := parsePath_no_erofs path e hp
    simp only [hasEROFS]
    exact decide_eq_false this
  | ok segs =>
    dsimp only
    cases hm : mkdirpAt s.root segs [] with
    | ok root' => simp [hasEROFS]
    | error e =>
      have := mkdirpAt_no_erofs segs s.root [] e hm
      simp only [hasEROFS]
      exact decide_eq_false this

theorem unlink_no_erofs (s : VFSState) (path : String)
    (ha : assertWritable s path = .ok ()) :
    hasEROFS (unlink s path) = false := by
  unfold unlink
  rw [ha]
  dsimp only
  cases hrp : resolveParent s path with
  | error e =>
    have := resolveParent_no_erofs s path e hrp
    simp only [hasEROFS]
    exact decide_eq_false this
  | ok pr =>
    obtain ⟨parent, name⟩ := pr
    dsimp only
    repeat' split
    all_goals simp [hasEROFS, notDirErr, noEntErr]

theorem rmdir_no_erofs (s : VFSState) (path : String)
    (ha : assertWritable s path = .ok ()) :
    hasEROFS (rmdir s path) = false := by
  unfold rmdir
  rw [ha]
  dsimp only
  cases hrp : resolveParent s path with
  | error e =>
    have := resolveParent_no_erofs s path e hrp
    simp only [hasEROFS]
    exact decide_eq_false this
  | ok pr =>
    obtain ⟨parent, name⟩ := pr
    dsimp only
    repeat' split
    all_goals simp [hasEROFS, notDirErr, noEntErr]

theorem symlink_no_erofs (s : VFSState) (target path : String)
    (ha : assertWritable s path = .ok ()) :
    hasEROFS (symlink s target path) = false := by
  unfold symlink
  rw [ha]
  dsimp only
  cases hrp : resolveParent s path with
  | error e =>
    have := resolveParent_no_erofs s path e hrp
    simp only [hasEROFS]
    exact decide_eq_false this
  | ok pr =>
    obtain ⟨parent, name⟩ := pr
    dsimp only
    repeat' split
    all_goals simp [hasEROFS, notDirErr, noEntErr]

theorem rename_no_erofs (s : VFSState) (oldPath newPath : String)
    (ha : assertWritable s oldPath = .ok ())
    (hb : assertWritable s newPath = .ok ()) :
    hasEROFS (rename s oldPath newPath) = false := by
  unfold rename
  rw [ha, hb]
  dsimp only
  cases hrp : resolveParent s oldPath with
  | error e =>
    have := resolveParent_no_erofs s oldPath e hrp
    simp only [hasEROFS]
    exact decide_eq_false this
  | ok pr =>
    obtain ⟨parent, name⟩ := pr
    dsimp only
    split
    · split
      · simp [hasEROFS, noEntErr]
      · cases hrp2 : resolveParent s newPath with
        | error e =>
          have := resolveParent_no_erofs s newPath e hrp2
          simp only [hasEROFS]
          exact decide_eq_false this
        | ok pr2 =>
          obtain ⟨parent2, name2⟩ := pr2
          simp [hasEROFS]
    · simp [hasEROFS, notDirErr]

theorem chmod_no_erofs (s : VFSState) (path : String) (mode : Nat) :
    hasEROFS (chmod s path mode) = false := by
  unfold chmod
  cases hr : resolveE s path true with
  | error e =>
    have := resolveE_no_erofs s path true e hr
    simp only [hasEROFS]
    exact decide_eq_false this
  | ok r => simp [hasEROFS]

theorem stat_no_erofs (s : VFSState) (path : String) :
    hasEROFS (stat s path) = false := by
  unfold stat
  cases hr : resolveE s path true with
  | error e =>
    have := resolveE_no_erofs s path true e hr
    simp only [hasEROFS]
    exact decide_eq_false this
  | ok r =>
    dsimp only
    split <;> simp [hasEROFS]

theorem readFile_no_erofs (s : VFSState) (path : String) :
    hasEROFS (readFile s path) = false := by
  unfold readFile
  cases hr : readFileGo s FUEL path with
  | error e =>
    have := readFileGo_no_erofs s FUEL path e hr
    simp only [hasEROFS]
    exact decide_eq_false this
  | ok c => simp [hasEROFS]

theorem readdir_no_erofs (s : VFSState) (path : String) :
    hasEROFS (readdir s path) = false := by
  unfold readdir
  cases hr : resolveE s path true with
  | error e =>
    have := resolveE_no_erofs s path true e hr
    simp only [hasEROFS]
    exact decide_eq_false this
  | ok r =>
    dsimp only
    split <;> simp [hasEROFS, notDirErr]

theorem readlink_no_erofs (s : VFSState) (path : String) :
    hasEROFS (readlink s path) = false := by
  unfold readlink
  cases hr : resolveE s path false with
  | error e =>
    have := resolveE_no_erofs s path false e hr
    simp only [hasEROFS]
    exact decide_eq_false this
  | ok r =>
    dsimp only
    split <;> simp [hasEROFS]

/-- C3 counterexample.  `/usr/bin` is outside the default writable set
(`assertWritable` rejects it with EROFS), yet `chmod` — a mutation — does
not consult the write policy and succeeds there, refuting "every VFS
operation on a path outside the writable set fails with EROFS". -/
theorem c3_counterexample :
    errnoOf (assertWritable (newVFS {}) "/usr/bin") = some .EROFS ∧
    errnoOf (chmod (newVFS {}) "/usr/bin" 448) = none := by
  constructor
  · rfl
  · rfl

/-- C3 (amended): with the initializing bypass off and a configured
writable set, every policy-gated mutation (`writeFile`, `mkdir`,
`mkdirp`, `unlink`, `rmdir`, `symlink`, and `rename` on its first
argument) on a normalized path outside the set fails with EROFS; when
`assertWritable` accepts (path inside the set or bypass on), none of
these operations can fail with EROFS (`rename` checks both of its
paths); and `chmod` together with the read operations (`stat`,
`readFile`, `readdir`, `readlink`) never fails with EROFS on any path —
`chmod` does not enforce the write policy at all. -/
theorem c3_write_policy :
    (∀ (s : VFSState) (path : String) (segs ps : List String),
      s.initializing = false → s.writablePaths = some ps →
      parsePath path = .ok segs →
      (ps.any fun pre => renderPath segs = pre
        || strStartsWith (renderPath segs) (pre ++ "/")) = false →
      ∀ (data : List Nat) (target newPath : String),
        writeFile s path data
            = .error ⟨.EROFS, "read-only file system: " ++ path⟩ ∧
        mkdir s path = .error ⟨.EROFS, "read-only file system: " ++ path⟩ ∧
        mkdirp s path = .error ⟨.EROFS, "read-only file system: " ++ path⟩ ∧
        unlink s path = .error ⟨.EROFS, "read-only file system: " ++ path⟩ ∧
        rmdir s path = .error ⟨.EROFS, "read-only file system: " ++ path⟩ ∧
        symlink s target path
            = .error ⟨.EROFS, "read-only file system: " ++ path⟩ ∧
        rename s path newPath
            = .error ⟨.EROFS, "read-only file system: " ++ path⟩) ∧
    (∀ (s : VFSState) (path : String), assertWritable s path = .ok () →
      ∀ (data : List Nat) (target : String),
        hasEROFS (writeFile s path data) = false ∧
        hasEROFS (mkdir s path) = false ∧
        hasEROFS (mkdirp s path) = false ∧
        hasEROFS (unlink s path) = false ∧
        hasEROFS (rmdir s path) = false ∧
        hasEROFS (symlink s target path) = false) ∧
    (∀ (s : VFSState) (p1 p2 : String),
      assertWritable s p1 = .ok () → assertWritable s p2 = .ok () →
      hasEROFS (rename s p1 p2) = false) ∧
    (∀ (s : VFSState) (path : String) (mode : Nat),
      hasEROFS (chmod s path mode) = false) ∧
    (∀ (s : VFSState) (path : String),
      hasEROFS (stat s path) = false ∧
      hasEROFS (readFile s path) = false ∧
      hasEROFS (readdir s path) = false ∧
      hasEROFS (readlink s path) = false) := by
  refine ⟨?_, ?_, ?_, ?_, ?_⟩
  · intro s path segs ps hinit hwp hparse hout data target newPath
    have her := assertWritable_outside s path segs ps hinit hwp hparse hout
    exact ⟨writeFile_assert_error s path data _ her,
      mkdir_assert_error s path _ her,
      mkdirp_assert_error s path _ her,
      unlink_assert_error s path _ her,
      rmdir_assert_error s path _ her,
      symlink_assert_error s target path _ her,
      rename_assert_error s path newPath _ her⟩
  · intro s path ha data target
    exact ⟨writeFile_no_erofs s path data ha,
      mkdir_no_erofs s path ha,
      mkdirp_no_erofs s path ha,
      unlink_no_erofs s path ha,
      rmdir_no_erofs s path ha,
      symlink_no_erofs s target path ha⟩
  · intro s p1 p2 ha hb
    exact rename_no_erofs s p1 p2 ha hb
  · intro s path mode
    exact chmod_no_erofs s path mode
  · intro s path
    exact ⟨stat_no_erofs s path, readFile_no_erofs s path,
      readdir_no_erofs s path, readlink_no_erofs s path⟩

/-- Witness for C3: on a freshly constructed VFS, a write outside the
writable set fails EROFS; a write under `/tmp` and a `chmod` outside the
set do not produce EROFS. -/
theorem c3_write_policy_witness :
    writeFile (newVFS {}) "/usr/share/x" [1]
        = .error ⟨.EROFS, "read-only file system: /usr/share/x"⟩ ∧
    hasEROFS (writeFile (newVFS {}) "/tmp/q" [1]) = false ∧
    hasEROFS (chmod (newVFS {}) "/usr/bin" 448) = false :=
  ⟨(c3_write_policy.1 (newVFS {}) "/usr/share/x" ["usr", "share", "x"]
      ["/home/user", "/tmp"] rfl rfl rfl rfl [1] "t" "/x").1,
   (c3_write_policy.2.1 (newVFS {}) "/tmp/q" rfl [1] "t").1,
   c3_write_policy.2.2.2.1 (newVFS {}) "/usr/bin" 448⟩

/-! ### Claim C4: termination and the symlink depth bound -/

/-- A chain `pre1 → /pre2 → … → preN → last` of symlinks. -/
def chainList (pre : String) (n : Nat) (last : String) : List (String × Inode) :=
  (List.range n).map (fun i =>
    (pre ++ toString (i + 1),
     Inode.symlink (if i + 1 = n then last else "/" ++ (pre ++ toString (i + 2))) 511))

def InodeMap.ofList : List (String × Inode) → InodeMap
  | [] => .nil
  | (n, v) :: r => .cons n v (ofList r)

/-- A root whose path `/s1/s2` resolves through two independent
21-expansion symlink chains (each well under the depth bound of 40), for
a total of 42 expansions in one resolution. -/
def c4Root : Inode :=
  .dir (InodeMap.ofList
    ([("s1", Inode.symlink "/c1" 511)]
      ++ chainList "c" 20 "/dirD"
      ++ [("dirD", Inode.dir (InodeMap.ofList [("s2", Inode.symlink "/d1" 511)]) 493)]
      ++ chainList "d" 20 "/leaf"
      ++ [("leaf", Inode.file [7] 420)])) 493

def c4VFS : VFSState :=
  { root := c4Root, totalBytes := 0, fsLimitBytes := none,
    fileCountLimit := none, currentFileCount := 0,
    writablePaths := some ["/home/user", "/tmp"], initializing := false }

/-- The type of the resolved node, when resolution returns. -/
def resolveOkType (s : VFSState) (path : String) : Option NodeType :=
  match resolveCount s path with
  | some (.ok r, _) => some r.node.typeOf
  | _ => none

/-- The total number of symlink expansions one resolution performed. -/
def resolveExpansions (s : VFSState) (path : String) : Option Nat :=
  match resolveCount s path with
  | some (_, n) => some n
  | none => none

/-- C4 counterexample.  The depth counter bounds the length of one
nested expansion chain, not the total number of expansions in a
resolution: resolving `/s1/s2` in `c4VFS` performs 42 symlink expansions
— beyond the claimed bound of 40 — and still succeeds, refuting
"whenever the number of symlink expansions during one resolution reaches
the bound of 40, resolution fails with ENOENT". -/
theorem c4_counterexample :
    resolveOkType c4VFS "/s1/s2" = some .file ∧
    resolveExpansions c4VFS "/s1/s2" = some 42 ∧
    MAX_SYMLINK_DEPTH ≤ 42 := by
  refine ⟨rfl, rfl, by decide⟩

/-- A fresh VFS with the cyclic symlink `/home/user/a → /home/user/a`
(the error fallback is unreachable: the creation succeeds). -/
def cycleVFS : VFSState :=
  match symlink (newVFS {}) "/home/user/a" "/home/user/a" with
  | .ok v => v
  | .error _ => newVFS {}

/-- C4 (amended): resolution terminates for every input path and every
tree — the depth counter strictly increases into each nested expansion
and recursion is refused at `MAX_SYMLINK_DEPTH = 40`, so the fuel
`MAX_SYMLINK_DEPTH + 1` never runs out; a chain whose nested expansion
depth would exceed the bound — in particular a cyclic symlink — fails
with ENOENT carrying the too-many-symbolic-links reason, after exactly
40 expansions on a self-loop.  (The bound counts nesting depth along one
chain; the counterexample shows a resolution with 42 total expansions
that succeeds.) -/
theorem c4_resolution_terminates :
    (∀ (s : VFSState) (path : String), (resolveCount s path).isSome = true) ∧
    readFile cycleVFS "/home/user/a"
      = .error ⟨.ENOENT, "too many symlinks: /home/user/a"⟩ ∧
    resolveExpansions cycleVFS "/home/user/a" = some 40 :=
  ⟨resolveCount_isSome, rfl, rfl⟩

/-! ### Claim C7: the byte quota of `writeFile` -/

/-- `oldSize` as computed by `writeFile`: the byte length of a replaced
file, 0 otherwise. -/
def oldSizeOf : Option Inode → Int
  | some (.file c _) => (c.length : Int)
  | _ => 0

def totalBytesOf (x : Except VfsError VFSState) : Option Int :=
  match x with
  | .ok v => some v.totalBytes
  | .error _ => none

/-- C7: with a byte limit configured and no file-count limit, a
`writeFile` that passes the write policy and parent resolution (parent a
directory whose entry `name` is not a directory) fails with ENOSPC
exactly when `totalBytes + (newSize − oldSize)` exceeds the limit; when
it does not, the write succeeds and `totalBytes` becomes exactly
`totalBytes + delta` — so a write landing exactly on the limit succeeds
and the next growing write fails, leaving no partial state (the
embedding returns the error before any tree or counter update, as the
source throws there). -/
theorem c7_quota (s : VFSState) (path : String) (data : List Nat)
    (limit : Int) (parent : RNode) (name : String) (ch : InodeMap) (pp : Nat)
    (hlim : s.fsLimitBytes = some limit)
    (hcnt : s.fileCountLimit = none)
    (ha : assertWritable s path = .ok ())
    (hrp : resolveParent s path = .ok (parent, name))
    (hdir : parent.node = .dir ch pp)
    (hnd : ∀ ch2 p2, ch.find name ≠ some (.dir ch2 p2)) :
    (limit < s.totalBytes + ((data.length : Int) - oldSizeOf (ch.find name)) →
      writeFile s path data = .error ⟨.ENOSPC, "no space left on device"⟩) ∧
    (s.totalBytes + ((data.length : Int) - oldSizeOf (ch.find name)) ≤ limit →
      totalBytesOf (writeFile s path data)
        = some (s.totalBytes + ((data.length : Int) - oldSizeOf (ch.find name)))) := by
  unfold writeFile
  rw [ha]
  dsimp only
  rw [hrp]
  dsimp only
  rw [hdir]
  dsimp only
  cases hf : ch.find name with
  | none =>
    dsimp only [oldSizeOf]
    rw [hlim]
    constructor
    · intro hlt
      rw [if_pos (by simpa using hlt)]
    · intro hle
      rw [if_neg (by simpa using not_lt.mpr hle)]
      rw [hcnt]
      dsimp only
      simp [totalBytesOf]
  | some existing =>
    cases existing with
    | dir ch2 p2 => exact absurd hf (hnd ch2 p2)
    | file c2 p2 =>
      dsimp only [oldSizeOf]
      rw [hlim]
      constructor
      · intro hlt
        rw [if_pos (by simpa using hlt)]
      · intro hle
        rw [if_neg (by simpa using not_lt.mpr hle)]
        simp [totalBytesOf]
    | symlink t2 p2 =>
      dsimp only [oldSizeOf]
      rw [hlim]
      constructor
      · intro hlt
        rw [if_pos (by simpa using hlt)]
      · intro hle
        rw [if_neg (by simpa using not_lt.mpr hle)]
        rw [hcnt]
        dsimp only
        simp [totalBytesOf]

/-- A fresh VFS with a 3-byte quota. -/
def c7VFS : VFSState := newVFS { fsLimitBytes := some 3 }

/-- `c7VFS` after writing 3 bytes to `/tmp/a` (exactly at the limit; the
fallback is unreachable). -/
def c7VFS2 : VFSState :=
  match writeFile c7VFS "/tmp/a" [1, 2, 3] with
  | .ok v => v
  | .error _ => c7VFS

/-- Witness for C7: a write to exactly the 3-byte limit succeeds with
`totalBytes = 3`; afterwards a 1-byte new file and a 1-byte growth of
the existing file both fail with ENOSPC. -/
theorem c7_quota_witness :
    totalBytesOf (writeFile c7VFS "/tmp/a" [1, 2, 3]) = some 3 ∧
    writeFile c7VFS2 "/tmp/b" [9] = .error ⟨.ENOSPC, "no space left on device"⟩ ∧
    writeFile c7VFS2 "/tmp/a" [1, 2, 3, 4]
      = .error ⟨.ENOSPC, "no space left on device"⟩ := by
  refine ⟨?_, ?_, ?_⟩
  · have h := (c7_quota c7VFS "/tmp/a" [1, 2, 3] 3
      ⟨.dir .nil 493, ["tmp"]⟩ "a" .nil 493 rfl rfl rfl rfl rfl
      (by intro ch2 p2 hx; simp [InodeMap.find] at hx)).2 (by decide)
    exact h.trans (by decide)
  · exact (c7_quota c7VFS2 "/tmp/b" [9] 3
      ⟨.dir (.cons "a" (.file [1, 2, 3] 420) .nil) 493, ["tmp"]⟩ "b"
      (.cons "a" (.file [1, 2, 3] 420) .nil) 493 rfl rfl rfl rfl rfl
      (by intro ch2 p2 hx; simp [InodeMap.find] at hx)).1 (by decide)
  · exact (c7_quota c7VFS2 "/tmp/a" [1, 2, 3, 4] 3
      ⟨.dir (.cons "a" (.file [1, 2, 3] 420) .nil) 493, ["tmp"]⟩ "a"
      (.cons "a" (.file [1, 2, 3] 420) .nil) 493 rfl rfl rfl rfl rfl
      (by intro ch2 p2 hx; simp [InodeMap.find] at hx)).1 (by decide)

/-! ### Path strings and plain segments

Paths the VFS API can create have segments that are nonempty, contain no
slash and are neither `.` nor `..`; rendering and re-parsing such paths
is the identity, which connects the path strings the serializer stores
to the tree structure. -/

/-- A name the path parser can produce: nonempty, no `'/'`, not a dot
segment. -/
def plainSeg (s : String) : Bool :=
  !(s == "") && !(s == ".") && !(s == "..") && !(decide ('/' ∈ s.data))

def plainList (l : List String) : Bool := l.all plainSeg

/-- Boolean segment-list prefix test. -/
def segsLe : List String → List String → Bool
  | [], _ => true
  | _ :: _, [] => false
  | a :: as, b :: bs => a == b && segsLe as bs

theorem segsLe_refl : ∀ l : List String, segsLe l l = true := by
  intro l
  induction l with
  | nil => rfl
  | cons a as ih => simp [segsLe, ih]

theorem segsLe_append (q r : List String) : segsLe q (q ++ r) = true := by
  induction q with
  | nil => rfl
  | cons a as ih => simp [segsLe, ih]

theorem segsLe_exists {q s : List String} (h : segsLe q s = true) :
    ∃ r, s = q ++ r := by
  induction q generalizing s with
  | nil => exact ⟨s, rfl⟩
  | cons a as ih =>
    cases s with
    | nil => simp [segsLe] at h
    | cons b bs =>
      simp only [segsLe, Bool.and_eq_true, beq_iff_eq] at h
      obtain ⟨rfl, h2⟩ := h
      obtain ⟨r, rfl⟩ := ih h2
      exact ⟨r, rfl⟩

theorem segsLe_nil_iff (q : List String) : segsLe q [] = true ↔ q = [] := by
  cases q <;> simp [segsLe]

theorem plainSeg_ne_empty {s : String} (h : plainSeg s = true) : s ≠ "" := by
  simp only [plainSeg, Bool.and_eq_true, Bool.not_eq_eq_eq_not, Bool.not_true,
    beq_eq_false_iff_ne, ne_eq] at h
  exact h.1.1.1

theorem plainSeg_no_slash {s : String} (h : plainSeg s = true) :
    '/' ∉ s.data := by
  simp only [plainSeg, Bool.and_eq_true, Bool.not_eq_eq_eq_not, Bool.not_true,
    decide_eq_false_iff_not] at h
  exact h.2

theorem plainSeg_not_dot {s : String} (h : plainSeg s = true) :
    s ≠ "" ∧ s ≠ "." ∧ s ≠ ".." := by
  simp only [plainSeg, Bool.and_eq_true, Bool.not_eq_eq_eq_not, Bool.not_true,
    beq_eq_false_iff_ne, ne_eq] at h
  exact ⟨h.1.1.1, h.1.1.2, h.1.2⟩

theorem plainList_cons {s : String} {l : List String} :
    plainList (s :: l) = true ↔ plainSeg s = true ∧ plainList l = true := by
  simp [plainList]

theorem plainList_append {a b : List String} :
    plainList (a ++ b) = true ↔ plainList a = true ∧ plainList b = true := by
  simp [plainList]

/-! #### `splitSlash` / `joinSlash` round trip -/

theorem splitSlash_sep (acc : List Char) (rest : List Char) :
    splitSlash acc ('/' :: rest) = String.mk acc.reverse :: splitSlash [] rest := by
  simp [splitSlash]

theorem splitSlash_no_slash (cs : List Char) (h : '/' ∉ cs) :
    ∀ acc rest, splitSlash acc (cs ++ rest) = splitSlash (cs.reverse ++ acc) rest := by
  induction cs with
  | nil => intro acc rest; simp
  | cons c cs ih =>
    intro acc rest
    have hc : ¬ (c = '/') := by
      intro hh
      exact h (by rw [hh]; exact List.mem_cons_self _ _)
    have hcs : '/' ∉ cs := fun hm => h (List.mem_cons_of_mem c hm)
    have e1 : (c :: cs) ++ rest = c :: (cs ++ rest) := rfl
    rw [e1, splitSlash, if_neg hc, ih hcs]
    simp

theorem splitSlash_plain (s : String) (h : '/' ∉ s.data) (rest : List Char) :
    splitSlash [] (s.data ++ '/' :: rest) = s :: splitSlash [] rest := by
  rw [splitSlash_no_slash s.data h [] ('/' :: rest), splitSlash_sep]
  simp

theorem splitSlash_single (s : String) (h : '/' ∉ s.data) :
    splitSlash [] s.data = [s] := by
  have := splitSlash_no_slash s.data h [] []
  simp only [List.append_nil] at this
  rw [this]
  simp [splitSlash]

theorem joinSlash_cons (s t : String) (rest : List String) :
    joinSlash (s :: t :: rest) = s ++ "/" ++ joinSlash (t :: rest) := rfl

theorem data_append (a b : String) : (a ++ b).data = a.data ++ b.data := rfl

theorem splitSlash_joinSlash (segs : List String) (h : plainList segs = true) :
    segs ≠ [] → splitSlash [] (joinSlash segs).data = segs := by
  induction segs with
  | nil => intro hc; exact absurd rfl hc
  | cons s rest ih =>
    intro _
    obtain ⟨hs, hrest⟩ := plainList_cons.mp h
    cases rest with
    | nil => exact splitSlash_single s (plainSeg_no_slash hs)
    | cons t rest2 =>
      rw [joinSlash_cons]
      have : (s ++ "/" ++ joinSlash (t :: rest2)).data
          = s.data ++ '/' :: (joinSlash (t :: rest2)).data := by
        simp [data_append]
      rw [this, splitSlash_plain s (plainSeg_no_slash hs)]
      rw [ih hrest (by simp)]

theorem joinSlash_append_of_ne : ∀ (a b : List String), a ≠ [] → b ≠ [] →
    joinSlash (a ++ b) = joinSlash a ++ "/" ++ joinSlash b := by
  intro a
  induction a with
  | nil => intro b h _; exact absurd rfl h
  | cons s rest ih =>
    intro b _ hb
    cases rest with
    | nil =>
      cases b with
      | nil => exact absurd rfl hb
      | cons t bs => rfl
    | cons t rest2 =>
      have key : joinSlash ((s :: t :: rest2) ++ b)
          = s ++ "/" ++ joinSlash ((t :: rest2) ++ b) := rfl
      rw [key, ih b (by simp) hb, joinSlash_cons]
      simp [String.append_assoc]

theorem collapseSegs_plain (segs : List String) (h : plainList segs = true) :
    collapseSegs segs = segs := by
  have key : ∀ (l : List String), plainList l = true → ∀ acc,
      l.foldl (fun acc part =>
        if part = "" ∨ part = "." then acc
        else if part = ".." then acc.dropLast
        else acc ++ [part]) acc = acc ++ l := by
    intro l
    induction l with
    | nil => intro _ acc; simp
    | cons s rest ih =>
      intro hl acc
      obtain ⟨hs, hrest⟩ := plainList_cons.mp hl
      obtain ⟨h1, h2, h3⟩ := plainSeg_not_dot hs
      simp only [List.foldl_cons]
      rw [if_neg (not_or.mpr ⟨h1, h2⟩), if_neg h3]
      rw [ih hrest (acc ++ [s])]
      simp
  have := key segs h []
  simpa [collapseSegs] using this

theorem renderPath_data (segs : List String) :
    (renderPath segs).data = '/' :: (joinSlash segs).data := rfl

theorem parsePath_render (segs : List String) (h : plainList segs = true) :
    parsePath (renderPath segs) = .ok segs := by
  have hdata : (renderPath segs).data = '/' :: (joinSlash segs).data := rfl
  simp only [parsePath, hdata]
  cases hs : segs with
  | nil => simp [collapseSegs, splitSlash, joinSlash]
  | cons a rest =>
    rw [← hs]
    rw [splitSlash_sep]
    rw [splitSlash_joinSlash segs h (by rw [hs]; simp)]
    have hmk : (String.mk (([] : List Char).reverse)) = "" := rfl
    rw [hmk]
    have hcol : collapseSegs ("" :: segs) = collapseSegs segs := rfl
    rw [hcol, collapseSegs_plain segs h]

theorem renderPath_inj {a b : List String} (ha : plainList a = true)
    (hb : plainList b = true) (h : renderPath a = renderPath b) : a = b := by
  have := parsePath_render a ha
  rw [h, parsePath_render b hb] at this
  exact (Except.ok.injEq _ _).mp this.symm

theorem renderPath_nil : renderPath [] = "/" := rfl

theorem renderPath_ne_root (s : String) (rest : List String)
    (hs : plainSeg s = true) : renderPath (s :: rest) ≠ "/" := by
  intro h
  have hd := congrArg String.data h
  rw [renderPath_data] at hd
  have hslash : ("/" : String).data = ['/'] := rfl
  rw [hslash] at hd
  have hj : (joinSlash (s :: rest)).data = [] := (List.cons.inj hd).2
  have hs' := plainSeg_ne_empty hs
  cases rest with
  | nil =>
    have hdat : s.data = [] := hj
    exact hs' (String.ext (by simpa using hdat))
  | cons t r2 =>
    rw [joinSlash_cons] at hj
    have hsplit : s.data ++ '/' :: (joinSlash (t :: r2)).data = [] := by
      simpa [data_append] using hj
    simp at hsplit

/-- The serializer's child-path construction agrees with rendering the
extended segment list. -/
theorem childPath_render (segs : List String) (name : String)
    (hplain : plainList segs = true) :
    (if renderPath segs = "/" then "/" ++ name
     else renderPath segs ++ "/" ++ name) = renderPath (segs ++ [name]) := by
  cases segs with
  | nil =>
    rw [if_pos renderPath_nil]
    rfl
  | cons s rest =>
    obtain ⟨hs, hrest⟩ := plainList_cons.mp hplain
    rw [if_neg (renderPath_ne_root s rest hs)]
    have : renderPath ((s :: rest) ++ [name])
        = "/" ++ (joinSlash (s :: rest) ++ "/" ++ joinSlash [name]) := by
      rw [renderPath, joinSlash_append_of_ne (s :: rest) [name] (by simp) (by simp)]
    rw [this]
    simp [renderPath, String.append_assoc, joinSlash]

/-! #### String prefix tests against rendered paths -/

theorem isPrefixOf_exists (l₁ l₂ : List Char) :
    l₁.isPrefixOf l₂ = true ↔ ∃ t, l₂ = l₁ ++ t := by
  induction l₁ generalizing l₂ with
  | nil => simp [List.isPrefixOf]
  | cons a as ih =>
    cases l₂ with
    | nil =>
      simp [List.isPrefixOf]
    | cons b bs =>
      simp only [List.isPrefixOf, Bool.and_eq_true, beq_iff_eq, ih,
        List.cons_append, List.cons.injEq]
      constructor
      · rintro ⟨rfl, t, rfl⟩
        exact ⟨t, rfl, rfl⟩
      · rintro ⟨t, rfl, rfl⟩
        exact ⟨rfl, t, rfl⟩

theorem splitSlash_joinSlash_append (pres : List String)
    (h : plainList pres = true) (hne : pres ≠ []) (t : List Char) :
    splitSlash [] ((joinSlash pres).data ++ '/' :: t)
      = pres ++ splitSlash [] t := by
  induction pres with
  | nil => exact absurd rfl hne
  | cons p rest ih =>
    obtain ⟨hp, hrest⟩ := plainList_cons.mp h
    cases rest with
    | nil =>
      exact splitSlash_plain p (plainSeg_no_slash hp) t
    | cons q rest2 =>
      rw [joinSlash_cons]
      have hdata : (p ++ "/" ++ joinSlash (q :: rest2)).data ++ '/' :: t
          = p.data ++ '/' :: ((joinSlash (q :: rest2)).data ++ '/' :: t) := by
        simp [data_append]
      rw [hdata, splitSlash_plain p (plainSeg_no_slash hp)]
      rw [ih hrest (by simp)]
      rfl

/-- A plain rendered path equals, or string-prefix-extends, another
plain rendered path exactly when the segment lists are in the
`segsLe` prefix relation. -/
theorem prefix_match_render (pres segs : List String)
    (hpres : plainList pres = true) (hpne : pres ≠ [])
    (hsegs : plainList segs = true) :
    (renderPath segs = renderPath pres
      || strStartsWith (renderPath segs) (renderPath pres ++ "/"))
      = segsLe pres segs := by
  cases hle : segsLe pres segs with
  | true =>
    obtain ⟨r, rfl⟩ := segsLe_exists hle
    cases r with
    | nil =>
      simp
    | cons x rs =>
      have hr : renderPath (pres ++ x :: rs)
          = renderPath pres ++ "/" ++ joinSlash (x :: rs) := by
        simp only [renderPath,
          joinSlash_append_of_ne pres (x :: rs) hpne (by simp)]
        simp [String.append_assoc]
      rw [hr]
      have hsw : strStartsWith (renderPath pres ++ "/" ++ joinSlash (x :: rs))
          (renderPath pres ++ "/") = true := by
        simp only [strStartsWith, data_append, isPrefixOf_exists]
        exact ⟨(joinSlash (x :: rs)).data, by simp⟩
      simp [hsw]
  | false =>
    have h1 : renderPath segs ≠ renderPath pres := by
      intro h
      have heq := renderPath_inj hsegs hpres h
      subst heq
      rw [segsLe_refl] at hle
      simp at hle
    have h2 : strStartsWith (renderPath segs) (renderPath pres ++ "/") = false := by
      apply Bool.eq_false_iff.mpr
      intro hsw
      simp only [strStartsWith, isPrefixOf_exists] at hsw
      obtain ⟨t, ht⟩ := hsw
      have hd : (renderPath segs).data
          = '/' :: ((joinSlash pres).data ++ '/' :: t) := by
        rw [ht, data_append, renderPath_data]
        have hsl : ("/" : String).data = ['/'] := rfl
        rw [hsl]
        simp
      rw [renderPath_data] at hd
      have hj := (List.cons.inj hd).2
      have hsplit := congrArg (splitSlash []) hj
      rw [splitSlash_joinSlash_append pres hpres hpne t] at hsplit
      cases hsegs' : segs with
      | nil =>
        rw [hsegs'] at hsplit
        have hempty : splitSlash [] (joinSlash ([] : List String)).data = [""] := rfl
        rw [hempty] at hsplit
        cases pres with
        | nil => exact hpne rfl
        | cons p ps =>
          have hp := plainSeg_ne_empty (plainList_cons.mp hpres).1
          exact hp (List.cons.inj hsplit).1.symm
      | cons a rest =>
        rw [splitSlash_joinSlash segs hsegs (by rw [hsegs']; simp)] at hsplit
        rw [hsplit, segsLe_append] at hle
        simp at hle
    simp [h1, h2]

/-! ### Clean trees and structural lookup

Trees built through the VFS API have plain, duplicate-free names; a
symlink-free such tree is "clean", and on clean trees path resolution is
the plain structural walk below. -/

mutual

/-- Symlink-free, with plain and duplicate-free names throughout. -/
def Inode.clean : Inode → Bool
  | .file _ _ => true
  | .dir ch _ => InodeMap.cleanM ch
  | .symlink _ _ => false

def InodeMap.cleanM : InodeMap → Bool
  | .nil => true
  | .cons n v rest =>
    plainSeg n && !(rest.has n) && Inode.clean v && InodeMap.cleanM rest

end

mutual

/-- A tree consisting solely of directories. -/
def Inode.dirsOnly : Inode → Bool
  | .dir ch _ => InodeMap.dirsOnlyM ch
  | _ => false

def InodeMap.dirsOnlyM : InodeMap → Bool
  | .nil => true
  | .cons _ v rest => Inode.dirsOnly v && InodeMap.dirsOnlyM rest

end

/-- Structural walk: follow `find` through directories. -/
def lookupSegs : Inode → List String → Option Inode
  | node, [] => some node
  | node, seg :: rest =>
    match node with
    | .dir ch _ =>
      match ch.find seg with
      | some child => lookupSegs child rest
      | none => none
    | _ => none

theorem find_set_self (m : InodeMap) (k : String) (v : Inode) :
    (m.set k v).find k = some v := by
  match m with
  | .nil => simp [InodeMap.set, InodeMap.find]
  | .cons n w rest =>
    by_cases h : n = k
    · subst h
      simp [InodeMap.set, InodeMap.find]
    · simp [InodeMap.set, InodeMap.find, h, find_set_self rest k v]

theorem find_set_ne (m : InodeMap) (k : String) (v : Inode) (n : String)
    (h : n ≠ k) : (m.set k v).find n = m.find n := by
  match m with
  | .nil =>
    have hkn : ¬ (k = n) := fun hh => h hh.symm
    simp [InodeMap.set, InodeMap.find, hkn]
  | .cons n2 w rest =>
    by_cases h2 : n2 = k
    · subst h2
      have hnn : ¬ (n2 = n) := fun hh => h hh.symm
      simp [InodeMap.set, InodeMap.find, hnn]
    · simp only [InodeMap.set, if_neg h2, InodeMap.find]
      by_cases h3 : n2 = n
      · simp [h3]
      · simp [h3, find_set_ne rest k v n h]

theorem has_set_ne (m : InodeMap) (k : String) (v : Inode) (n : String)
    (h : n ≠ k) : (m.set k v).has n = m.has n := by
  simp [InodeMap.has, find_set_ne m k v n h]

theorem cleanM_find {m : InodeMap} {k : String} {v : Inode}
    (hm : m.cleanM = true) (h : m.find k = some v) :
    plainSeg k = true ∧ v.clean = true := by
  match m with
  | .nil => simp [InodeMap.find] at h
  | .cons n w rest =>
    simp only [InodeMap.cleanM, Bool.and_eq_true] at hm
    obtain ⟨⟨⟨hn, -⟩, hw⟩, hrest⟩ := hm
    simp only [InodeMap.find] at h
    by_cases h2 : n = k
    · rw [if_pos h2] at h
      cases h
      exact ⟨h2 ▸ hn, hw⟩
    · rw [if_neg h2] at h
      exact cleanM_find hrest h

theorem dirsOnlyM_find {m : InodeMap} {k : String} {v : Inode}
    (hm : m.dirsOnlyM = true) (h : m.find k = some v) :
    v.dirsOnly = true := by
  match m with
  | .nil => simp [InodeMap.find] at h
  | .cons n w rest =>
    simp only [InodeMap.dirsOnlyM, Bool.and_eq_true] at hm
    simp only [InodeMap.find] at h
    by_cases h2 : n = k
    · rw [if_pos h2] at h
      cases h
      exact hm.1
    · rw [if_neg h2] at h
      exact dirsOnlyM_find hm.2 h

theorem cleanM_set {m : InodeMap} {k : String} {v : Inode}
    (hm : m.cleanM = true) (hv : v.clean = true) (hk : plainSeg k = true) :
    (m.set k v).cleanM = true := by
  match m with
  | .nil => simp [InodeMap.set, InodeMap.cleanM, InodeMap.has, InodeMap.find, hk, hv]
  | .cons n w rest =>
    simp only [InodeMap.cleanM, Bool.and_eq_true] at hm
    obtain ⟨⟨⟨hn, hnh⟩, hw⟩, hrest⟩ := hm
    by_cases h2 : n = k
    · subst h2
      simp only [InodeMap.set, if_pos rfl, InodeMap.cleanM]
      simp [hn, hnh, hv, hrest]
    · simp only [InodeMap.set, if_neg h2, InodeMap.cleanM]
      rw [has_set_ne rest k v n (fun hh => h2 hh)]
      simp only [Bool.and_eq_true]
      exact ⟨⟨⟨hn, hnh⟩, hw⟩, cleanM_set hrest hv hk⟩

theorem dirsOnlyM_set {m : InodeMap} {k : String} {v : Inode}
    (hm : m.dirsOnlyM = true) (hv : v.dirsOnly = true) :
    (m.set k v).dirsOnlyM = true := by
  match m with
  | .nil => simp [InodeMap.set, InodeMap.dirsOnlyM, hv]
  | .cons n w rest =>
    simp only [InodeMap.dirsOnlyM, Bool.and_eq_true] at hm
    by_cases h2 : n = k
    · subst h2
      simp [InodeMap.set, InodeMap.dirsOnlyM, hv, hm.2]
    · simp [InodeMap.set, if_neg h2, InodeMap.dirsOnlyM, hm.1,
        dirsOnlyM_set hm.2 hv]

theorem dirsOnly_shape {R : Inode} (h : R.dirsOnly = true) :
    ∃ ch p, R = .dir ch p ∧ ch.dirsOnlyM = true := by
  cases R with
  | dir ch p => exact ⟨ch, p, rfl, h⟩
  | file c p => simp [Inode.dirsOnly] at h
  | symlink t p => simp [Inode.dirsOnly] at h

theorem lookupSegs_append (R : Inode) (a b : List String) :
    lookupSegs R (a ++ b) = match lookupSegs R a with
      | some n => lookupSegs n b
      | none => none := by
  induction a generalizing R with
  | nil => simp [lookupSegs]
  | cons s as ih =>
    cases R with
    | dir ch p =>
      show lookupSegs (.dir ch p) (s :: (as ++ b)) = _
      simp only [lookupSegs]
      cases hf : ch.find s with
      | some child => exact ih child
      | none => rfl
    | file c p => rfl
    | symlink t p => rfl

theorem lookupSegs_clean {R : Inode} (hR : R.clean = true) :
    ∀ {segs : List String} {n : Inode}, lookupSegs R segs = some n →
      n.clean = true ∧ plainList segs = true := by
  intro segs
  induction segs generalizing R with
  | nil =>
    intro n h
    simp only [lookupSegs, Option.some.injEq] at h
    subst h
    exact ⟨hR, rfl⟩
  | cons s rest ih =>
    intro n h
    cases R with
    | dir ch p =>
      simp only [lookupSegs] at h
      cases hf : ch.find s with
      | some child =>
        rw [hf] at h
        obtain ⟨hplain, hchild⟩ := cleanM_find hR hf
        obtain ⟨h1, h2⟩ := ih hchild h
        exact ⟨h1, plainList_cons.mpr ⟨hplain, h2⟩⟩
      | none => rw [hf] at h; cases h
    | file c p => simp [lookupSegs] at h
    | symlink t p => simp [Inode.clean] at hR

/-- On a clean subtree the segment loop of resolution is the structural
walk (the symlink branch is never taken). -/
theorem walkSegsF_clean_ok
    (recur : String → Nat → Nat → Option (Except VfsError RNode × Nat))
    (path : String) :
    ∀ (segs : List String) (cur : RNode) (depth cnt : Nat) (n : Inode),
      cur.node.clean = true →
      lookupSegs cur.node segs = some n →
      walkSegsF recur path segs cur depth cnt
        = some (.ok (⟨n, cur.loc ++ segs⟩, depth), cnt) := by
  intro segs
  induction segs with
  | nil =>
    intro cur depth cnt n _ hl
    simp only [lookupSegs, Option.some.injEq] at hl
    subst hl
    obtain ⟨cn, cl⟩ := cur
    simp [walkSegsF]
  | cons seg rest ih =>
    intro cur depth cnt n hc hl
    cases hnode : cur.node with
    | dir ch p =>
      rw [hnode] at hl
      simp only [lookupSegs] at hl
      cases hf : ch.find seg with
      | some child =>
        rw [hf] at hl
        rw [hnode] at hc
        obtain ⟨-, hchild⟩ := cleanM_find hc hf
        simp only [walkSegsF, hnode, hf]
        have hrec := ih ⟨child, cur.loc ++ [seg]⟩ depth cnt n hchild hl
        rw [hrec]
        simp
      | none => rw [hf] at hl; cases hl
    | file c p => rw [hnode] at hl; simp [lookupSegs] at hl
    | symlink t p => rw [hnode] at hc; simp [Inode.clean] at hc

/-- One unfolding of `resolveGo` at positive fuel. -/
theorem resolveGo_succ (root : Inode) (fuel : Nat) (path : String)
    (follow : Bool) (depth cnt : Nat) :
    resolveGo root (fuel + 1) path follow depth cnt
      = match parsePath path with
        | .error e => some (.error e, cnt)
        | .ok [] => some (.ok ⟨root, []⟩, cnt)
        | .ok (seg :: rest) =>
          match walkSegsF (fun t d c => resolveGo root fuel t true d c) path
              (seg :: rest) ⟨root, []⟩ depth cnt with
          | none => none
          | some (.error e, cnt') => some (.error e, cnt')
          | some (.ok (cur, depth'), cnt') =>
            match follow, cur.node with
            | true, .symlink target _ =>
              if MAX_SYMLINK_DEPTH ≤ depth' then
                some (.error (tooManyErr path), cnt')
              else resolveGo root fuel target true (depth' + 1) (cnt' + 1)
            | _, _ => some (.ok cur, cnt') := rfl

/-- On a clean tree `resolve` is the structural walk of the parsed
segments. -/
theorem resolveE_clean_ok (s : VFSState) (path : String) (follow : Bool)
    (segs : List String) (n : Inode) (hclean : s.root.clean = true)
    (hp : parsePath path = .ok segs) (hl : lookupSegs s.root segs = some n) :
    resolveE s path follow = .ok ⟨n, segs⟩ := by
  have hn : n.clean = true := (lookupSegs_clean hclean hl).1
  simp only [resolveE]
  rw [show (FUEL : Nat) = MAX_SYMLINK_DEPTH + 1 from rfl, resolveGo_succ, hp]
  cases hsegs : segs with
  | nil =>
    rw [hsegs] at hl
    simp only [lookupSegs, Option.some.injEq] at hl
    subst hl
    rfl
  | cons seg rest =>
    rw [hsegs] at hl
    have hw := walkSegsF_clean_ok
      (fun t d c => resolveGo s.root MAX_SYMLINK_DEPTH t true d c) path
      (seg :: rest) ⟨s.root, []⟩ 0 0 n hclean hl
    dsimp only
    rw [hw]
    cases hnn : n with
    | dir ch p => cases follow <;> rfl
    | file c p => cases follow <;> rfl
    | symlink t p => rw [hnn] at hn; simp [Inode.clean] at hn

/-- On a clean tree `resolveParent` walks to the structural parent. -/
theorem resolveParent_clean_ok (s : VFSState) (path : String)
    (seg : String) (rest : List String) (ch : InodeMap) (p : Nat)
    (hclean : s.root.clean = true)
    (hp : parsePath path = .ok (seg :: rest))
    (hl : lookupSegs s.root ((seg :: rest).dropLast) = some (.dir ch p)) :
    resolveParent s path
      = .ok (⟨.dir ch p, (seg :: rest).dropLast⟩, (seg :: rest).getLastD "") := by
  simp only [resolveParent, hp]
  have hw := walkSegsF_clean_ok
    (fun t d c => resolveGo s.root FUEL t true d c) path
    ((seg :: rest).dropLast) ⟨s.root, []⟩ 0 0 (.dir ch p) hclean hl
  rw [hw]
  rfl

end Vfs

/-! ## The state serializer (`serializer.ts`)

Binary format v2: 4 magic bytes `"WSND"`, a 4-byte little-endian
version, a 4-byte little-endian CRC32 of the JSON payload, then the
UTF-8 JSON.  v1 (legacy) has no checksum.  Base64 coding of file bytes
is a bijection between byte arrays and their encodings, so entries carry
the raw bytes (`List Nat`) directly; the JSON encode/decode pair for the
payload is a platform builtin (`JSON.stringify` / `JSON.parse`) and is
abstracted by an explicit `decodePayload` parameter. -/

namespace Serializer

open Vfs

/-- Magic bytes `"WSND"`. -/
def MAGIC : List Nat := [0x57, 0x53, 0x4E, 0x44]

def FORMAT_VERSION : Nat := 2

def HEADER_SIZE_V1 : Nat := 8

def HEADER_SIZE_V2 : Nat := 12

def EXCLUDED_PREFIXES : List String := ["/dev", "/proc"]

def SAFE_IMPORT_PREFIXES : List String :=
  ["/home", "/tmp", "/usr/lib/python", "/usr/share/pkg"]

/-- `isSafeImportPath`: normalize (split on `'/'`, drop `''`/`.`, pop on
`..` — the same inline loop as `parsePath`, embedded by the same
`splitSlash`/`collapseSegs`) and check the result falls under a safe
prefix. -/
def isSafeImportPath (rawPath : String) : Bool :=
  let segments := collapseSegs (splitSlash [] rawPath.data)
  let normalized := renderPath segments
  SAFE_IMPORT_PREFIXES.any
    (fun p => normalized = p || strStartsWith normalized (p ++ "/"))

/-- One entry of `CRC32_TABLE` (IEEE polynomial): 8 rounds of
`c = (c & 1) ? 0xEDB88320 ^ (c >>> 1) : (c >>> 1)`; all values stay
below `2^32`, so plain `Nat` xor and halving are the uint32 ops. -/
def crc32TableEntry (i : Nat) : Nat :=
  let step := fun c => if c % 2 = 1 then 0xEDB88320 ^^^ (c / 2) else c / 2
  step (step (step (step (step (step (step (step i)))))))

/-- One step of `crc32`:
`CRC32_TABLE[(crc ^ data[i]) & 0xFF] ^ (crc >>> 8)` with `crc` tracked
as its uint32 value. -/
def crc32Update (crc b : Nat) : Nat :=
  crc32TableEntry ((crc ^^^ b) % 256) ^^^ crc / 256

/-- `crc32`: fold from `0xFFFFFFFF`, final xor with `0xFFFFFFFF`. -/
def crc32 (data : List Nat) : Nat :=
  (data.foldl crc32Update 0xFFFFFFFF) ^^^ 0xFFFFFFFF

/-- `DataView.getUint32(off, true)`: little-endian 32-bit read (the
source only reads offsets covered by its preceding length checks). -/
def getUint32LE (blob : List Nat) (off : Nat) : Nat :=
  blob.getD off 0 + blob.getD (off + 1) 0 * 256
    + blob.getD (off + 2) 0 * 65536 + blob.getD (off + 3) 0 * 16777216

inductive EntryType where
  | file
  | dir
deriving DecidableEq, Repr

/-- One element of `SerializedState.files` (`data` holds the decoded
bytes; for directories the source stores the empty string). -/
structure SEntry where
  path : String
  data : List Nat
  type : EntryType
  permissions : Option Nat
deriving DecidableEq, Repr

/-- An import failure: a format error thrown by `importState` itself, or
a `VfsError` propagating out of the restore loops. -/
inductive ImportError where
  | format (msg : String)
  | vfs (e : Vfs.VfsError)
deriving DecidableEq, Repr

/-- The version dispatch of `importState`: v2 checks the header length
and the CRC32 of the payload against the stored little-endian checksum;
v1 takes the payload as-is; anything else is rejected. -/
def importPayload (blob : List Nat) : Except ImportError (List Nat) :=
  if getUint32LE blob 4 = 2 then
    if blob.length < HEADER_SIZE_V2 then
      .error (.format "Invalid state blob: too short for v2")
    else if getUint32LE blob 8 ≠ crc32 (blob.drop HEADER_SIZE_V2) then
      .error (.format "State blob checksum mismatch: data may be corrupted")
    else .ok (blob.drop HEADER_SIZE_V2)
  else if getUint32LE blob 4 = 1 then .ok (blob.drop HEADER_SIZE_V1)
  else .error (.format ("Unsupported state version: "
    ++ toString (getUint32LE blob 4)))

/-- The three restore loops run under `withWriteAccess`: `mkdirp` every
dir entry, `writeFile` every file entry, then `chmod` every entry
carrying permissions (errors propagate, as the source does not catch
them). -/
def importPhases (files : List SEntry) (s : VFSState) :
    Except VfsError VFSState := do
  let s1 ← files.foldlM
    (fun st e => if e.type = .dir then mkdirp st e.path else pure st) s
  let s2 ← files.foldlM
    (fun st e => if e.type = .file then writeFile st e.path e.data else pure st) s1
  files.foldlM
    (fun st e => match e.permissions with
      | some p => chmod st e.path p
      | none => pure st) s2

/-- `importState`: header validation (length, magic, version dispatch
with v2 CRC check), then JSON decoding (abstracted by `decodePayload`),
the safe-path filter, and the restore loops; returns the restored state
and the optional env list. -/
def importState
    (decodePayload : List Nat → Option (List SEntry × Option (List (String × String))))
    (s : VFSState) (blob : List Nat) :
    Except ImportError (VFSState × Option (List (String × String))) :=
  if blob.length < HEADER_SIZE_V1 then
    .error (.format "Invalid state blob: too short")
  else if blob.take 4 ≠ MAGIC then
    .error (.format "Invalid state blob: bad magic bytes")
  else
    match importPayload blob with
    | .error e => .error e
    | .ok jsonBytes =>
      match decodePayload jsonBytes with
      | none => .error (.format "JSON parse error")
      | some (files, env) =>
        match withWriteAccess s
            (importPhases (files.filter (fun e => isSafeImportPath e.path))) with
        | .error e => .error (.vfs e)
        | .ok s2 => .ok (s2, env)

/-- `walkTree`: DFS of the tree, collecting a dir entry before its
children and files as leaves, skipping symlinks and subtrees under the
excluded prefixes.  The source's `readdir`/`stat`/`readFile` calls on
`childPath` are the structural accesses of the walked child: the walk
starts at the root and only descends into directory children, so every
walked path resolves to exactly the structural node it was formed from
(`resolveE_clean_ok`). -/
def walkMap : InodeMap → String → List String → List SEntry
  | .nil, _, _ => []
  | .cons name node rest, dirPath, excl =>
    (let childPath := if dirPath = "/" then "/" ++ name
      else dirPath ++ "/" ++ name
     if excl.any (fun pre => childPath = pre
        || strStartsWith childPath (pre ++ "/")) then []
     else
       match node with
       | .dir ch2 p2 =>
         ⟨childPath, [], .dir, some p2⟩ :: walkMap ch2 childPath excl
       | .file c p => [⟨childPath, c, .file, some p⟩]
       | .symlink _ _ => [])
    ++ walkMap rest dirPath excl

def walkTree : Inode → String → List String → List SEntry
  | .dir ch _, dirPath, excl => walkMap ch dirPath excl
  | _, _, _ => []

/-- The `files` array `exportState` serializes (with the default
excluded prefixes). -/
def exportEntries (s : VFSState) : List SEntry :=
  walkTree s.root "/" EXCLUDED_PREFIXES

/-- `DataView.setUint32(_, n, true)`: the four little-endian bytes. -/
def le32 (n : Nat) : List Nat :=
  [n % 256, n / 256 % 256, n / 65536 % 256, n / 16777216 % 256]

/-- `state.env` is present exactly when a nonempty env map was passed. -/
def envField (env : List (String × String)) : Option (List (String × String)) :=
  if env = [] then none else some env

/-- `exportState`: magic, version 2, CRC32 of the payload (little
endian), then the payload; the JSON encoding of
`{version, files, env?}` is abstracted by `enc`. -/
def exportBlob (enc : List SEntry × Option (List (String × String)) → List Nat)
    (s : VFSState) (env : List (String × String)) : List Nat :=
  MAGIC ++ le32 FORMAT_VERSION
    ++ le32 (crc32 (enc (exportEntries s, envField env)))
    ++ enc (exportEntries s, envField env)

/-- What a walked entry records about the node at `segs`: its type, its
bytes (files) and its permissions. -/
def entryView (R : Inode) (segs : List String) :
    Option (EntryType × List Nat × Nat) :=
  match lookupSegs R segs with
  | some (.dir _ p) => some (.dir, [], p)
  | some (.file c p) => some (.file, c, p)
  | _ => none

/-! #### The exclusion and safety checks on rendered plain paths
decide by the leading segments. -/

theorem segsLe_single (x : String) : ∀ l : List String,
    segsLe [x] l = match l with | [] => false | y :: _ => x == y := by
  intro l
  cases l with
  | nil => rfl
  | cons y ys => simp [segsLe]

theorem collapse_split_render (segs : List String)
    (h : plainList segs = true) :
    collapseSegs (splitSlash [] (renderPath segs).data) = segs := by
  rw [renderPath_data, splitSlash_sep]
  have hmk : (String.mk (([] : List Char).reverse)) = "" := rfl
  rw [hmk]
  cases hs : segs with
  | nil =>
    rfl
  | cons a rest =>
    rw [← hs, splitSlash_joinSlash segs h (by rw [hs]; simp)]
    have hcol : collapseSegs ("" :: segs) = collapseSegs segs := rfl
    rw [hcol, collapseSegs_plain segs h]

theorem excl_check (segs : List String) (h : plainList segs = true) :
    (EXCLUDED_PREFIXES.any (fun pre => renderPath segs = pre
      || strStartsWith (renderPath segs) (pre ++ "/")))
      = (segsLe ["dev"] segs || segsLe ["proc"] segs) := by
  have h1 := prefix_match_render ["dev"] segs (by decide) (by simp) h
  have h2 := prefix_match_render ["proc"] segs (by decide) (by simp) h
  have e1 : renderPath ["dev"] = "/dev" := rfl
  have e2 : renderPath ["proc"] = "/proc" := rfl
  rw [e1] at h1
  rw [e2] at h2
  simp only [EXCLUDED_PREFIXES, List.any_cons, List.any_nil, Bool.or_false]
  rw [h1, h2]

theorem safe_check (segs : List String) (h : plainList segs = true) :
    isSafeImportPath (renderPath segs) =
      (segsLe ["home"] segs || segsLe ["tmp"] segs
        || segsLe ["usr", "lib", "python"] segs
        || segsLe ["usr", "share", "pkg"] segs) := by
  have h1 := prefix_match_render ["home"] segs (by decide) (by simp) h
  have h2 := prefix_match_render ["tmp"] segs (by decide) (by simp) h
  have h3 := prefix_match_render ["usr", "lib", "python"] segs (by decide) (by simp) h
  have h4 := prefix_match_render ["usr", "share", "pkg"] segs (by decide) (by simp) h
  have e1 : renderPath ["home"] = "/home" := rfl
  have e2 : renderPath ["tmp"] = "/tmp" := rfl
  have e3 : renderPath ["usr", "lib", "python"] = "/usr/lib/python" := rfl
  have e4 : renderPath ["usr", "share", "pkg"] = "/usr/share/pkg" := rfl
  rw [e1] at h1
  rw [e2] at h2
  rw [e3] at h3
  rw [e4] at h4
  unfold isSafeImportPath
  rw [collapse_split_render segs h]
  simp only [SAFE_IMPORT_PREFIXES, List.any_cons, List.any_nil, Bool.or_false]
  rw [h1, h2, h3, h4]
  simp [Bool.or_assoc]

theorem viewM_cons (m : InodeMap) (name : String) (q : List String) :
    entryView (.dir m 0) (name :: q) = match m.find name with
      | some child => entryView child q
      | none => none := by
  simp only [entryView, lookupSegs]
  cases m.find name with
  | some child => cases child <;> rfl
  | none => rfl

theorem entryView_perms_irrel (ch : InodeMap) (p p' : Nat) (q : List String)
    (h : q ≠ []) : entryView (.dir ch p) q = entryView (.dir ch p') q := by
  cases q with
  | nil => exact absurd rfl h
  | cons a q' => rfl

theorem exclHead_stable (segs0 : List String) (name : String) (q' : List String) :
    (segsLe ["dev"] (segs0 ++ [name]) || segsLe ["proc"] (segs0 ++ [name]))
      = (segsLe ["dev"] (segs0 ++ name :: q')
        || segsLe ["proc"] (segs0 ++ name :: q')) := by
  cases segs0 with
  | nil => simp [segsLe]
  | cons a s0 => simp [segsLe]

theorem append_cons_eq (a : List String) (b : String) (c : List String) :
    a ++ b :: c = (a ++ [b]) ++ c := by simp

theorem SEntry_ext {a b : SEntry} (h1 : a.path = b.path) (h2 : a.data = b.data)
    (h3 : a.type = b.type) (h4 : a.permissions = b.permissions) : a = b := by
  cases a
  cases b
  simp_all

/-- A name absent from a clean map cannot head a successful view. -/
theorem find_absent {rest : InodeMap} {name : String}
    (hhas : rest.has name = false) {a : String} {q' : List String}
    {v : EntryType × List Nat × Nat}
    (hview : entryView (.dir rest 0) (a :: q') = some v) :
    ¬ (name = a) := by
  intro hh
  subst hh
  rw [viewM_cons] at hview
  cases hfr : rest.find name with
  | none => rw [hfr] at hview; simp at hview
  | some c =>
    have hh2 : rest.has name = true := by simp [InodeMap.has, hfr]
    rw [hh2] at hhas
    cases hhas

/-- One step of `walkMap` with the child path rendered and the exclusion
check reduced to the head segments. -/
theorem walkMap_cons_eq (name : String) (node : Inode) (rest : InodeMap)
    (segs0 : List String) (h0 : plainList segs0 = true)
    (hname : plainSeg name = true) :
    walkMap (.cons name node rest) (renderPath segs0) EXCLUDED_PREFIXES
      = (if (segsLe ["dev"] (segs0 ++ [name])
            || segsLe ["proc"] (segs0 ++ [name])) then ([] : List SEntry)
         else match node with
           | .dir ch2 p2 =>
             ⟨renderPath (segs0 ++ [name]), [], .dir, some p2⟩
               :: walkMap ch2 (renderPath (segs0 ++ [name])) EXCLUDED_PREFIXES
           | .file c p => [⟨renderPath (segs0 ++ [name]), c, .file, some p⟩]
           | .symlink _ _ => [])
        ++ walkMap rest (renderPath segs0) EXCLUDED_PREFIXES := by
  have hchild := childPath_render segs0 name h0
  have hplain1 : plainList (segs0 ++ [name]) = true :=
    plainList_append.mpr ⟨h0, by simp [plainList, hname]⟩
  have hcond := excl_check (segs0 ++ [name]) hplain1
  simp only [walkMap]
  rw [hchild, hcond]

/-- Membership in the DFS walk of a clean map under `segs0`: exactly the
nonempty, non-excluded relative paths `q` whose structural view matches
the entry. -/
theorem walkMap_mem (M : InodeMap) (segs0 : List String) (e : SEntry)
    (hM : M.cleanM = true) (h0 : plainList segs0 = true) :
    e ∈ walkMap M (renderPath segs0) EXCLUDED_PREFIXES ↔
      ∃ q p, q ≠ [] ∧ plainList q = true ∧
        (segsLe ["dev"] (segs0 ++ q) || segsLe ["proc"] (segs0 ++ q)) = false ∧
        e.path = renderPath (segs0 ++ q) ∧
        entryView (.dir M 0) q = some (e.type, e.data, p) ∧
        e.permissions = some p := by
  match M with
  | .nil =>
    constructor
    · intro h
      simp [walkMap] at h
    · rintro ⟨q, p, hq, -, -, -, hview, -⟩
      cases q with
      | nil => exact absurd rfl hq
      | cons a q' =>
        rw [viewM_cons] at hview
        simp [InodeMap.find] at hview
  | .cons name node rest =>
    have hMc := hM
    simp only [InodeMap.cleanM, Bool.and_eq_true, Bool.not_eq_eq_eq_not,
      Bool.not_true] at hMc
    obtain ⟨⟨⟨hname, hhas⟩, hnode⟩, hrest⟩ := hMc
    rw [walkMap_cons_eq name node rest segs0 h0 hname, List.mem_append]
    have hrestiff := walkMap_mem rest segs0 e hrest h0
    by_cases hex : (segsLe ["dev"] (segs0 ++ [name])
        || segsLe ["proc"] (segs0 ++ [name])) = true
    · rw [if_pos hex]
      simp only [List.not_mem_nil, false_or]
      rw [hrestiff]
      constructor
      · rintro ⟨q, p, hq, hqp, hexcl, hpath, hview, hperm⟩
        refine ⟨q, p, hq, hqp, hexcl, hpath, ?_, hperm⟩
        cases q with
        | nil => exact absurd rfl hq
        | cons a q' =>
          have hane := find_absent hhas hview
          rw [viewM_cons] at hview ⊢
          simp only [InodeMap.find, if_neg hane]
          exact hview
      · rintro ⟨q, p, hq, hqp, hexcl, hpath, hview, hperm⟩
        refine ⟨q, p, hq, hqp, hexcl, hpath, ?_, hperm⟩
        cases q with
        | nil => exact absurd rfl hq
        | cons a q' =>
          by_cases haname : a = name
          · rw [haname] at hexcl
            rw [← exclHead_stable segs0 name q', hex] at hexcl
            cases hexcl
          · rw [viewM_cons] at hview ⊢
            simp only [InodeMap.find,
              if_neg (fun hh : name = a => haname hh.symm)] at hview
            exact hview
    · rw [if_neg hex]
      have hexf : (segsLe ["dev"] (segs0 ++ [name])
          || segsLe ["proc"] (segs0 ++ [name])) = false := by
        cases hb : (segsLe ["dev"] (segs0 ++ [name])
            || segsLe ["proc"] (segs0 ++ [name]))
        · rfl
        · exact absurd hb hex
      cases hnd : node with
      | symlink t p =>
        rw [hnd] at hnode
        simp [Inode.clean] at hnode
      | file c p =>
        have hfind : (InodeMap.cons name (Inode.file c p) rest).find name
            = some (Inode.file c p) := by simp [InodeMap.find]
        simp only [List.mem_append, List.mem_cons, List.not_mem_nil, or_false,
          List.mem_singleton]
        rw [hrestiff]
        constructor
        · rintro (hfe | hre)
          · refine ⟨[name], p, by simp, by simp [plainList, hname], hexf, ?_, ?_, ?_⟩
            · rw [hfe]
            · rw [hfe, viewM_cons, hfind]
              rfl
            · rw [hfe]
          · obtain ⟨q, pp, hq, hqp, hexcl, hpath, hview, hperm⟩ := hre
            refine ⟨q, pp, hq, hqp, hexcl, hpath, ?_, hperm⟩
            cases q with
            | nil => exact absurd rfl hq
            | cons a q' =>
              have hane := find_absent hhas hview
              rw [viewM_cons] at hview ⊢
              simp only [InodeMap.find, if_neg hane]
              exact hview
        · rintro ⟨q, pp, hq, hqp, hexcl, hpath, hview, hperm⟩
          cases q with
          | nil => exact absurd rfl hq
          | cons a q' =>
            by_cases haname : a = name
            · subst haname
              rw [viewM_cons, hfind] at hview
              cases q' with
              | nil =>
                left
                have hv : some (EntryType.file, c, p)
                    = some (e.type, e.data, pp) := by
                  rw [← hview]
                  rfl
                have hv2 := Option.some.inj hv
                apply SEntry_ext
                · exact hpath
                · exact (congrArg (fun x => x.2.1) hv2).symm
                · exact (congrArg (fun x => x.1) hv2).symm
                · rw [hperm]
                  exact congrArg some (congrArg (fun x => x.2.2) hv2).symm
              | cons b q'' =>
                simp [entryView, lookupSegs] at hview
            · right
              refine ⟨a :: q', pp, by simp, hqp, hexcl, hpath, ?_, hperm⟩
              rw [viewM_cons] at hview ⊢
              simp only [InodeMap.find,
                if_neg (fun hh : name = a => haname hh.symm)] at hview
              exact hview
      | dir ch2 p2 =>
        rw [hnd] at hnode
        have hch2 : ch2.cleanM = true := hnode
        have hplain1 : plainList (segs0 ++ [name]) = true :=
          plainList_append.mpr ⟨h0, by simp [plainList, hname]⟩
        have hfind : (InodeMap.cons name (Inode.dir ch2 p2) rest).find name
            = some (Inode.dir ch2 p2) := by simp [InodeMap.find]
        have hsubiff := walkMap_mem ch2 (segs0 ++ [name]) e hch2 hplain1
        simp only [List.mem_append, List.mem_cons]
        rw [hrestiff, hsubiff]
        constructor
        · rintro ((hde | hsub) | hre)
          · refine ⟨[name], p2, by simp, by simp [plainList, hname], hexf, ?_, ?_, ?_⟩
            · rw [hde]
            · rw [hde, viewM_cons, hfind]
              rfl
            · rw [hde]
          · obtain ⟨q', pp, hq', hq'p, hexcl, hpath, hview, hperm⟩ := hsub
            refine ⟨name :: q', pp, by simp, ?_, ?_, ?_, ?_, hperm⟩
            · exact plainList_cons.mpr ⟨hname, hq'p⟩
            · rw [append_cons_eq]
              exact hexcl
            · rw [append_cons_eq]
              exact hpath
            · rw [viewM_cons, hfind]
              show entryView (Inode.dir ch2 p2) q' = some (e.type, e.data, pp)
              rw [entryView_perms_irrel ch2 p2 0 q' hq']
              exact hview
          · obtain ⟨q, pp, hq, hqp, hexcl, hpath, hview, hperm⟩ := hre
            refine ⟨q, pp, hq, hqp, hexcl, hpath, ?_, hperm⟩
            cases q with
            | nil => exact absurd rfl hq
            | cons a q' =>
              have hane := find_absent hhas hview
              rw [viewM_cons] at hview ⊢
              simp only [InodeMap.find, if_neg hane]
              exact hview
        · rintro ⟨q, pp, hq, hqp, hexcl, hpath, hview, hperm⟩
          cases q with
          | nil => exact absurd rfl hq
          | cons a q' =>
            by_cases haname : a = name
            · subst haname
              rw [viewM_cons, hfind] at hview
              cases q' with
              | nil =>
                left; left
                have hv : some (EntryType.dir, ([] : List Nat), p2)
                    = some (e.type, e.data, pp) := by
                  rw [← hview]
                  rfl
                have hv2 := Option.some.inj hv
                apply SEntry_ext
                · exact hpath
                · exact (congrArg (fun x => x.2.1) hv2).symm
                · exact (congrArg (fun x => x.1) hv2).symm
                · rw [hperm]
                  exact congrArg some (congrArg (fun x => x.2.2) hv2).symm
              | cons b q'' =>
                left; right
                refine ⟨b :: q'', pp, by simp, (plainList_cons.mp hqp).2, ?_, ?_, ?_, hperm⟩
                · rw [← append_cons_eq]
                  exact hexcl
                · rw [← append_cons_eq]
                  exact hpath
                · rw [entryView_perms_irrel ch2 0 p2 (b :: q'') (by simp)]
                  exact hview
            · right
              refine ⟨a :: q', pp, by simp, hqp, hexcl, hpath, ?_, hperm⟩
              rw [viewM_cons] at hview ⊢
              simp only [InodeMap.find,
                if_neg (fun hh : name = a => haname hh.symm)] at hview
              exact hview

/-- Every walked entry's path renders an extension of `segs0` whose
head is a present key. -/
theorem walkMap_path_shape (M : InodeMap) (segs0 : List String) (e : SEntry)
    (hM : M.cleanM = true) (h0 : plainList segs0 = true)
    (he : e ∈ walkMap M (renderPath segs0) EXCLUDED_PREFIXES) :
    ∃ a q', plainList (a :: q') = true ∧ M.has a = true ∧
      e.path = renderPath (segs0 ++ a :: q') := by
  obtain ⟨q, p, hq, hqp, -, hpath, hview, -⟩ :=
    (walkMap_mem M segs0 e hM h0).mp he
  cases q with
  | nil => exact absurd rfl hq
  | cons a q' =>
    refine ⟨a, q', hqp, ?_, hpath⟩
    rw [viewM_cons] at hview
    cases hf : M.find a with
    | none => rw [hf] at hview; simp at hview
    | some c => simp [InodeMap.has, hf]

/-- The walked paths of a clean map are duplicate-free. -/
theorem walkMap_nodup (M : InodeMap) (segs0 : List String)
    (hM : M.cleanM = true) (h0 : plainList segs0 = true) :
    ((walkMap M (renderPath segs0) EXCLUDED_PREFIXES).map
      (fun e => e.path)).Nodup := by
  match M with
  | .nil => simp [walkMap]
  | .cons name node rest =>
    have hMc := hM
    simp only [InodeMap.cleanM, Bool.and_eq_true, Bool.not_eq_eq_eq_not,
      Bool.not_true] at hMc
    obtain ⟨⟨⟨hname, hhas⟩, hnode⟩, hrest⟩ := hMc
    have hplain1 : plainList (segs0 ++ [name]) = true :=
      plainList_append.mpr ⟨h0, by simp [plainList, hname]⟩
    rw [walkMap_cons_eq name node rest segs0 h0 hname, List.map_append,
      List.nodup_append]
    have hrestnd := walkMap_nodup rest segs0 hrest h0
    refine ⟨?_, hrestnd, ?_⟩
    · by_cases hex : (segsLe ["dev"] (segs0 ++ [name])
          || segsLe ["proc"] (segs0 ++ [name])) = true
      · rw [if_pos hex]
        simp
      · rw [if_neg hex]
        cases hnd : node with
        | symlink t p => simp
        | file c p => simp
        | dir ch2 p2 =>
          rw [hnd] at hnode
          have hch2 : ch2.cleanM = true := hnode
          simp only [List.map_cons, List.nodup_cons]
          refine ⟨?_, walkMap_nodup ch2 (segs0 ++ [name]) hch2 hplain1⟩
          intro hmem
          obtain ⟨e', he', hpe⟩ := List.mem_map.mp hmem
          obtain ⟨a, qa, hpa, -, hpath⟩ :=
            walkMap_path_shape ch2 (segs0 ++ [name]) e' hch2 hplain1 he'
          rw [hpath] at hpe
          have heq := renderPath_inj
            (plainList_append.mpr ⟨hplain1, hpa⟩) hplain1 hpe
          have hlen := congrArg List.length heq
          simp at hlen
    · intro p hpA hpB
      obtain ⟨e2, he2, hpe2⟩ := List.mem_map.mp hpB
      obtain ⟨b, qb, hpb, hbhas, hpath2⟩ :=
        walkMap_path_shape rest segs0 e2 hrest h0 he2
      by_cases hex : (segsLe ["dev"] (segs0 ++ [name])
          || segsLe ["proc"] (segs0 ++ [name])) = true
      · rw [if_pos hex] at hpA
        simp at hpA
      · rw [if_neg hex] at hpA
        have hplainb : plainList (segs0 ++ b :: qb) = true :=
          plainList_append.mpr ⟨h0, hpb⟩
        have hhead : ∀ qa : List String,
            p = renderPath (segs0 ++ name :: qa) →
            plainList (segs0 ++ name :: qa) = true → False := by
          intro qa hpq hplq
          rw [← hpe2, hpath2] at hpq
          have heq := renderPath_inj hplainb hplq hpq
          have heq2 : b :: qb = name :: qa := by
            have := List.append_cancel_left heq
            exact this
          have hbn : b = name := (List.cons.inj heq2).1
          rw [hbn] at hbhas
          rw [hbhas] at hhas
          cases hhas
        cases hnd : node with
        | symlink t p3 =>
          rw [hnd] at hpA
          simp at hpA
        | file c p3 =>
          rw [hnd] at hpA
          simp only [List.map_cons, List.map_nil, List.mem_singleton] at hpA
          exact hhead [] (by rw [hpA]) hplain1
        | dir ch2 p3 =>
          rw [hnd] at hnode
          rw [hnd] at hpA
          have hch2 : ch2.cleanM = true := hnode
          rw [List.map_cons, List.mem_cons] at hpA
          cases hpA with
          | inl hp1 =>
            exact hhead [] (by rw [hp1]) hplain1
          | inr hp2 =>
            obtain ⟨e3, he3, hpe3⟩ := List.mem_map.mp hp2
            obtain ⟨a, qa, hpa, -, hpath3⟩ :=
              walkMap_path_shape ch2 (segs0 ++ [name]) e3 hch2 hplain1 he3
            have hpl : plainList (segs0 ++ name :: a :: qa) = true := by
              rw [append_cons_eq]
              exact plainList_append.mpr ⟨hplain1, hpa⟩
            refine hhead (a :: qa) ?_ hpl
            rw [← hpe3, hpath3]
            exact congrArg renderPath (by simp)

/-! #### Effect of the mutating tree operations on the entry view -/

theorem entryView_cons (m : InodeMap) (p : Nat) (x : String) (q : List String) :
    entryView (.dir m p) (x :: q) = match m.find x with
      | some child => entryView child q
      | none => none := by
  simp only [entryView, lookupSegs]
  cases m.find x with
  | some child => cases child <;> rfl
  | none => rfl

theorem entryView_set_self (ch : InodeMap) (p : Nat) (seg : String)
    (X : Inode) (q : List String) :
    entryView (.dir (ch.set seg X) p) (seg :: q) = entryView X q := by
  rw [entryView_cons, find_set_self]

theorem entryView_set_ne (ch : InodeMap) (p : Nat) (seg : String)
    (X : Inode) (x : String) (q : List String) (h : x ≠ seg) :
    entryView (.dir (ch.set seg X) p) (x :: q)
      = entryView (.dir ch p) (x :: q) := by
  rw [entryView_cons, entryView_cons, find_set_ne ch seg X x h]

theorem entryView_nil (R : Inode) : entryView R [] = match R with
    | .dir _ p => some (.dir, [], p)
    | .file c p => some (.file, c, p)
    | .symlink _ _ => none := by
  cases R <;> rfl

/-- `updateDirAt` rewrites the subtree at `loc` and nothing else. -/
theorem updateDirAt_view (fn : InodeMap → InodeMap) :
    ∀ (loc : List String) (R : Inode) (ch : InodeMap) (p : Nat),
      lookupSegs R loc = some (.dir ch p) →
      (∀ q', lookupSegs (updateDirAt R loc fn) (loc ++ q')
          = lookupSegs (.dir (fn ch) p) q') ∧
      (∀ q, segsLe loc q = false →
          entryView (updateDirAt R loc fn) q = entryView R q) := by
  intro loc
  induction loc with
  | nil =>
    intro R ch p hl
    simp only [lookupSegs, Option.some.injEq] at hl
    subst hl
    refine ⟨fun q' => rfl, fun q h => ?_⟩
    rw [segsLe] at h
    cases h
  | cons seg loc' ih =>
    intro R ch p hl
    cases R with
    | dir ch0 p0 =>
      simp only [lookupSegs] at hl
      cases hf : ch0.find seg with
      | some child =>
        rw [hf] at hl
        obtain ⟨c1, c2⟩ := ih child ch p hl
        simp only [updateDirAt, hf]
        constructor
        · intro q'
          show lookupSegs (.dir (ch0.set seg (updateDirAt child loc' fn)) p0)
            (seg :: (loc' ++ q')) = _
          simp only [lookupSegs, find_set_self]
          exact c1 q'
        · intro q hq
          cases q with
          | nil => rfl
          | cons x q'' =>
            by_cases hx : x = seg
            · subst hx
              simp only [segsLe, beq_self_eq_true, Bool.true_and] at hq
              rw [entryView_set_self]
              rw [entryView_cons, hf]
              exact c2 q'' hq
            · rw [entryView_set_ne ch0 p0 seg _ x q'' hx]
      | none =>
        rw [hf] at hl
        cases hl
    | file c p2 => simp [lookupSegs] at hl
    | symlink t p2 => simp [lookupSegs] at hl

/-- `setPermsAt` changes exactly the permissions of the node at `loc`. -/
theorem setPermsAt_view (m : Nat) :
    ∀ (loc : List String) (R : Inode) (n : Inode),
      lookupSegs R loc = some n →
      (entryView (setPermsAt R loc m) loc
          = match n with
            | .file c _ => some (.file, c, m)
            | .dir _ _ => some (.dir, [], m)
            | .symlink _ _ => none) ∧
      (∀ q, q ≠ loc → entryView (setPermsAt R loc m) q = entryView R q) := by
  intro loc
  induction loc with
  | nil =>
    intro R n hl
    simp only [lookupSegs, Option.some.injEq] at hl
    subst hl
    constructor
    · cases R <;> rfl
    · intro q hq
      cases q with
      | nil => exact absurd rfl hq
      | cons x q'' =>
        cases R with
        | dir ch p => rw [show setPermsAt (.dir ch p) [] m = .dir ch m from rfl,
            entryView_cons, entryView_cons]
        | file c p => rfl
        | symlink t p => rfl
  | cons seg loc' ih =>
    intro R n hl
    cases R with
    | dir ch0 p0 =>
      simp only [lookupSegs] at hl
      cases hf : ch0.find seg with
      | some child =>
        rw [hf] at hl
        obtain ⟨c1, c2⟩ := ih child n hl
        simp only [setPermsAt, hf]
        constructor
        · rw [entryView_set_self]
          exact c1
        · intro q hq
          cases q with
          | nil => rfl
          | cons x q'' =>
            by_cases hx : x = seg
            · subst hx
              rw [entryView_set_self]
              rw [entryView_cons, hf]
              exact c2 q'' (fun hh => hq (by rw [hh]))
            · rw [entryView_set_ne ch0 p0 seg _ x q'' hx]
      | none =>
        rw [hf] at hl
        cases hl
    | file c p2 => simp [lookupSegs] at hl
    | symlink t p2 => simp [lookupSegs] at hl

theorem clean_updateDirAt (fn : InodeMap → InodeMap)
    (hfn : ∀ m : InodeMap, m.cleanM = true → (fn m).cleanM = true) :
    ∀ (loc : List String) (R : Inode), R.clean = true →
      (updateDirAt R loc fn).clean = true := by
  intro loc
  induction loc with
  | nil =>
    intro R hR
    cases R with
    | dir ch p => exact hfn ch hR
    | file c p => exact hR
    | symlink t p => exact hR
  | cons seg loc' ih =>
    intro R hR
    cases R with
    | dir ch p =>
      simp only [updateDirAt]
      cases hf : ch.find seg with
      | some child =>
        obtain ⟨hplain, hchild⟩ := cleanM_find hR hf
        exact cleanM_set hR (ih child hchild) hplain
      | none => exact hR
    | file c p => exact hR
    | symlink t p => exact hR

theorem clean_setPermsAt (m : Nat) :
    ∀ (loc : List String) (R : Inode), R.clean = true →
      (setPermsAt R loc m).clean = true := by
  intro loc
  induction loc with
  | nil =>
    intro R hR
    cases R with
    | dir ch p => exact hR
    | file c p => exact hR
    | symlink t p => simp [Inode.clean] at hR
  | cons seg loc' ih =>
    intro R hR
    cases R with
    | dir ch p =>
      simp only [setPermsAt]
      cases hf : ch.find seg with
      | some child =>
        obtain ⟨hplain, hchild⟩ := cleanM_find hR hf
        exact cleanM_set hR (ih child hchild) hplain
      | none => exact hR
    | file c p => exact hR
    | symlink t p => simp [Inode.clean] at hR

/-- `mkdirpAt` on an all-directory clean tree always succeeds; it
creates a default directory at every nonempty prefix of `segs` not yet
present and changes no existing view. -/
theorem mkdirpAt_ok :
    ∀ (segs : List String) (R : Inode) (done : List String),
      R.dirsOnly = true → R.clean = true → plainList segs = true →
      ∃ R', mkdirpAt R segs done = .ok R' ∧ R'.dirsOnly = true ∧
        R'.clean = true ∧
        (∀ q v, entryView R q = some v → entryView R' q = some v) ∧
        (∀ q, entryView R q = none →
          entryView R' q = if q ≠ [] ∧ segsLe q segs = true
            then some (.dir, [], 493) else none) := by
  intro segs
  induction segs with
  | nil =>
    intro R done hdo hcl _
    obtain ⟨ch, p, rfl, -⟩ := dirsOnly_shape hdo
    refine ⟨.dir ch p, rfl, hdo, hcl, fun q v hv => hv, fun q hq => ?_⟩
    rw [if_neg ?_]
    · exact hq
    · rintro ⟨hne, hle⟩
      exact hne ((segsLe_nil_iff q).mp hle)
  | cons seg rest ih =>
    intro R done hdo hcl hplain
    obtain ⟨hseg, hrestp⟩ := plainList_cons.mp hplain
    obtain ⟨ch, p, rfl, hchm⟩ := dirsOnly_shape hdo
    cases hf : ch.find seg with
    | some child =>
      have hcdo := dirsOnlyM_find hchm hf
      obtain ⟨hplainseg, hccl⟩ := cleanM_find hcl hf
      obtain ⟨ch2, p2, rfl, -⟩ := dirsOnly_shape hcdo
      obtain ⟨sub, hsub, hsubdo, hsubcl, hpres, hnew⟩ :=
        ih (.dir ch2 p2) (done ++ [seg]) hcdo hccl hrestp
      refine ⟨.dir (ch.set seg sub) p, ?_, ?_, ?_, ?_, ?_⟩
      · simp only [mkdirpAt, hf, hsub]
      · exact dirsOnlyM_set hchm hsubdo
      · exact cleanM_set hcl hsubcl hplainseg
      · intro q v hv
        cases q with
        | nil => exact hv
        | cons x q'' =>
          by_cases hx : x = seg
          · subst hx
            rw [entryView_cons, hf] at hv
            rw [entryView_set_self]
            exact hpres q'' v hv
          · rw [entryView_set_ne ch p seg sub x q'' hx]
            exact hv
      · intro q hq
        cases q with
        | nil => rw [entryView_nil] at hq; cases hq
        | cons x q'' =>
          by_cases hx : x = seg
          · subst hx
            rw [entryView_cons, hf] at hq
            dsimp only at hq
            rw [entryView_set_self, hnew q'' hq]
            by_cases hc : q'' ≠ [] ∧ segsLe q'' rest = true
            · rw [if_pos hc, if_pos ⟨by simp, by simp [segsLe, hc.2]⟩]
            · rw [if_neg hc, if_neg ?_]
              rintro ⟨-, hle⟩
              simp only [segsLe, beq_self_eq_true, Bool.true_and] at hle
              apply hc
              refine ⟨?_, hle⟩
              intro hnil
              subst hnil
              rw [entryView_nil] at hq
              cases hq
          · rw [entryView_set_ne ch p seg sub x q'' hx, hq, if_neg ?_]
            rintro ⟨-, hle⟩
            simp only [segsLe, Bool.and_eq_true, beq_iff_eq] at hle
            exact hx hle.1
    | none =>
      obtain ⟨sub, hsub, hsubdo, hsubcl, hpres, hnew⟩ :=
        ih createDirInode (done ++ [seg]) rfl rfl hrestp
      refine ⟨.dir (ch.set seg sub) p, ?_, ?_, ?_, ?_, ?_⟩
      · simp only [mkdirpAt, hf, hsub]
      · exact dirsOnlyM_set hchm hsubdo
      · exact cleanM_set hcl hsubcl hseg
      · intro q v hv
        cases q with
        | nil => exact hv
        | cons x q'' =>
          by_cases hx : x = seg
          · subst hx
            rw [entryView_cons, hf] at hv
            cases hv
          · rw [entryView_set_ne ch p seg sub x q'' hx]
            exact hv
      · intro q hq
        cases q with
        | nil => rw [entryView_nil] at hq; cases hq
        | cons x q'' =>
          by_cases hx : x = seg
          · subst hx
            rw [entryView_set_self]
            cases hq'' : q'' with
            | nil =>
              rw [hpres [] (.dir, [], 493) rfl, if_pos ⟨by simp, by simp [segsLe]⟩]
            | cons b bs =>
              rw [← hq'']
              have hbase : entryView createDirInode q'' = none := by
                rw [hq'']
                show entryView (.dir .nil 493) (b :: bs) = none
                rw [entryView_cons]
                simp [InodeMap.find]
              rw [hnew q'' hbase]
              by_cases hc : q'' ≠ [] ∧ segsLe q'' rest = true
              · rw [if_pos hc, if_pos ⟨by simp, by simp [segsLe, hc.2]⟩]
              · rw [if_neg hc, if_neg ?_]
                rintro ⟨-, hle⟩
                simp only [segsLe, beq_self_eq_true, Bool.true_and] at hle
                exact hc ⟨by rw [hq'']; simp, hle⟩
          · rw [entryView_set_ne ch p seg sub x q'' hx, hq, if_neg ?_]
            rintro ⟨-, hle⟩
            simp only [segsLe, Bool.and_eq_true, beq_iff_eq] at hle
            exact hx hle.1

theorem entryView_of_lookup_eq {R R' : Inode} {q q' : List String}
    (h : lookupSegs R q = lookupSegs R' q') : entryView R q = entryView R' q' := by
  unfold entryView
  rw [h]

/-- `mkdirp` under the `withWriteAccess` bypass on an all-directory
clean tree: succeeds, creates default directories along the missing
prefixes and changes nothing else. -/
theorem mkdirp_import (st : VFSState) (segs : List String)
    (hinit : st.initializing = true)
    (hdo : st.root.dirsOnly = true) (hcl : st.root.clean = true)
    (hplain : plainList segs = true) :
    ∃ st', mkdirp st (renderPath segs) = .ok st' ∧
      st'.initializing = true ∧ st'.fsLimitBytes = st.fsLimitBytes ∧
      st'.fileCountLimit = st.fileCountLimit ∧
      st'.root.dirsOnly = true ∧ st'.root.clean = true ∧
      (∀ q v, entryView st.root q = some v → entryView st'.root q = some v) ∧
      (∀ q, entryView st.root q = none →
        entryView st'.root q = if q ≠ [] ∧ segsLe q segs = true
          then some (.dir, [], 493) else none) := by
  obtain ⟨R', hR', hdo', hcl', hpres, hnew⟩ :=
    mkdirpAt_ok segs st.root [] hdo hcl hplain
  refine ⟨{ st with root := R' }, ?_, hinit, rfl, rfl, hdo', hcl', hpres, hnew⟩
  simp only [mkdirp, assertWritable, hinit, if_true, parsePath_render segs hplain,
    hR']

/-- `writeFile` under the bypass with no quotas, a clean tree, an
existing parent directory and no node at the target: creates the file
with default permissions and changes nothing else. -/
theorem writeFile_import (st : VFSState) (segs : List String) (name : String)
    (data : List Nat) (chp : InodeMap) (pp : Nat)
    (hinit : st.initializing = true)
    (hlim : st.fsLimitBytes = none) (hcnt : st.fileCountLimit = none)
    (hcl : st.root.clean = true)
    (hplain : plainList (segs ++ [name]) = true)
    (hparent : lookupSegs st.root segs = some (.dir chp pp))
    (hnone : entryView st.root (segs ++ [name]) = none) :
    ∃ st', writeFile st (renderPath (segs ++ [name])) data = .ok st' ∧
      st'.initializing = true ∧ st'.fsLimitBytes = none ∧
      st'.fileCountLimit = none ∧ st'.root.clean = true ∧
      entryView st'.root (segs ++ [name]) = some (.file, data, 420) ∧
      (∀ q, q ≠ segs ++ [name] → entryView st'.root q = entryView st.root q) := by
  have hname : plainSeg name = true := by
    have := plainList_append.mp hplain
    exact (plainList_cons.mp this.2).1
  have hfind : chp.find name = none := by
    cases hf : chp.find name with
    | none => rfl
    | some v =>
      have hlv : lookupSegs st.root (segs ++ [name]) = some v := by
        rw [lookupSegs_append, hparent]
        show lookupSegs (.dir chp pp) [name] = some v
        simp only [lookupSegs, hf]
      have hvclean := (lookupSegs_clean hcl hlv).1
      unfold entryView at hnone
      rw [hlv] at hnone
      cases v with
      | dir a b => cases hnone
      | file a b => cases hnone
      | symlink a b => simp [Inode.clean] at hvclean
  have hlookup : lookupSegs st.root (segs ++ [name]) = none := by
    rw [lookupSegs_append, hparent]
    show lookupSegs (.dir chp pp) [name] = none
    simp only [lookupSegs, hfind]
  obtain ⟨seg0, rest, hsl⟩ : ∃ a l, segs ++ [name] = a :: l := by
    cases hc : segs ++ [name] with
    | nil => simp at hc
    | cons a l => exact ⟨a, l, rfl⟩
  have hdrop : (seg0 :: rest).dropLast = segs := by
    rw [← hsl]
    exact List.dropLast_concat
  have hlast : (seg0 :: rest).getLastD "" = name := by
    rw [← hsl]
    exact List.getLastD_concat "" name segs
  have hrp := resolveParent_clean_ok st (renderPath (segs ++ [name]))
    seg0 rest chp pp hcl (by rw [hsl]; rw [← hsl]; exact parsePath_render _ hplain)
    (by rw [hdrop]; exact hparent)
  rw [hdrop, hlast] at hrp
  have hfn : ∀ m : InodeMap, m.cleanM = true →
      (m.set name (createFileInode data)).cleanM = true := by
    intro m hm
    exact cleanM_set hm (by rfl) hname
  obtain ⟨c1, c2⟩ := updateDirAt_view
    (fun ch => ch.set name (createFileInode data)) segs st.root chp pp hparent
  have hwf : writeFile st (renderPath (segs ++ [name])) data
      = .ok { st with
          root := updateDirAt st.root segs
            (fun ch => ch.set name (createFileInode data)),
          totalBytes := st.totalBytes + ((data.length : Int) - 0),
          currentFileCount := st.currentFileCount + 1 } := by
    simp only [writeFile, assertWritable, hinit, if_true, hrp, hfind, hlim, hcnt]
    rfl
  refine ⟨_, hwf, hinit, hlim, hcnt, ?_, ?_, ?_⟩
  · exact clean_updateDirAt _ hfn segs st.root hcl
  · have hv := entryView_of_lookup_eq (c1 [name])
    rw [hv, entryView_set_self]
    rfl
  · intro q hq
    cases hle : segsLe segs q with
    | false => exact c2 q hle
    | true =>
      obtain ⟨q', rfl⟩ := segsLe_exists hle
      cases q' with
      | nil =>
        have hv := entryView_of_lookup_eq (c1 [])
        simp only [List.append_nil] at hv ⊢
        rw [hv]
        unfold entryView
        rw [hparent]
        rfl
      | cons x q'' =>
        by_cases hx : x = name
        · rw [hx] at hq ⊢
          have hq'' : q'' ≠ [] := by
            intro hh
            subst hh
            exact hq rfl
          have hv := entryView_of_lookup_eq (c1 (name :: q''))
          rw [hv, entryView_set_self]
          have hl1 : lookupSegs (createFileInode data) q'' = none := by
            cases q'' with
            | nil => exact absurd rfl hq''
            | cons b bs => rfl
          have hr1 : lookupSegs st.root (segs ++ name :: q'') = none := by
            rw [append_cons_eq, lookupSegs_append, hlookup]
          unfold entryView
          rw [hl1, hr1]
        · have hv := entryView_of_lookup_eq (c1 (x :: q''))
          rw [hv, entryView_set_ne chp pp name _ x q'' hx]
          apply entryView_of_lookup_eq
          rw [lookupSegs_append, hparent]

/-- The view of a node after its permissions are replaced. -/
def permsView : Inode → Nat → Option (EntryType × List Nat × Nat)
  | .file c _, m => some (.file, c, m)
  | .dir _ _, m => some (.dir, [], m)
  | .symlink _ _, _ => none

/-- `chmod` on a clean tree: sets the permissions of the resolved node
and changes nothing else (no writable-path check). -/
theorem chmod_import (st : VFSState) (segs : List String) (mode : Nat)
    (n : Inode) (hcl : st.root.clean = true) (hplain : plainList segs = true)
    (hl : lookupSegs st.root segs = some n) :
    ∃ st', chmod st (renderPath segs) mode = .ok st' ∧
      st'.initializing = st.initializing ∧
      st'.fsLimitBytes = st.fsLimitBytes ∧
      st'.fileCountLimit = st.fileCountLimit ∧
      st'.root.clean = true ∧
      entryView st'.root segs = permsView n mode ∧
      (∀ q, q ≠ segs → entryView st'.root q = entryView st.root q) := by
  have hres := resolveE_clean_ok st (renderPath segs) true segs n hcl
    (parsePath_render segs hplain) hl
  obtain ⟨c1, c2⟩ := setPermsAt_view mode segs st.root n hl
  have c1' : entryView (setPermsAt st.root segs mode) segs = permsView n mode := by
    cases n with
    | file c p => exact c1
    | dir ch p => exact c1
    | symlink t p => exact c1
  exact ⟨{ st with root := setPermsAt st.root segs mode },
    by simp only [chmod, hres], rfl, rfl, rfl,
    clean_setPermsAt mode segs st.root hcl, c1', c2⟩

theorem view_dir_lookup {R : Inode} {q : List String} {p : Nat}
    (h : entryView R q = some (.dir, [], p)) :
    ∃ ch, lookupSegs R q = some (.dir ch p) := by
  unfold entryView at h
  cases hl : lookupSegs R q with
  | none => rw [hl] at h; cases h
  | some n =>
    rw [hl] at h
    cases n with
    | dir ch p2 =>
      refine ⟨ch, ?_⟩
      simp only [Option.some.injEq, Prod.mk.injEq] at h
      rw [h.2.2]
    | file c p2 => simp at h
    | symlink t p2 => cases h

/-- `q` lies under a directory entry of `L`. -/
def Covered (L : List SEntry) (q : List String) : Prop :=
  ∃ e ∈ L, e.type = .dir ∧ ∃ segs, plainList segs = true ∧
    e.path = renderPath segs ∧ q ≠ [] ∧ segsLe q segs = true

/-- Phase 1 of the import: folding `mkdirp` over the dir entries of a
list succeeds on an all-directory clean tree, creates default
directories at exactly the uncovered prefixes and preserves everything
else. -/
theorem phase1_fold :
    ∀ (L : List SEntry) (st : VFSState),
      (∀ e ∈ L, e.type = .dir →
        ∃ segs, segs ≠ [] ∧ plainList segs = true ∧ e.path = renderPath segs) →
      st.initializing = true → st.fsLimitBytes = none →
      st.fileCountLimit = none →
      st.root.dirsOnly = true → st.root.clean = true →
      ∃ st', L.foldlM (fun st e =>
          if e.type = .dir then mkdirp st e.path else pure st) st = .ok st' ∧
        st'.initializing = true ∧ st'.fsLimitBytes = none ∧
        st'.fileCountLimit = none ∧
        st'.root.dirsOnly = true ∧ st'.root.clean = true ∧
        (∀ q v, entryView st.root q = some v → entryView st'.root q = some v) ∧
        (∀ q, entryView st.root q = none → Covered L q →
          entryView st'.root q = some (.dir, [], 493)) ∧
        (∀ q, entryView st.root q = none → ¬ Covered L q →
          entryView st'.root q = none) := by
  intro L
  induction L with
  | nil =>
    intro st _ h1 h2 h3 h4 h5
    refine ⟨st, rfl, h1, h2, h3, h4, h5, fun q v hv => hv, ?_, fun q hq _ => hq⟩
    rintro q - ⟨e, he, -⟩
    cases he
  | cons e L' ih =>
    intro st hL h1 h2 h3 h4 h5
    by_cases hd : e.type = .dir
    · obtain ⟨segsE, hne, hplE, hpathE⟩ := hL e (List.mem_cons_self e L') hd
      obtain ⟨st1, hst1, i1, i2, i3, i4, i5, pres1, new1⟩ :=
        mkdirp_import st segsE h1 h4 h5 hplE
      rw [h2] at i2
      rw [h3] at i3
      obtain ⟨st', hst', j1, j2, j3, j4, j5, presI, covI, frameI⟩ :=
        ih st1 (fun e2 he2 hd2 => hL e2 (List.mem_cons_of_mem e he2) hd2)
          i1 i2 i3 i4 i5
      refine ⟨st', ?_, j1, j2, j3, j4, j5, ?_, ?_, ?_⟩
      · rw [List.foldlM_cons, if_pos hd, hpathE, hst1]
        exact hst'
      · intro q v hv
        exact presI q v (pres1 q v hv)
      · intro q hq hcov
        by_cases hcq : q ≠ [] ∧ segsLe q segsE = true
        · have h493 : entryView st1.root q = some (.dir, [], 493) := by
            rw [new1 q hq, if_pos hcq]
          exact presI q _ h493
        · have hnone1 : entryView st1.root q = none := by
            rw [new1 q hq, if_neg hcq]
          obtain ⟨e2, he2, hd2, segs2, hpl2, hpath2, hqne, hle2⟩ := hcov
          cases List.mem_cons.mp he2 with
          | inl heq =>
            exfalso
            apply hcq
            refine ⟨hqne, ?_⟩
            have : segs2 = segsE := by
              apply renderPath_inj hpl2 hplE
              rw [← hpath2, ← hpathE, heq]
            rw [← this]
            exact hle2
          | inr hmem =>
            exact covI q hnone1 ⟨e2, hmem, hd2, segs2, hpl2, hpath2, hqne, hle2⟩
      · intro q hq hcov
        have hcq : ¬ (q ≠ [] ∧ segsLe q segsE = true) := by
          rintro ⟨hqne, hle⟩
          exact hcov ⟨e, List.mem_cons_self e L', hd, segsE, hplE, hpathE, hqne, hle⟩
        have hnone1 : entryView st1.root q = none := by
          rw [new1 q hq, if_neg hcq]
        apply frameI q hnone1
        rintro ⟨e2, he2, hd2, segs2, hpl2, hpath2, hqne, hle2⟩
        exact hcov ⟨e2, List.mem_cons_of_mem e he2, hd2, segs2, hpl2, hpath2,
          hqne, hle2⟩
    · obtain ⟨st', hst', j1, j2, j3, j4, j5, presI, covI, frameI⟩ :=
        ih st (fun e2 he2 hd2 => hL e2 (List.mem_cons_of_mem e he2) hd2)
          h1 h2 h3 h4 h5
      refine ⟨st', ?_, j1, j2, j3, j4, j5, presI, ?_, ?_⟩
      · rw [List.foldlM_cons, if_neg hd]
        exact hst'
      · intro q hq hcov
        obtain ⟨e2, he2, hd2, rest⟩ := hcov
        cases List.mem_cons.mp he2 with
        | inl heq =>
          exact absurd (heq ▸ hd2) hd
        | inr hmem =>
          exact covI q hq ⟨e2, hmem, hd2, rest⟩
      · intro q hq hcov
        apply frameI q hq
        rintro ⟨e2, he2, hd2, rest⟩
        exact hcov ⟨e2, List.mem_cons_of_mem e he2, hd2, rest⟩

/-- Phase 2 of the import: folding `writeFile` over the file entries
creates each file (default permissions 420) at its fresh path and
changes nothing else. -/
theorem phase2_fold :
    ∀ (L : List SEntry) (st : VFSState),
      (∀ e ∈ L, e.type = .file →
        ∃ segs, segs ≠ [] ∧ plainList segs = true ∧ e.path = renderPath segs ∧
          entryView st.root segs = none ∧
          ∃ pp, entryView st.root segs.dropLast = some (.dir, [], pp)) →
      (L.map (fun e => e.path)).Nodup →
      st.initializing = true → st.fsLimitBytes = none →
      st.fileCountLimit = none → st.root.clean = true →
      ∃ st', L.foldlM (fun st e =>
          if e.type = .file then writeFile st e.path e.data else pure st) st
            = .ok st' ∧
        st'.initializing = true ∧ st'.fsLimitBytes = none ∧
        st'.fileCountLimit = none ∧ st'.root.clean = true ∧
        (∀ q, (∀ e ∈ L, e.type = .file → e.path ≠ renderPath q) →
          entryView st'.root q = entryView st.root q) ∧
        (∀ e ∈ L, e.type = .file → ∀ segs, e.path = renderPath segs →
          plainList segs = true →
          entryView st'.root segs = some (.file, e.data, 420)) := by
  intro L
  induction L with
  | nil =>
    intro st _ _ h1 h2 h3 h4
    exact ⟨st, rfl, h1, h2, h3, h4, fun q _ => rfl, fun e he => absurd he
      (List.not_mem_nil e)⟩
  | cons e L' ih =>
    intro st hL hnd h1 h2 h3 h4
    rw [List.map_cons, List.nodup_cons] at hnd
    have hnothead := hnd.1
    have hndtail := hnd.2
    by_cases hf : e.type = .file
    · obtain ⟨segsE, hne, hplE, hpathE, hnoneE, pp, hparE⟩ :=
        hL e (List.mem_cons_self e L') hf
      have hdecomp : segsE.dropLast ++ [segsE.getLast hne] = segsE :=
        List.dropLast_append_getLast hne
      obtain ⟨chp, hchp⟩ := view_dir_lookup hparE
      obtain ⟨st1, hst1, i1, i2, i3, i4, hcreate1, hframe1⟩ :=
        writeFile_import st segsE.dropLast (segsE.getLast hne) e.data chp pp
          h1 h2 h3 h4 (by rw [hdecomp]; exact hplE) hchp
          (by rw [hdecomp]; exact hnoneE)
      rw [hdecomp] at hst1 hcreate1 hframe1
      have hL' : ∀ e2 ∈ L', e2.type = .file →
          ∃ segs, segs ≠ [] ∧ plainList segs = true ∧
            e2.path = renderPath segs ∧ entryView st1.root segs = none ∧
            ∃ pp2, entryView st1.root segs.dropLast = some (.dir, [], pp2) := by
        intro e2 he2 hf2
        obtain ⟨segs2, hne2, hpl2, hpath2, hnone2, pp2, hpar2⟩ :=
          hL e2 (List.mem_cons_of_mem e he2) hf2
        have hsne : segs2 ≠ segsE := by
          intro hh
          apply hnothead
          exact List.mem_map.mpr ⟨e2, he2, by rw [hpath2, hh, ← hpathE]⟩
        have hdne : segs2.dropLast ≠ segsE := by
          intro hh
          rw [hh] at hpar2
          rw [hnoneE] at hpar2
          cases hpar2
        refine ⟨segs2, hne2, hpl2, hpath2, ?_, pp2, ?_⟩
        · rw [hframe1 segs2 hsne]
          exact hnone2
        · rw [hframe1 segs2.dropLast hdne]
          exact hpar2
      obtain ⟨st', hst', j1, j2, j3, j4, frameI, createI⟩ :=
        ih st1 hL' hndtail i1 i2 i3 i4
      refine ⟨st', ?_, j1, j2, j3, j4, ?_, ?_⟩
      · rw [List.foldlM_cons, if_pos hf, hpathE, hst1]
        exact hst'
      · intro q hq
        have hqe : segsE ≠ q := by
          intro hh
          exact hq e (List.mem_cons_self e L') hf (by rw [hpathE, hh])
        rw [frameI q (fun e2 he2 hf2 =>
          hq e2 (List.mem_cons_of_mem e he2) hf2)]
        exact hframe1 q (fun hh => hqe hh.symm)
      · intro e2 he2 hf2 segs2 hpath2 hpl2
        cases List.mem_cons.mp he2 with
        | inl heq =>
          have hpe2 : e2.path = renderPath segsE := by
            rw [heq]
            exact hpathE
          have hseq : segs2 = segsE :=
            renderPath_inj hpl2 hplE (hpath2.symm.trans hpe2)
          rw [hseq]
          have hside : ∀ e3 ∈ L', e3.type = .file →
              e3.path ≠ renderPath segsE := by
            intro e3 he3 hf3 hp3
            apply hnothead
            refine List.mem_map.mpr ⟨e3, he3, ?_⟩
            show e3.path = e.path
            rw [hp3, hpathE]
          rw [frameI segsE hside]
          have hdat : e2.data = e.data := by rw [heq]
          rw [hdat]
          exact hcreate1
        | inr hmem =>
          exact createI e2 hmem hf2 segs2 hpath2 hpl2
    · obtain ⟨st', hst', j1, j2, j3, j4, frameI, createI⟩ :=
        ih st (fun e2 he2 hf2 => hL e2 (List.mem_cons_of_mem e he2) hf2)
          hndtail h1 h2 h3 h4
      refine ⟨st', ?_, j1, j2, j3, j4, ?_, ?_⟩
      · rw [List.foldlM_cons, if_neg hf]
        exact hst'
      · intro q hq
        exact frameI q (fun e2 he2 hf2 =>
          hq e2 (List.mem_cons_of_mem e he2) hf2)
      · intro e2 he2 hf2 segs2 hpath2 hpl2
        cases List.mem_cons.mp he2 with
        | inl heq => exact absurd (heq ▸ hf2) hf
        | inr hmem => exact createI e2 hmem hf2 segs2 hpath2 hpl2

theorem view_permsView {R : Inode} {q : List String}
    {t : EntryType} {d : List Nat} {p0 : Nat}
    (h : entryView R q = some (t, d, p0)) :
    ∃ n, lookupSegs R q = some n ∧ ∀ m, permsView n m = some (t, d, m) := by
  unfold entryView at h
  cases hl : lookupSegs R q with
  | none => rw [hl] at h; cases h
  | some n =>
    rw [hl] at h
    refine ⟨n, rfl, ?_⟩
    intro m
    cases n with
    | dir ch p2 =>
      simp only [Option.some.injEq, Prod.mk.injEq] at h
      simp [permsView, h.1, h.2.1]
    | file c p2 =>
      simp only [Option.some.injEq, Prod.mk.injEq] at h
      simp [permsView, h.1, h.2.1]
    | symlink tt p2 => cases h

/-- Phase 3 of the import: folding `chmod` over entries carrying
permissions rewrites exactly those entries' permissions. -/
theorem phase3_fold :
    ∀ (L : List SEntry) (st : VFSState),
      (∀ e ∈ L, ∃ segs, segs ≠ [] ∧ plainList segs = true ∧
        e.path = renderPath segs ∧ (entryView st.root segs).isSome = true) →
      (L.map (fun e => e.path)).Nodup →
      st.root.clean = true →
      ∃ st', L.foldlM (fun st e => match e.permissions with
          | some p => chmod st e.path p
          | none => pure st) st = .ok st' ∧
        st'.initializing = st.initializing ∧
        st'.fsLimitBytes = st.fsLimitBytes ∧
        st'.fileCountLimit = st.fileCountLimit ∧
        st'.root.clean = true ∧
        (∀ q, (∀ e ∈ L, e.path ≠ renderPath q) →
          entryView st'.root q = entryView st.root q) ∧
        (∀ e ∈ L, ∀ segs p, e.path = renderPath segs → plainList segs = true →
          e.permissions = some p →
          ∀ t d p0, entryView st.root segs = some (t, d, p0) →
            entryView st'.root segs = some (t, d, p)) := by
  intro L
  induction L with
  | nil =>
    intro st _ _ h4
    exact ⟨st, rfl, rfl, rfl, rfl, h4, fun q _ => rfl,
      fun e he => absurd he (List.not_mem_nil e)⟩
  | cons e L' ih =>
    intro st hL hnd h4
    rw [List.map_cons, List.nodup_cons] at hnd
    have hnothead := hnd.1
    have hndtail := hnd.2
    obtain ⟨segsE, hneE, hplE, hpathE, hsomeE⟩ :=
      hL e (List.mem_cons_self e L')
    cases hperm : e.permissions with
    | some p =>
      obtain ⟨⟨t0, d0, p00⟩, hview0⟩ := Option.isSome_iff_exists.mp hsomeE
      obtain ⟨n, hlook, hpv⟩ := view_permsView hview0
      obtain ⟨st1, hst1, i1, i2, i3, i4, c1, frame1⟩ :=
        chmod_import st segsE p n h4 hplE hlook
      have hL' : ∀ e2 ∈ L', ∃ segs, segs ≠ [] ∧ plainList segs = true ∧
          e2.path = renderPath segs ∧
          (entryView st1.root segs).isSome = true := by
        intro e2 he2
        obtain ⟨segs2, hne2, hpl2, hpath2, hsome2⟩ :=
          hL e2 (List.mem_cons_of_mem e he2)
        have hsne : segs2 ≠ segsE := by
          intro hh
          apply hnothead
          exact List.mem_map.mpr ⟨e2, he2, by rw [hpath2, hh, ← hpathE]⟩
        refine ⟨segs2, hne2, hpl2, hpath2, ?_⟩
        rw [frame1 segs2 hsne]
        exact hsome2
      obtain ⟨st', hst', j1, j2, j3, j4, frameI, permI⟩ :=
        ih st1 hL' hndtail i4
      refine ⟨st', ?_, j1.trans i1, j2.trans i2, j3.trans i3, j4, ?_, ?_⟩
      · have hst1e : chmod st e.path p = .ok st1 := by
          rw [hpathE]
          exact hst1
        rw [List.foldlM_cons, hperm]
        dsimp only
        rw [hst1e]
        exact hst'
      · intro q hq
        have hqe : q ≠ segsE := by
          intro hh
          exact hq e (List.mem_cons_self e L') (by rw [hpathE, hh])
        rw [frameI q (fun e2 he2 => hq e2 (List.mem_cons_of_mem e he2))]
        exact frame1 q hqe
      · intro e2 he2 segs2 p2 hpath2 hpl2 hperm2 t d p0 hview2
        cases List.mem_cons.mp he2 with
        | inl heq =>
          have hpe2 : e2.path = renderPath segsE := by rw [heq]; exact hpathE
          have hseq : segs2 = segsE :=
            renderPath_inj hpl2 hplE (hpath2.symm.trans hpe2)
          have hp2p : p2 = p := by
            rw [heq] at hperm2
            rw [hperm] at hperm2
            exact (Option.some.inj hperm2).symm
          rw [hseq] at hview2 ⊢
          rw [hp2p]
          have hside : ∀ e3 ∈ L', e3.path ≠ renderPath segsE := by
            intro e3 he3 hp3
            apply hnothead
            refine List.mem_map.mpr ⟨e3, he3, ?_⟩
            show e3.path = e.path
            rw [hp3, hpathE]
          rw [frameI segsE hside, c1]
          obtain ⟨n2, hlook2, hpv2⟩ := view_permsView hview2
          have : n2 = n := Option.some.inj (hlook2.symm.trans hlook)
          rw [← this]
          exact hpv2 p
        | inr hmem =>
          have hsne : segs2 ≠ segsE := by
            intro hh
            apply hnothead
            exact List.mem_map.mpr ⟨e2, hmem, by rw [hpath2, hh, ← hpathE]⟩
          have hview2' : entryView st1.root segs2 = some (t, d, p0) := by
            rw [frame1 segs2 hsne]
            exact hview2
          exact permI e2 hmem segs2 p2 hpath2 hpl2 hperm2 t d p0 hview2'
    | none =>
      obtain ⟨st', hst', j1, j2, j3, j4, frameI, permI⟩ :=
        ih st (fun e2 he2 => hL e2 (List.mem_cons_of_mem e he2)) hndtail h4
      refine ⟨st', ?_, j1, j2, j3, j4, ?_, ?_⟩
      · rw [List.foldlM_cons, hperm]
        exact hst'
      · intro q hq
        exact frameI q (fun e2 he2 => hq e2 (List.mem_cons_of_mem e he2))
      · intro e2 he2 segs2 p2 hpath2 hpl2 hperm2 t d p0 hview2
        cases List.mem_cons.mp he2 with
        | inl heq =>
          rw [heq] at hperm2
          rw [hperm] at hperm2
          cases hperm2
        | inr hmem =>
          exact permI e2 hmem segs2 p2 hpath2 hpl2 hperm2 t d p0 hview2

/-! #### The round trip through a fresh default VFS -/

/-- The tree the `VFS` constructor builds (default layout, all
permissions 493). -/
def defaultRoot : Inode :=
  .dir (.cons "home" (.dir (.cons "user" (.dir .nil 493) .nil) 493)
    (.cons "tmp" (.dir .nil 493)
    (.cons "bin" (.dir .nil 493)
    (.cons "usr" (.dir (.cons "bin" (.dir .nil 493) .nil) 493)
    (.cons "mnt" (.dir .nil 493) .nil))))) 493

theorem newVFS_root : (Vfs.newVFS {}).root = defaultRoot := rfl

/-- The root map of a state keeping the default layout, with arbitrary
subtrees under `/home` and `/tmp`. -/
def rootMap (H T : InodeMap) (hp tp : Nat) : InodeMap :=
  .cons "home" (.dir H hp) (.cons "tmp" (.dir T tp)
    (.cons "bin" (.dir .nil 493)
    (.cons "usr" (.dir (.cons "bin" (.dir .nil 493) .nil) 493)
    (.cons "mnt" (.dir .nil 493) .nil))))

mutual

/-- All paths at which a tree has an entry view. -/
def viewDom : Inode → List (List String)
  | .dir ch _ => [] :: viewDomM ch
  | .file _ _ => [[]]
  | .symlink _ _ => []

def viewDomM : InodeMap → List (List String)
  | .nil => []
  | .cons n v rest => (viewDom v).map (fun x => n :: x) ++ viewDomM rest

end

theorem find_dom {ch : InodeMap} {a : String} {child : Inode}
    (hf : ch.find a = some child) :
    ∀ x ∈ viewDom child, (a :: x) ∈ viewDomM ch := by
  intro x hx
  match ch with
  | .nil => simp [InodeMap.find] at hf
  | .cons n v rest =>
    simp only [InodeMap.find] at hf
    by_cases h2 : n = a
    · rw [if_pos h2] at hf
      cases hf
      subst h2
      exact List.mem_append_left _ (List.mem_map.mpr ⟨x, hx, rfl⟩)
    · rw [if_neg h2] at hf
      exact List.mem_append_right _ (find_dom hf x hx)

theorem view_some_mem_dom : ∀ (q : List String) (R : Inode),
    entryView R q ≠ none → q ∈ viewDom R := by
  intro q
  induction q with
  | nil =>
    intro R h
    cases R with
    | dir ch p => exact List.mem_cons_self _ _
    | file c p => exact List.mem_singleton.mpr rfl
    | symlink t p => exact absurd rfl h
  | cons a q2 ih =>
    intro R h
    cases R with
    | dir ch p =>
      rw [entryView_cons] at h
      cases hf : ch.find a with
      | none => rw [hf] at h; exact absurd rfl h
      | some child =>
        rw [hf] at h
        have h2 : entryView child q2 ≠ none := h
        exact List.mem_cons_of_mem _ (find_dom hf q2 (ih child h2))
    | file c p => exact absurd rfl h
    | symlink t p => exact absurd rfl h

theorem defaultRoot_dom (q : List String)
    (h : entryView defaultRoot q ≠ none) :
    q = [] ∨ q = ["home"] ∨ q = ["home", "user"] ∨ q = ["tmp"]
      ∨ q = ["bin"] ∨ q = ["usr"] ∨ q = ["usr", "bin"] ∨ q = ["mnt"] := by
  have hm := view_some_mem_dom q defaultRoot h
  have hdom : viewDom defaultRoot
      = [[], ["home"], ["home", "user"], ["tmp"], ["bin"], ["usr"],
         ["usr", "bin"], ["mnt"]] := rfl
  rw [hdom] at hm
  simpa using hm

theorem defaultRoot_view_shape (q : List String) :
    entryView defaultRoot q = none
      ∨ entryView defaultRoot q = some (.dir, [], 493) := by
  by_cases h : entryView defaultRoot q = none
  · exact Or.inl h
  · right
    rcases defaultRoot_dom q h with h | h | h | h | h | h | h | h <;> subst h <;> rfl

theorem view_prefix_dir {R : Inode} {a b : List String}
    (h : entryView R (a ++ b) ≠ none) (hb : b ≠ []) :
    ∃ ch p, lookupSegs R a = some (.dir ch p)
      ∧ entryView R a = some (.dir, [], p) := by
  unfold entryView at h
  rw [lookupSegs_append] at h
  cases hl : lookupSegs R a with
  | none => rw [hl] at h; exact absurd rfl h
  | some n =>
    rw [hl] at h
    cases n with
    | dir ch p =>
      refine ⟨ch, p, rfl, ?_⟩
      unfold entryView
      rw [hl]
    | file c p =>
      cases b with
      | nil => exact absurd rfl hb
      | cons x bs => exact absurd rfl h
    | symlink t p =>
      cases b with
      | nil => exact absurd rfl h
      | cons x bs => exact absurd rfl h

theorem view_nil_dir {R : Inode} {p : Nat}
    (h : entryView R [] = some (.dir, [], p)) : ∃ ch, R = .dir ch p := by
  cases R with
  | dir ch p2 =>
    rw [entryView_nil] at h
    simp only [Option.some.injEq, Prod.mk.injEq] at h
    exact ⟨ch, by rw [h.2.2]⟩
  | file c p2 => rw [entryView_nil] at h; simp at h
  | symlink t p2 => rw [entryView_nil] at h; cases h

theorem rootMap_find (H T : InodeMap) (hp tp : Nat) (a : String) :
    (rootMap H T hp tp).find a =
      if "home" = a then some (.dir H hp)
      else if "tmp" = a then some (.dir T tp)
      else if "bin" = a then some (.dir .nil 493)
      else if "usr" = a then some (.dir (.cons "bin" (.dir .nil 493) .nil) 493)
      else if "mnt" = a then some (.dir .nil 493)
      else none := rfl

theorem plainList_dropLast {q : List String} (h : plainList q = true) :
    plainList q.dropLast = true := by
  simp only [plainList, List.all_eq_true] at h ⊢
  intro x hx
  exact h x ((List.dropLast_sublist q).subset hx)

theorem dropLast_cons_ne {a : String} {rest : List String} (h : rest ≠ []) :
    (a :: rest).dropLast = a :: rest.dropLast := by
  cases rest with
  | nil => exact absurd rfl h
  | cons b bs => rfl

theorem rootM_heads (H T : InodeMap) (hp tp : Nat) (a : String)
    (q2 : List String)
    (h : entryView (.dir (rootMap H T hp tp) 0) (a :: q2) ≠ none) :
    a = "home" ∨ a = "tmp" ∨ a = "bin" ∨ a = "usr" ∨ a = "mnt" := by
  rw [entryView_cons, rootMap_find] at h
  by_cases h1 : "home" = a
  · exact Or.inl h1.symm
  · rw [if_neg h1] at h
    by_cases h2 : "tmp" = a
    · exact Or.inr (Or.inl h2.symm)
    · rw [if_neg h2] at h
      by_cases h3 : "bin" = a
      · exact Or.inr (Or.inr (Or.inl h3.symm))
      · rw [if_neg h3] at h
        by_cases h4 : "usr" = a
        · exact Or.inr (Or.inr (Or.inr (Or.inl h4.symm)))
        · rw [if_neg h4] at h
          by_cases h5 : "mnt" = a
          · exact Or.inr (Or.inr (Or.inr (Or.inr h5.symm)))
          · rw [if_neg h5] at h
            exact absurd rfl h

theorem rootM_home_view (H T : InodeMap) (hp tp : Nat) (q2 : List String) :
    entryView (.dir (rootMap H T hp tp) 0) ("home" :: q2)
      = entryView (.dir H hp) q2 := rfl

theorem rootM_tmp_view (H T : InodeMap) (hp tp : Nat) (q2 : List String) :
    entryView (.dir (rootMap H T hp tp) 0) ("tmp" :: q2)
      = entryView (.dir T tp) q2 := rfl

theorem rootM_bin_view (H T : InodeMap) (hp tp : Nat) (q2 : List String) :
    entryView (.dir (rootMap H T hp tp) 0) ("bin" :: q2)
      = entryView (.dir .nil 493) q2 := rfl

theorem rootM_usr_view (H T : InodeMap) (hp tp : Nat) (q2 : List String) :
    entryView (.dir (rootMap H T hp tp) 0) ("usr" :: q2)
      = entryView (.dir (.cons "bin" (.dir .nil 493) .nil) 493) q2 := rfl

theorem rootM_mnt_view (H T : InodeMap) (hp tp : Nat) (q2 : List String) :
    entryView (.dir (rootMap H T hp tp) 0) ("mnt" :: q2)
      = entryView (.dir .nil 493) q2 := rfl

theorem usrTree_dom (q2 : List String)
    (h : entryView (.dir (.cons "bin" (.dir .nil 493) .nil) 493) q2 ≠ none) :
    q2 = [] ∨ q2 = ["bin"] := by
  have hm := view_some_mem_dom q2 _ h
  have hdom : viewDom (.dir (.cons "bin" (.dir .nil 493) .nil) 493)
      = [[], ["bin"]] := rfl
  rw [hdom] at hm
  simpa using hm

theorem nilTree_dom (p : Nat) (q2 : List String)
    (h : entryView (.dir .nil p) q2 ≠ none) : q2 = [] := by
  have hm := view_some_mem_dom q2 _ h
  have hdom : viewDom (.dir InodeMap.nil p) = [[]] := rfl
  rw [hdom] at hm
  simpa using hm

/-- On paths the default-layout state actually has, safety is exactly a
`/home` or `/tmp` head. -/
theorem rootM_safe (H T : InodeMap) (hp tp : Nat) (q : List String)
    (hq : q ≠ []) (hpl : plainList q = true)
    (hv : entryView (.dir (rootMap H T hp tp) 0) q ≠ none) :
    isSafeImportPath (renderPath q)
      = (segsLe ["home"] q || segsLe ["tmp"] q) := by
  rw [safe_check q hpl]
  cases q with
  | nil => exact absurd rfl hq
  | cons a q2 =>
    have husr1 : segsLe ["usr", "lib", "python"] (a :: q2) = false := by
      by_cases ha : "usr" = a
      · subst ha
        rw [rootM_usr_view] at hv
        rcases usrTree_dom q2 hv with h | h <;> subst h <;> rfl
      · simp only [segsLe]
        rw [Bool.and_eq_false_iff]
        left
        exact beq_eq_false_iff_ne.mpr ha
    have husr2 : segsLe ["usr", "share", "pkg"] (a :: q2) = false := by
      by_cases ha : "usr" = a
      · subst ha
        rw [rootM_usr_view] at hv
        rcases usrTree_dom q2 hv with h | h <;> subst h <;> rfl
      · simp only [segsLe]
        rw [Bool.and_eq_false_iff]
        left
        exact beq_eq_false_iff_ne.mpr ha
    rw [husr1, husr2]
    simp

theorem view_dir_data {R : Inode} {q : List String} {t : EntryType}
    {d : List Nat} {p : Nat} (h : entryView R q = some (t, d, p))
    (ht : t = EntryType.dir) : entryView R q = some (.dir, [], p) := by
  subst ht
  unfold entryView at h ⊢
  cases hl : lookupSegs R q with
  | none =>
    rw [hl] at h
    exact Option.noConfusion h
  | some n =>
    rw [hl] at h
    cases n with
    | dir ch pn =>
      have h2 := Option.some.inj h
      have hp := congrArg (fun x => x.2.2) h2
      show some (EntryType.dir, ([] : List Nat), pn)
        = some (EntryType.dir, ([] : List Nat), p)
      rw [show pn = p from hp]
    | file c pn =>
      exact absurd (congrArg (fun x => x.1) (Option.some.inj h)) (by simp)
    | symlink tt pn => exact Option.noConfusion h

theorem segsLe_single_dropLast (x : String) (q : List String)
    (h : q.dropLast ≠ []) : segsLe [x] q.dropLast = segsLe [x] q := by
  cases q with
  | nil => exact absurd rfl h
  | cons a rest =>
    cases rest with
    | nil => exact absurd rfl h
    | cons b bs =>
      rw [dropLast_cons_ne (by simp)]
      simp [segsLe]

theorem exportEntries_root_eq {s1 s2 : VFSState} (h : s1.root = s2.root) :
    exportEntries s1 = exportEntries s2 := by
  unfold exportEntries
  rw [h]

/-- Importing the safe entries of the export of a clean default-layout
state into a fresh VFS reproduces the exported entry list up to
order. -/
theorem import_phases_roundtrip (H T U : InodeMap) (hp tp up rp : Nat)
    (s : VFSState)
    (hroot : s.root = .dir (rootMap H T hp tp) rp)
    (hH : InodeMap.cleanM H = true) (hT : InodeMap.cleanM T = true)
    (huser : H.find "user" = some (.dir U up)) :
    ∃ st3, importPhases ((exportEntries s).filter
        (fun e => isSafeImportPath e.path))
        { Vfs.newVFS {} with initializing := true } = .ok st3 ∧
      st3.root.clean = true ∧
      (exportEntries st3).Perm (exportEntries s) := by
  have hMclean : (rootMap H T hp tp).cleanM = true := by
    simp [rootMap, InodeMap.cleanM, InodeMap.has, InodeMap.find, Inode.clean,
      plainSeg, hH, hT]
  have hexp : exportEntries s
      = walkMap (rootMap H T hp tp) (renderPath []) EXCLUDED_PREFIXES := by
    unfold exportEntries
    rw [hroot]
    rfl
  have hLmem : ∀ e : SEntry, e ∈ exportEntries s ↔ ∃ q p, q ≠ [] ∧
      plainList q = true ∧
      (segsLe ["dev"] q || segsLe ["proc"] q) = false ∧
      e.path = renderPath q ∧
      entryView (.dir (rootMap H T hp tp) 0) q = some (e.type, e.data, p) ∧
      e.permissions = some p := by
    intro e
    rw [hexp]
    have hh := walkMap_mem (rootMap H T hp tp) [] e hMclean rfl
    simpa using hh
  have hLnodup : ((exportEntries s).map (fun e => e.path)).Nodup := by
    rw [hexp]
    exact walkMap_nodup _ [] hMclean rfl
  have hLpnodup : ((((exportEntries s).filter
      (fun e => isSafeImportPath e.path))).map (fun e => e.path)).Nodup :=
    List.Nodup.sublist (List.Sublist.map _ (List.filter_sublist _)) hLnodup
  have hL'char : ∀ e ∈ (exportEntries s).filter
      (fun e => isSafeImportPath e.path),
      ∃ q p, q ≠ [] ∧ plainList q = true ∧
        (segsLe ["dev"] q || segsLe ["proc"] q) = false ∧
        e.path = renderPath q ∧
        entryView (.dir (rootMap H T hp tp) 0) q = some (e.type, e.data, p) ∧
        e.permissions = some p ∧
        (segsLe ["home"] q || segsLe ["tmp"] q) = true := by
    intro e he
    have hmem := List.mem_filter.mp he
    obtain ⟨q, p, hq, hpl, hex, hpath, hview, hperm⟩ := (hLmem e).mp hmem.1
    refine ⟨q, p, hq, hpl, hex, hpath, hview, hperm, ?_⟩
    have hsafe : isSafeImportPath e.path = true := hmem.2
    rw [hpath, rootM_safe H T hp tp q hq hpl (by rw [hview]; simp)] at hsafe
    exact hsafe
  -- phase 1
  obtain ⟨st1, hfold1, i1, i2, i3, i4, i5, pres1, cov1, frame1⟩ :=
    phase1_fold ((exportEntries s).filter (fun e => isSafeImportPath e.path))
      { Vfs.newVFS {} with initializing := true }
      (by
        intro e he hd
        obtain ⟨q, p, hq, hpl, -, hpath, -, -, -⟩ := hL'char e he
        exact ⟨q, hq, hpl, hpath⟩)
      rfl rfl rfl rfl rfl
  have hW0 : ({ Vfs.newVFS {} with initializing := true } : VFSState).root
      = defaultRoot := rfl
  rw [hW0] at pres1 cov1 frame1
  -- the base tree never disagrees with `s` on type
  have hBW : ∀ q, entryView defaultRoot q ≠ none → q ≠ [] →
      ∃ pq, entryView (.dir (rootMap H T hp tp) 0) q
        = some (.dir, [], pq) := by
    intro q hB hq
    rcases defaultRoot_dom q hB with h|h|h|h|h|h|h|h
    · exact absurd h hq
    · subst h
      exact ⟨hp, by rw [rootM_home_view]; rfl⟩
    · subst h
      refine ⟨up, ?_⟩
      rw [rootM_home_view, entryView_cons, huser]
      rfl
    · subst h
      exact ⟨tp, by rw [rootM_tmp_view]; rfl⟩
    · subst h
      exact ⟨493, rfl⟩
    · subst h
      exact ⟨493, rfl⟩
    · subst h
      exact ⟨493, rfl⟩
    · subst h
      exact ⟨493, rfl⟩
  have hCovW : ∀ q, Covered ((exportEntries s).filter
      (fun e => isSafeImportPath e.path)) q →
      ∃ pq, entryView (.dir (rootMap H T hp tp) 0) q
        = some (.dir, [], pq) := by
    rintro q ⟨e2, he2, hd2, segs2, hpl2, hpath2, hqne, hle2⟩
    obtain ⟨q2, p2, hq2, hplq2, -, hpath2', hview2, -, -⟩ := hL'char e2 he2
    have hseq : segs2 = q2 :=
      renderPath_inj hpl2 hplq2 (hpath2.symm.trans hpath2')
    subst hseq
    obtain ⟨r, rfl⟩ := segsLe_exists hle2
    cases r with
    | nil =>
      rw [List.append_nil] at hview2
      exact ⟨p2, view_dir_data hview2 hd2⟩
    | cons x rs =>
      have hv2 : entryView (.dir (rootMap H T hp tp) 0) (q ++ x :: rs)
          ≠ none := by rw [hview2]; simp
      obtain ⟨ch, pq, -, hq'⟩ := view_prefix_dir hv2 (by simp)
      exact ⟨pq, hq'⟩
  have hst1cov : ∀ q, Covered ((exportEntries s).filter
      (fun e => isSafeImportPath e.path)) q →
      entryView st1.root q = some (.dir, [], 493) := by
    intro q hcov
    cases hB : entryView defaultRoot q with
    | none => exact cov1 q hB hcov
    | some v =>
      rcases defaultRoot_view_shape q with h0 | h0
      · rw [h0] at hB; cases hB
      · exact pres1 q _ h0
  -- phase 2
  obtain ⟨st2, hfold2, j1, j2, j3, j4, frame2, create2⟩ :=
    phase2_fold ((exportEntries s).filter (fun e => isSafeImportPath e.path))
      st1
      (by
        intro e he hf
        obtain ⟨q, p, hq, hpl, hex, hpath, hview, hperm, hhead⟩ := hL'char e he
        rw [hf] at hview
        refine ⟨q, hq, hpl, hpath, ?_, ?_⟩
        · have hBnone : entryView defaultRoot q = none := by
            cases hB : entryView defaultRoot q with
            | none => rfl
            | some v =>
              obtain ⟨pq, hWd⟩ := hBW q (by rw [hB]; simp) hq
              rw [hWd] at hview
              simp at hview
          have hNcov : ¬ Covered ((exportEntries s).filter
              (fun e => isSafeImportPath e.path)) q := by
            intro hcov
            obtain ⟨pq, hWd⟩ := hCovW q hcov
            rw [hWd] at hview
            simp at hview
          exact frame1 q hBnone hNcov
        · by_cases hpe : q.dropLast = []
          · refine ⟨493, ?_⟩
            rw [hpe]
            exact pres1 [] _ rfl
          · have hql : q.dropLast ++ [q.getLast hq] = q :=
              List.dropLast_append_getLast hq
            have hWsome : entryView (.dir (rootMap H T hp tp) 0)
                (q.dropLast ++ [q.getLast hq]) ≠ none := by
              rw [hql, hview]
              simp
            obtain ⟨ch, pd, -, hWpd⟩ := view_prefix_dir hWsome (by simp)
            have hplpe : plainList q.dropLast = true := plainList_dropLast hpl
            have hheadpe : (segsLe ["home"] q.dropLast
                || segsLe ["tmp"] q.dropLast) = true := by
              rw [segsLe_single_dropLast "home" q hpe,
                segsLe_single_dropLast "tmp" q hpe]
              exact hhead
            have hexpe : (segsLe ["dev"] q.dropLast
                || segsLe ["proc"] q.dropLast) = false := by
              rw [segsLe_single_dropLast "dev" q hpe,
                segsLe_single_dropLast "proc" q hpe]
              exact hex
            have hmempe : (⟨renderPath q.dropLast, [], .dir, some pd⟩ : SEntry)
                ∈ exportEntries s :=
              (hLmem _).mpr ⟨q.dropLast, pd, hpe, hplpe, hexpe, rfl, hWpd, rfl⟩
            have hsafepe : isSafeImportPath (renderPath q.dropLast) = true := by
              rw [rootM_safe H T hp tp q.dropLast hpe hplpe
                (by rw [hWpd]; simp)]
              exact hheadpe
            have hepeL' : (⟨renderPath q.dropLast, [], .dir, some pd⟩ : SEntry)
                ∈ (exportEntries s).filter (fun e => isSafeImportPath e.path) :=
              List.mem_filter.mpr ⟨hmempe, hsafepe⟩
            have hcovpe : Covered ((exportEntries s).filter
                (fun e => isSafeImportPath e.path)) q.dropLast :=
              ⟨_, hepeL', rfl, q.dropLast, hplpe, rfl, hpe, segsLe_refl _⟩
            exact ⟨493, hst1cov _ hcovpe⟩)
      hLpnodup i1 i2 i3 i5
  -- phase 3
  obtain ⟨st3, hfold3, k1, k2, k3, k4, frame3, perm3⟩ :=
    phase3_fold ((exportEntries s).filter (fun e => isSafeImportPath e.path))
      st2
      (by
        intro e he
        obtain ⟨q, p, hq, hpl, hex, hpath, hview, hperm, hhead⟩ := hL'char e he
        refine ⟨q, hq, hpl, hpath, ?_⟩
        by_cases hf : e.type = .file
        · rw [create2 e he hf q hpath hpl]
          rfl
        · have hd : e.type = .dir := by
            cases hft : e.type
            · exact absurd hft hf
            · rfl
          have hfr : entryView st2.root q = entryView st1.root q := by
            apply frame2 q
            intro e3 he3 hf3 hp3
            obtain ⟨q3, p3, hq3, hpl3, -, hpath3, hview3, -, -⟩ :=
              hL'char e3 he3
            have hq3q : q3 = q := renderPath_inj hpl3 hpl
              (hpath3.symm.trans hp3)
            rw [hq3q, hf3] at hview3
            rw [hview3] at hview
            rw [hd] at hview
            simp at hview
          rw [hfr]
          have hcov : Covered ((exportEntries s).filter
              (fun e => isSafeImportPath e.path)) q :=
            ⟨e, he, hd, q, hpl, hpath, hq, segsLe_refl q⟩
          rw [hst1cov q hcov]
          rfl)
      hLpnodup j4
  -- the final tree agrees with `s` on every plain nonempty path
  have hnoentry_of_none : ∀ (q : List String), plainList q = true →
      entryView (.dir (rootMap H T hp tp) 0) q = none →
      ∀ e3 ∈ (exportEntries s).filter (fun e => isSafeImportPath e.path),
        e3.path ≠ renderPath q := by
    intro q hpl hW e3 he3 hp3
    obtain ⟨q3, p3, hq3, hpl3, -, hpath3, hview3, -, -⟩ := hL'char e3 he3
    have hq3q : q3 = q := renderPath_inj hpl3 hpl (hpath3.symm.trans hp3)
    rw [hq3q, hW] at hview3
    cases hview3
  have hfinal : ∀ q, q ≠ [] → plainList q = true →
      entryView st3.root q = entryView (.dir (rootMap H T hp tp) 0) q := by
    intro q hq hpl
    cases hW : entryView (.dir (rootMap H T hp tp) 0) q with
    | some v =>
      obtain ⟨t, d, pw⟩ := v
      have hWne : entryView (.dir (rootMap H T hp tp) 0) q ≠ none := by
        rw [hW]
        simp
      have hexq : (segsLe ["dev"] q || segsLe ["proc"] q) = false := by
        cases q with
        | nil => exact absurd rfl hq
        | cons a q2 =>
          rcases rootM_heads H T hp tp a q2 hWne with h|h|h|h|h <;> subst h
            <;> rfl
      by_cases hhead : (segsLe ["home"] q || segsLe ["tmp"] q) = true
      · cases ht : t with
        | file =>
          rw [ht] at hW
          have he : (⟨renderPath q, d, .file, some pw⟩ : SEntry)
              ∈ exportEntries s :=
            (hLmem _).mpr ⟨q, pw, hq, hpl, hexq, rfl, hW, rfl⟩
          have hsafe : isSafeImportPath (renderPath q) = true := by
            rw [rootM_safe H T hp tp q hq hpl hWne]
            exact hhead
          have heL' : (⟨renderPath q, d, .file, some pw⟩ : SEntry)
              ∈ (exportEntries s).filter (fun e => isSafeImportPath e.path) :=
            List.mem_filter.mpr ⟨he, hsafe⟩
          have hst2 : entryView st2.root q = some (.file, d, 420) :=
            create2 _ heL' rfl q rfl hpl
          have hst3 := perm3 _ heL' q pw rfl hpl rfl .file d 420 hst2
          rw [hst3]
        | dir =>
          rw [ht] at hW
          have hW2 := view_dir_data hW rfl
          have hdnil : d = [] := by
            have := congrArg (fun x => x.2.1) (Option.some.inj
              (hW.symm.trans hW2))
            exact this
          subst hdnil
          have he : (⟨renderPath q, [], .dir, some pw⟩ : SEntry)
              ∈ exportEntries s :=
            (hLmem _).mpr ⟨q, pw, hq, hpl, hexq, rfl, hW, rfl⟩
          have hsafe : isSafeImportPath (renderPath q) = true := by
            rw [rootM_safe H T hp tp q hq hpl hWne]
            exact hhead
          have heL' : (⟨renderPath q, [], .dir, some pw⟩ : SEntry)
              ∈ (exportEntries s).filter (fun e => isSafeImportPath e.path) :=
            List.mem_filter.mpr ⟨he, hsafe⟩
          have hcov : Covered ((exportEntries s).filter
              (fun e => isSafeImportPath e.path)) q :=
            ⟨_, heL', rfl, q, hpl, rfl, hq, segsLe_refl q⟩
          have hst2 : entryView st2.root q = entryView st1.root q := by
            apply frame2 q
            intro e3 he3 hf3 hp3
            obtain ⟨q3, p3, hq3, hpl3, -, hpath3, hview3, -, -⟩ :=
              hL'char e3 he3
            have hq3q : q3 = q := renderPath_inj hpl3 hpl
              (hpath3.symm.trans hp3)
            rw [hq3q, hf3] at hview3
            rw [hW] at hview3
            simp at hview3
          rw [hst1cov q hcov] at hst2
          have hst3 := perm3 _ heL' q pw rfl hpl rfl .dir [] 493 hst2
          rw [hst3]
      · -- unsafe head: the default layout already matches `s` here
        have hnoe : ∀ e3 ∈ (exportEntries s).filter
            (fun e => isSafeImportPath e.path), e3.path ≠ renderPath q := by
          intro e3 he3 hp3
          obtain ⟨q3, p3, hq3, hpl3, -, hpath3, -, -, hhead3⟩ :=
            hL'char e3 he3
          have hq3q : q3 = q := renderPath_inj hpl3 hpl
            (hpath3.symm.trans hp3)
          rw [hq3q] at hhead3
          exact hhead (by exact hhead3)
        have hchain : entryView st3.root q = entryView st1.root q := by
          rw [frame3 q hnoe, frame2 q (fun e3 he3 _ => hnoe e3 he3)]
        cases q with
        | nil => exact absurd rfl hq
        | cons a q2 =>
          rcases rootM_heads H T hp tp a q2 hWne with h|h|h|h|h
          · subst h
            exact absurd (by rfl : (segsLe ["home"] ("home" :: q2)
              || segsLe ["tmp"] ("home" :: q2)) = true) hhead
          · subst h
            exact absurd (by rfl : (segsLe ["home"] ("tmp" :: q2)
              || segsLe ["tmp"] ("tmp" :: q2)) = true) hhead
          · subst h
            rw [rootM_bin_view] at hWne
            have hq2 := nilTree_dom 493 q2 hWne
            subst hq2
            rw [hchain, pres1 ("bin" :: []) (.dir, [], 493) rfl, ← hW]
            rfl
          · subst h
            rw [rootM_usr_view] at hWne
            rcases usrTree_dom q2 hWne with h2 | h2 <;> subst h2
            · rw [hchain, pres1 ("usr" :: []) (.dir, [], 493) rfl, ← hW]
              rfl
            · rw [hchain, pres1 ("usr" :: ["bin"]) (.dir, [], 493) rfl, ← hW]
              rfl
          · subst h
            rw [rootM_mnt_view] at hWne
            have hq2 := nilTree_dom 493 q2 hWne
            subst hq2
            rw [hchain, pres1 ("mnt" :: []) (.dir, [], 493) rfl, ← hW]
            rfl
    | none =>
      have hBnone : entryView defaultRoot q = none := by
        cases hB : entryView defaultRoot q with
        | none => rfl
        | some v =>
          obtain ⟨pq, hWd⟩ := hBW q (by rw [hB]; simp) hq
          rw [hWd] at hW
          cases hW
      have hNcov : ¬ Covered ((exportEntries s).filter
          (fun e => isSafeImportPath e.path)) q := by
        intro hcov
        obtain ⟨pq, hWd⟩ := hCovW q hcov
        rw [hWd] at hW
        cases hW
      have h1 : entryView st1.root q = none := frame1 q hBnone hNcov
      have hnoe := hnoentry_of_none q hpl hW
      rw [frame3 q hnoe, frame2 q (fun e3 he3 _ => hnoe e3 he3), h1]
  -- wrap up: the two exports characterize the same entries
  have hnil3 : entryView st3.root [] = some (.dir, [], 493) := by
    have hb1 : entryView st1.root [] = some (.dir, [], 493) :=
      pres1 [] _ rfl
    have hne : ∀ e3 ∈ (exportEntries s).filter
        (fun e => isSafeImportPath e.path), e3.path ≠ renderPath [] := by
      intro e3 he3 hp3
      obtain ⟨q3, p3, hq3, hpl3, -, hpath3, -, -, -⟩ := hL'char e3 he3
      exact hq3 (renderPath_inj hpl3 rfl (hpath3.symm.trans hp3))
    rw [frame3 [] hne, frame2 [] (fun e3 he3 _ => hne e3 he3), hb1]
  obtain ⟨M3, hM3⟩ := view_nil_dir hnil3
  have hM3clean : M3.cleanM = true := by
    have hc := k4
    rw [hM3] at hc
    exact hc
  have hexp3 : exportEntries st3
      = walkMap M3 (renderPath []) EXCLUDED_PREFIXES := by
    unfold exportEntries
    rw [hM3]
    rfl
  refine ⟨st3, ?_, k4, ?_⟩
  · unfold importPhases
    rw [hfold1]
    show ((Except.ok st1 >>= fun s1 => _) : Except VfsError VFSState) = _
    rw [show ((Except.ok st1 >>= fun s1 =>
        ((exportEntries s).filter (fun e => isSafeImportPath e.path)).foldlM
          (fun st e => if e.type = EntryType.file
            then writeFile st e.path e.data else pure st) s1 >>= fun s2 =>
        ((exportEntries s).filter (fun e => isSafeImportPath e.path)).foldlM
          (fun st e => match e.permissions with
            | some p => chmod st e.path p
            | none => pure st) s2) : Except VfsError VFSState)
      = (((exportEntries s).filter (fun e => isSafeImportPath e.path)).foldlM
          (fun st e => if e.type = EntryType.file
            then writeFile st e.path e.data else pure st) st1 >>= fun s2 =>
        ((exportEntries s).filter (fun e => isSafeImportPath e.path)).foldlM
          (fun st e => match e.permissions with
            | some p => chmod st e.path p
            | none => pure st) s2) from rfl]
    rw [hfold2]
    show (Except.ok st2 >>= fun s2 => _) = _
    rw [show ((Except.ok st2 >>= fun s2 =>
        ((exportEntries s).filter (fun e => isSafeImportPath e.path)).foldlM
          (fun st e => match e.permissions with
            | some p => chmod st e.path p
            | none => pure st) s2) : Except VfsError VFSState)
      = ((exportEntries s).filter (fun e => isSafeImportPath e.path)).foldlM
          (fun st e => match e.permissions with
            | some p => chmod st e.path p
            | none => pure st) st2 from rfl]
    exact hfold3
  · have hnodup3 : (exportEntries st3).Nodup := by
      apply List.Nodup.of_map (fun e => e.path)
      rw [hexp3]
      exact walkMap_nodup M3 [] hM3clean rfl
    have hnodupS : (exportEntries s).Nodup := by
      apply List.Nodup.of_map (fun e => e.path)
      exact hLnodup
    rw [List.perm_ext_iff_of_nodup hnodup3 hnodupS]
    intro e
    rw [hLmem e, hexp3]
    have hm3 := walkMap_mem M3 [] e hM3clean rfl
    rw [hm3]
    constructor
    · rintro ⟨q, p, hqne, hpl, hex, hpath, hview, hperm⟩
      rw [List.nil_append] at hex hpath
      refine ⟨q, p, hqne, hpl, hex, hpath, ?_, hperm⟩
      rw [← hfinal q hqne hpl]
      rw [entryView_perms_irrel M3 0 493 q hqne] at hview
      rw [hM3]
      exact hview
    · rintro ⟨q, p, hqne, hpl, hex, hpath, hview, hperm⟩
      refine ⟨q, p, hqne, hpl, by simpa using hex, by simpa using hpath,
        ?_, hperm⟩
      rw [entryView_perms_irrel M3 0 493 q hqne, ← hM3,
        hfinal q hqne hpl]
      exact hview

theorem crc32Round_lt (c : Nat) (hc : c < 2 ^ 32) :
    (if c % 2 = 1 then 0xEDB88320 ^^^ (c / 2) else c / 2) < 2 ^ 32 := by
  by_cases h : c % 2 = 1
  · rw [if_pos h]
    exact Nat.xor_lt_two_pow (by norm_num) (by omega)
  · rw [if_neg h]
    omega

theorem crc32TableEntry_lt (i : Nat) (h : i < 2 ^ 32) :
    crc32TableEntry i < 2 ^ 32 :=
  crc32Round_lt _ (crc32Round_lt _ (crc32Round_lt _ (crc32Round_lt _
    (crc32Round_lt _ (crc32Round_lt _ (crc32Round_lt _ (crc32Round_lt _ h)))))))

theorem crc32Update_lt (crc b : Nat) (h : crc < 2 ^ 32) :
    crc32Update crc b < 2 ^ 32 :=
  Nat.xor_lt_two_pow
    (crc32TableEntry_lt _ (Nat.lt_of_lt_of_le
      (Nat.mod_lt _ (by norm_num)) (by norm_num)))
    (Nat.lt_of_le_of_lt (Nat.div_le_self _ _) h)

theorem crc32_foldl_lt : ∀ (data : List Nat) (acc : Nat), acc < 2 ^ 32 →
    List.foldl crc32Update acc data < 2 ^ 32 := by
  intro data
  induction data with
  | nil => intro acc h; exact h
  | cons x xs ih => intro acc h; exact ih _ (crc32Update_lt acc x h)

/-- The computed checksum always fits in 32 bits, so the little-endian
header field stores it exactly. -/
theorem crc32_lt (data : List Nat) : crc32 data < 2 ^ 32 :=
  Nat.xor_lt_two_pow (crc32_foldl_lt data 0xFFFFFFFF (by norm_num))
    (by norm_num)

theorem le32_sum (c : Nat) (h : c < 2 ^ 32) :
    c % 256 + c / 256 % 256 * 256 + c / 65536 % 256 * 65536
      + c / 16777216 % 256 * 16777216 = c := by
  norm_num at h
  omega

theorem exportBlob_length
    (enc : List SEntry × Option (List (String × String)) → List Nat)
    (s : VFSState) (env : List (String × String)) :
    (exportBlob enc s env).length
      = (enc (exportEntries s, envField env)).length + 12 := by
  simp [exportBlob, MAGIC, le32]

set_option maxRecDepth 4000 in
/-- The header an exported blob carries passes every validation
`importPayload` runs: magic, version 2, length, CRC — so the import
recovers exactly the serialized payload. -/
theorem importPayload_export
    (enc : List SEntry × Option (List (String × String)) → List Nat)
    (s : VFSState) (env : List (String × String)) :
    importPayload (exportBlob enc s env)
      = .ok (enc (exportEntries s, envField env)) := by
  have hdrop : (exportBlob enc s env).drop HEADER_SIZE_V2
      = enc (exportEntries s, envField env) := rfl
  have g4 : (exportBlob enc s env).getD 4 0 = 2 := rfl
  have g5 : (exportBlob enc s env).getD 5 0 = 0 := rfl
  have g6 : (exportBlob enc s env).getD 6 0 = 0 := rfl
  have g7 : (exportBlob enc s env).getD 7 0 = 0 := rfl
  have g8 : (exportBlob enc s env).getD 8 0
      = crc32 (enc (exportEntries s, envField env)) % 256 := rfl
  have g9 : (exportBlob enc s env).getD 9 0
      = crc32 (enc (exportEntries s, envField env)) / 256 % 256 := rfl
  have g10 : (exportBlob enc s env).getD 10 0
      = crc32 (enc (exportEntries s, envField env)) / 65536 % 256 := rfl
  have g11 : (exportBlob enc s env).getD 11 0
      = crc32 (enc (exportEntries s, envField env)) / 16777216 % 256 := rfl
  have hver : getUint32LE (exportBlob enc s env) 4 = 2 := by
    unfold getUint32LE
    simp only [show (4 : Nat) + 1 = 5 from rfl, show (4 : Nat) + 2 = 6 from rfl,
      show (4 : Nat) + 3 = 7 from rfl]
    rw [g4, g5, g6, g7]
  have hcrc : getUint32LE (exportBlob enc s env) 8
      = crc32 (enc (exportEntries s, envField env)) := by
    unfold getUint32LE
    simp only [show (8 : Nat) + 1 = 9 from rfl, show (8 : Nat) + 2 = 10 from rfl,
      show (8 : Nat) + 3 = 11 from rfl]
    rw [g8, g9, g10, g11]
    exact le32_sum _ (crc32_lt _)
  unfold importPayload
  rw [if_pos hver,
    if_neg (show ¬((exportBlob enc s env).length < HEADER_SIZE_V2) from by
      rw [exportBlob_length]
      show ¬(_ + 12 < 12)
      omega),
    if_neg (show ¬(getUint32LE (exportBlob enc s env) 8
        ≠ crc32 ((exportBlob enc s env).drop HEADER_SIZE_V2)) from
      fun hne => hne (by rw [hdrop]; exact hcrc))]
  exact congrArg Except.ok hdrop

/-- A fresh VFS state holding the serialized `/mnt/secret` file the
safe-path filter will drop on import. -/
def c2Bad : VFSState :=
  match withWriteAccess (Vfs.newVFS {})
      (fun s => writeFile s "/mnt/secret" [1, 2, 3]) with
  | .ok s => s
  | .error _ => Vfs.newVFS {}

/-- C2 counterexample: a state with a file at `/mnt/secret` (written
through `withWriteAccess`, as the sandbox setup does) exports that file
— `/mnt` is not in the excluded prefixes — but importing the exported
blob into a fresh VFS silently drops it, because `/mnt` is not among
the safe prefixes; the re-exported payload therefore does not describe
the same set of entries, even with a faithful JSON codec. -/
theorem c2_counterexample :
    (exportEntries c2Bad).any (fun e => e.path == "/mnt/secret") = true ∧
    (match importState (fun _ => some (exportEntries c2Bad, none))
        (Vfs.newVFS {}) (exportBlob (fun _ => []) c2Bad []) with
      | .ok (st, _) => (exportEntries st).any (fun e => e.path == "/mnt/secret")
      | .error _ => true) = false := by
  exact ⟨rfl, rfl⟩

/-- C2 (amended: the round trip holds for states whose entries all lie
under the safe import prefixes — in particular any state keeping the
default top-level layout whose own files live under `/home` and `/tmp`
— but not in general, since exported entries outside the safe prefixes
such as `/mnt` are dropped by the import filter): for every such VFS
state `s` and every payload codec that decodes the exported JSON
payload back to the serialized entries and env, `importState` on the
exported blob (version 2, so the magic, version and CRC checks all
pass) applied to a freshly constructed VFS succeeds and returns the
same env field together with a state whose export lists exactly the
entries of `s` — same paths, same bytes, same permissions — up to
order. -/
theorem c2_export_import_roundtrip
    (enc : List SEntry × Option (List (String × String)) → List Nat)
    (dec : List Nat → Option (List SEntry × Option (List (String × String))))
    (H T U : InodeMap) (hp tp up rp : Nat)
    (s : VFSState) (env : List (String × String))
    (hroot : s.root = .dir (rootMap H T hp tp) rp)
    (hH : InodeMap.cleanM H = true) (hT : InodeMap.cleanM T = true)
    (huser : H.find "user" = some (.dir U up))
    (hdec : dec (enc (exportEntries s, envField env))
      = some (exportEntries s, envField env)) :
    ∃ st, importState dec (Vfs.newVFS {}) (exportBlob enc s env)
        = .ok (st, envField env) ∧
      (exportEntries st).Perm (exportEntries s) := by
  obtain ⟨st3, hphases, hclean3, hperm3⟩ :=
    import_phases_roundtrip H T U hp tp up rp s hroot hH hT huser
  have h3 : withWriteAccess (Vfs.newVFS {})
      (importPhases ((exportEntries s).filter
        (fun e => isSafeImportPath e.path)))
      = .ok { st3 with initializing := (Vfs.newVFS {}).initializing } := by
    show (match importPhases ((exportEntries s).filter
        (fun e => isSafeImportPath e.path))
        { Vfs.newVFS {} with initializing := true } with
      | .ok s2 => Except.ok
          { s2 with initializing := (Vfs.newVFS {}).initializing }
      | .error e => Except.error e)
      = .ok { st3 with initializing := (Vfs.newVFS {}).initializing }
    rw [hphases]
  refine ⟨{ st3 with initializing := (Vfs.newVFS {}).initializing }, ?_, ?_⟩
  · unfold importState
    rw [if_neg (show ¬((exportBlob enc s env).length < HEADER_SIZE_V1) from by
        rw [exportBlob_length]
        show ¬(_ + 12 < 8)
        omega),
      if_neg (show ¬((exportBlob enc s env).take 4 ≠ MAGIC) from
        fun hne => hne rfl),
      importPayload_export enc s env]
    show (match dec (enc (exportEntries s, envField env)) with
      | none => Except.error (ImportError.format "JSON parse error")
      | some (files, env2) =>
        match withWriteAccess (Vfs.newVFS {})
            (importPhases (files.filter (fun e => isSafeImportPath e.path))) with
        | .error e => Except.error (ImportError.vfs e)
        | .ok s2 => Except.ok (s2, env2)) = _
    rw [hdec]
    show (match withWriteAccess (Vfs.newVFS {})
        (importPhases ((exportEntries s).filter
          (fun e => isSafeImportPath e.path))) with
      | .error e => Except.error (ImportError.vfs e)
      | .ok s2 => Except.ok (s2, envField env)) = _
    rw [h3]
  · rw [exportEntries_root_eq
      (show ({ st3 with initializing := (Vfs.newVFS {}).initializing }
        : VFSState).root = st3.root from rfl)]
    exact hperm3

/-- C2 witness: the default fresh state round-trips — its seven default
directories (all under safe or preserved prefixes) are re-created and
re-exported unchanged. -/
theorem c2_export_import_roundtrip_witness :
    ∃ st, importState (fun _ => some (exportEntries (Vfs.newVFS {}), none))
        (Vfs.newVFS {}) (exportBlob (fun _ => []) (Vfs.newVFS {}) [])
        = .ok (st, envField []) ∧
      (exportEntries st).Perm (exportEntries (Vfs.newVFS {})) :=
  c2_export_import_roundtrip (fun _ => [])
    (fun _ => some (exportEntries (Vfs.newVFS {}), none))
    (.cons "user" (.dir .nil 493) .nil) .nil .nil 493 493 493 493
    (Vfs.newVFS {}) [] rfl rfl rfl rfl rfl

/-- C8 counterexample: a well-formed header with version 3 is rejected
with "Unsupported state version: 3", refuting "accepts every version
>= 1". -/
theorem c8_counterexample :
    importState (fun _ => none) (Vfs.newVFS {})
        [0x57, 0x53, 0x4E, 0x44, 3, 0, 0, 0]
      = .error (.format "Unsupported state version: 3") := rfl

/-- C8 (amended: versions other than 1 and 2 are rejected, not
accepted): `importState` rejects blobs shorter than the 8-byte v1
header; verifies the 4-byte magic, failing otherwise; rejects every
version other than 1 and 2 with an unsupported-version error; and for
version 2 recomputes the CRC32 of the JSON payload, comparing it with
the stored little-endian checksum and failing with the distinct
corrupted-state error on mismatch — in each case returning the error
with no resulting VFS state, before the restore loops run. -/
theorem c8_import_validation
    (d : List Nat → Option (List SEntry × Option (List (String × String))))
    (s : Vfs.VFSState) (blob : List Nat) :
    (blob.length < 8 →
      importState d s blob = .error (.format "Invalid state blob: too short")) ∧
    (8 ≤ blob.length → blob.take 4 ≠ MAGIC →
      importState d s blob
        = .error (.format "Invalid state blob: bad magic bytes")) ∧
    (8 ≤ blob.length → blob.take 4 = MAGIC →
      getUint32LE blob 4 ≠ 1 → getUint32LE blob 4 ≠ 2 →
      importState d s blob
        = .error (.format ("Unsupported state version: "
            ++ toString (getUint32LE blob 4)))) ∧
    (blob.take 4 = MAGIC → getUint32LE blob 4 = 2 → 12 ≤ blob.length →
      getUint32LE blob 8 ≠ crc32 (blob.drop 12) →
      importState d s blob
        = .error (.format "State blob checksum mismatch: data may be corrupted")) := by
  unfold importState importPayload
  refine ⟨?_, ?_, ?_, ?_⟩
  · intro h
    rw [if_pos (show blob.length < HEADER_SIZE_V1 from h)]
  · intro hlen hm
    rw [if_neg (show ¬ blob.length < HEADER_SIZE_V1 from by
          simp only [HEADER_SIZE_V1]; omega),
        if_pos hm]
  · intro hlen hm h1 h2
    rw [if_neg (show ¬ blob.length < HEADER_SIZE_V1 from by
          simp only [HEADER_SIZE_V1]; omega),
        if_neg (not_not_intro hm), if_neg h2, if_neg h1]
  · intro hm hv hlen hcrc
    rw [if_neg (show ¬ blob.length < HEADER_SIZE_V1 from by
          simp only [HEADER_SIZE_V1]; omega),
        if_neg (not_not_intro hm), if_pos hv,
        if_neg (show ¬ blob.length < HEADER_SIZE_V2 from by
          simp only [HEADER_SIZE_V2]; omega),
        if_pos (show getUint32LE blob 8 ≠ crc32 (blob.drop HEADER_SIZE_V2) from hcrc)]

/-- Witness for C8 on a version-2 blob whose stored checksum 0 differs
from the CRC32 of its 1-byte payload. -/
theorem c8_import_validation_witness :
    importState (fun _ => none) (Vfs.newVFS {})
        [0x57, 0x53, 0x4E, 0x44, 2, 0, 0, 0, 0, 0, 0, 0, 65]
      = .error (.format "State blob checksum mismatch: data may be corrupted") :=
  (c8_import_validation (fun _ => none) (Vfs.newVFS {})
      [0x57, 0x53, 0x4E, 0x44, 2, 0, 0, 0, 0, 0, 0, 0, 65]).2.2.2
    (by decide) (by decide) (by decide) (by decide)

end Serializer

end Codepod
